import Mathlib

/-!
Verification development for the SimALS-MaxError approximate-logic-synthesis
core (files under `src/als/src/`).  The C++ data structures and algorithms are
shallowly embedded: machine doubles holding integer-valued error scores are
modelled as rationals, `BigInt` (a 512-bit integer used only in ranges where it
cannot overflow) as `Int`/`Nat`, bit-parallel simulation bitsets as per-pattern
Booleans, and the external ABC network / CryptoMiniSat collaborators by their
consumed interface.  Each claim-level theorem carries a doc comment naming the
claim it settles.
-/

namespace SimALS

/-! ## Local approximate changes (`lac.h`)

The `LAC` record from `lac.h`: target node id, estimated size gain, the two
mutable error scores, the divisor list and the SOP function string.  The C++
`double` fields are modelled as rationals. -/

structure LacR where
  targId : Nat
  sizeGain : Int
  err : ℚ
  err2 : ℚ
  divs : List Nat
  sop : String
deriving DecidableEq

/-- Tolerance `EPSILON = 1e-8` from `my_util.hpp`. -/
def EPSILON : ℚ := 1 / 100000000

/-- Comparison `DoubleLess` from `my_util.hpp`: `a - b <= -epsilon`. -/
def DoubleLess (a b : ℚ) : Bool := decide (a - b ≤ -EPSILON)

/-- Comparison `DoubleEqual` from `my_util.hpp`: `fabs(a - b) < epsilon`. -/
def DoubleEqual (a b : ℚ) : Bool := decide (|a - b| < EPSILON)

/-- Comparison `DoubleGreat` from `my_util.hpp`: `a - b >= epsilon`. -/
def DoubleGreat (a b : ℚ) : Bool := decide (a - b ≥ EPSILON)

/-- Comparator `Lac0BetterThanLac1` from `lac.h`: primary key smaller `err`
(tolerance `EPSILON`), secondary key larger `sizeGain`. -/
def Lac0BetterThanLac1 (l0 l1 : LacR) : Bool :=
  if DoubleLess l0.err l1.err then true
  else if DoubleEqual l0.err l1.err then decide (l0.sizeGain > l1.sizeGain)
  else false

/-- Postcondition relation of `std::sort` with comparator
`Lac0BetterThanLac1`: no later element strictly before an earlier one.  The
model sort is `List.mergeSort` with this relation. -/
def lacLe (l0 l1 : LacR) : Bool := ! Lac0BetterThanLac1 l1 l0

/-- Sorting routine `LACMan::SortAndKeepTopKLACs` from `lac.cc`: sort by
`Lac0BetterThanLac1` (`std::sort`, modelled by a merge sort satisfying the same
postcondition), then keep the first `k` entries; `k = -1` or `k` not smaller
than the list length keeps everything. -/
def sortAndKeepTopKLACs (k : Int) (lacs : List LacR) : List LacR :=
  let sorted := lacs.mergeSort lacLe
  if k ≥ (sorted.length : Int) then sorted
  else if k = -1 then sorted
  else sorted.take k.toNat

/-- Exact strict order of the claimed contract: smaller `err` (exact rational
comparison), then larger `sizeGain`. -/
def lacExactLt (l0 l1 : LacR) : Prop :=
  l0.err < l1.err ∨ (l0.err = l1.err ∧ l0.sizeGain > l1.sizeGain)

instance : DecidablePred fun p : LacR × LacR => lacExactLt p.1 p.2 := by
  intro p; unfold lacExactLt; infer_instance

instance (l0 l1 : LacR) : Decidable (lacExactLt l0 l1) := by
  unfold lacExactLt; infer_instance

/-- Exact non-strict companion of `lacExactLt`. -/
def lacExactLe (l0 l1 : LacR) : Prop := ¬ lacExactLt l1 l0

theorem doubleLess_int {a b : ℚ} (ha : a.den = 1) (hb : b.den = 1) :
    DoubleLess a b = true ↔ a < b := by
  have ha' : (a.num : ℚ) = a := Rat.den_eq_one_iff a |>.mp ha
  have hb' : (b.num : ℚ) = b := Rat.den_eq_one_iff b |>.mp hb
  rw [DoubleLess, decide_eq_true_iff]
  constructor
  · intro h
    have : a - b < 0 := lt_of_le_of_lt h (by norm_num [EPSILON])
    linarith
  · intro h
    have hnum : a.num < b.num := by
      rw [← ha', ← hb'] at h; exact_mod_cast h
    have h1 : a.num ≤ b.num - 1 := by omega
    have : a ≤ b - 1 := by
      rw [← ha', ← hb']
      have : (a.num : ℚ) ≤ ((b.num - 1 : Int) : ℚ) := by exact_mod_cast h1
      push_cast at this ⊢; linarith
    have : a - b ≤ -1 := by linarith
    have : (-1 : ℚ) ≤ -EPSILON := by norm_num [EPSILON]
    linarith

theorem doubleEqual_int {a b : ℚ} (ha : a.den = 1) (hb : b.den = 1) :
    DoubleEqual a b = true ↔ a = b := by
  have ha' : (a.num : ℚ) = a := Rat.den_eq_one_iff a |>.mp ha
  have hb' : (b.num : ℚ) = b := Rat.den_eq_one_iff b |>.mp hb
  rw [DoubleEqual, decide_eq_true_iff]
  constructor
  · intro h
    by_contra hne
    have hnum : a.num ≠ b.num := by
      intro hc; apply hne; rw [← ha', ← hb', hc]
    have h1 : (1 : ℚ) ≤ |a - b| := by
      rw [← ha', ← hb']
      have hne0 : a.num - b.num ≠ 0 := by omega
      have h2 : (1 : Int) ≤ |a.num - b.num| := Int.one_le_abs hne0
      exact_mod_cast h2
    have : EPSILON ≤ 1 := by norm_num [EPSILON]
    linarith
  · intro h; rw [h]; simp; norm_num [EPSILON]

/-- On integer-valued error scores the implemented comparator coincides with
the exact lexicographic order. -/
theorem lac0Better_int {l0 l1 : LacR} (h0 : l0.err.den = 1) (h1 : l1.err.den = 1) :
    Lac0BetterThanLac1 l0 l1 = true ↔ lacExactLt l0 l1 := by
  unfold Lac0BetterThanLac1 lacExactLt
  by_cases hl : DoubleLess l0.err l1.err = true
  · simp only [hl, if_true]
    simp only [true_iff]
    exact Or.inl ((doubleLess_int h0 h1).mp hl)
  · simp only [hl]
    rw [Bool.not_eq_true] at hl
    simp only [hl, Bool.false_eq_true, if_false]
    by_cases he : DoubleEqual l0.err l1.err = true
    · simp only [he, if_true, decide_eq_true_iff]
      have heq := (doubleEqual_int h0 h1).mp he
      constructor
      · intro hg; exact Or.inr ⟨heq, hg⟩
      · rintro (hlt | ⟨_, hg⟩)
        · exact absurd ((doubleLess_int h0 h1).mpr hlt) (by simp [hl])
        · exact hg
    · rw [Bool.not_eq_true] at he
      simp only [he, Bool.false_eq_true, if_false, false_iff]
      rintro (hlt | ⟨heq, _⟩)
      · exact absurd ((doubleLess_int h0 h1).mpr hlt) (by simp [hl])
      · exact absurd ((doubleEqual_int h0 h1).mpr heq) (by simp [he])

theorem lacExactLe_iff {a b : LacR} :
    lacExactLe a b ↔ (a.err < b.err ∨ (a.err = b.err ∧ b.sizeGain ≤ a.sizeGain)) := by
  unfold lacExactLe lacExactLt
  constructor
  · intro h
    rcases lt_trichotomy a.err b.err with hlt | heq | hgt
    · exact Or.inl hlt
    · refine Or.inr ⟨heq, ?_⟩
      by_contra hg
      exact h (Or.inr ⟨heq.symm, by omega⟩)
    · exact absurd (Or.inl hgt) h
  · rintro (hlt | ⟨heq, hge⟩) (hlt2 | ⟨heq2, hg2⟩)
    · linarith
    · linarith [heq2.le]
    · linarith [heq.le]
    · omega

theorem lacExactLe_trans {a b c : LacR} (h1 : lacExactLe a b) (h2 : lacExactLe b c) :
    lacExactLe a c := by
  rw [lacExactLe_iff] at h1 h2 ⊢
  rcases h1 with h1 | ⟨e1, g1⟩ <;> rcases h2 with h2 | ⟨e2, g2⟩
  · exact Or.inl (h1.trans h2)
  · exact Or.inl (e2 ▸ h1)
  · exact Or.inl (e1 ▸ h2)
  · exact Or.inr ⟨e1.trans e2, le_trans g2 g1⟩

theorem lacExactLe_total (a b : LacR) : lacExactLe a b ∨ lacExactLe b a := by
  rw [lacExactLe_iff, lacExactLe_iff]
  rcases lt_trichotomy a.err b.err with h | h | h
  · exact Or.inl (Or.inl h)
  · rcases le_total b.sizeGain a.sizeGain with hg | hg
    · exact Or.inl (Or.inr ⟨h, hg⟩)
    · exact Or.inr (Or.inr ⟨h.symm, hg⟩)
  · exact Or.inr (Or.inl h)

theorem lacLe_iff_exact {a b : LacR} (ha : a.err.den = 1) (hb : b.err.den = 1) :
    lacLe a b = true ↔ lacExactLe a b := by
  unfold lacLe lacExactLe
  rw [Bool.not_eq_true']
  rw [← Bool.not_eq_true (Lac0BetterThanLac1 b a)]
  rw [lac0Better_int hb ha]

/-- The merge sort underlying the `SortAndKeepTopKLACs` model produces a list
pairwise ordered by `lacLe` whenever every error score is integer-valued. -/
theorem mergeSort_lacLe_pairwise (lacs : List LacR)
    (hden : ∀ l ∈ lacs, l.err.den = 1) :
    (lacs.mergeSort lacLe).Pairwise (fun a b => lacLe a b = true) := by
  have hmap : (lacs.attach.mergeSort fun a b => lacLe a.1 b.1).map Subtype.val
      = lacs.mergeSort lacLe := by
    rw [@List.map_mergeSort _ _ (fun a b => lacLe a.1 b.1) lacLe Subtype.val lacs.attach
      (fun a _ b _ => rfl)]
    rw [List.attach_map_subtype_val]
  have hpair : (lacs.attach.mergeSort fun a b => lacLe a.1 b.1).Pairwise
      (fun a b => lacLe a.1 b.1 = true) := by
    apply List.sorted_mergeSort
    · intro a b c hab hbc
      have ha := hden a.1 a.2
      have hb := hden b.1 b.2
      have hc := hden c.1 c.2
      rw [lacLe_iff_exact ha hb] at hab
      rw [lacLe_iff_exact hb hc] at hbc
      rw [lacLe_iff_exact ha hc]
      exact lacExactLe_trans hab hbc
    · intro a b
      have ha := hden a.1 a.2
      have hb := hden b.1 b.2
      rcases lacExactLe_total a.1 b.1 with h | h
      · simp [(lacLe_iff_exact ha hb).mpr h]
      · simp [(lacLe_iff_exact hb ha).mpr h]
  rw [← hmap]
  exact hpair.map _ (fun a b h => h)

/-- C6 (amended).  On candidate lists whose `error` scores are integer-valued —
as the Batch Error Estimator always produces them — `SortAndKeepTopKLACs k`
(`k ≥ 0`) is idempotent, and the retained list is exactly the `k` smallest
candidates under the exact (smaller `error`, then larger `sizeGain`) order,
ties otherwise unordered: splitting off the removed remainder `rest` gives a
permutation of the input with every retained candidate `lacExactLe` every
removed one. -/
theorem sortAndKeepTopKLACs_idempotent_topK (k : Int) (lacs : List LacR)
    (hk : 0 ≤ k) (hden : ∀ l ∈ lacs, l.err.den = 1) :
    sortAndKeepTopKLACs k (sortAndKeepTopKLACs k lacs) = sortAndKeepTopKLACs k lacs
    ∧ ∃ rest : List LacR,
        (sortAndKeepTopKLACs k lacs ++ rest).Perm lacs
        ∧ (sortAndKeepTopKLACs k lacs).length = min k.toNat lacs.length
        ∧ ∀ x ∈ sortAndKeepTopKLACs k lacs, ∀ y ∈ rest, lacExactLe x y := by
  have hpair := mergeSort_lacLe_pairwise lacs hden
  have hperm : (lacs.mergeSort lacLe).Perm lacs := List.mergeSort_perm lacs lacLe
  have hlen : (lacs.mergeSort lacLe).length = lacs.length := List.length_mergeSort ..
  set s := lacs.mergeSort lacLe with hs
  by_cases hkbig : k ≥ (s.length : Int)
  · have hres : sortAndKeepTopKLACs k lacs = s := by
      unfold sortAndKeepTopKLACs
      rw [← hs, if_pos hkbig]
    constructor
    · rw [hres]
      unfold sortAndKeepTopKLACs
      rw [List.mergeSort_of_sorted hpair]
      rw [if_pos hkbig]
    · refine ⟨[], ?_, ?_, ?_⟩
      · rw [hres, List.append_nil]; exact hperm
      · rw [hres, hlen]
        have : lacs.length ≤ k.toNat := by omega
        omega
      · intro x _ y hy; exact absurd hy (List.not_mem_nil y)
  · have hres : sortAndKeepTopKLACs k lacs = s.take k.toNat := by
      unfold sortAndKeepTopKLACs
      rw [← hs, if_neg hkbig, if_neg (by omega)]
    have htlen : (s.take k.toNat).length = k.toNat := by
      rw [List.length_take]
      omega
    constructor
    · rw [hres]
      unfold sortAndKeepTopKLACs
      have hsorted_take : (s.take k.toNat).Pairwise (fun a b => lacLe a b = true) :=
        hpair.sublist (List.take_sublist _ _)
      rw [List.mergeSort_of_sorted hsorted_take]
      rw [if_pos (by rw [htlen]; omega)]
    · refine ⟨s.drop k.toNat, ?_, ?_, ?_⟩
      · rw [hres, List.take_append_drop]; exact hperm
      · rw [hres, htlen]
        omega
      · intro x hx y hy
        rw [hres] at hx
        have hpair2 : (List.take k.toNat s ++ List.drop k.toNat s).Pairwise
            (fun a b => lacLe a b = true) := by
          rw [List.take_append_drop]; exact hpair
        have hmem := List.pairwise_append.mp hpair2
        have hxy := hmem.2.2 x hx y hy
        have hxl : x ∈ lacs := hperm.mem_iff.mp (List.mem_of_mem_take hx)
        have hyl : y ∈ lacs := hperm.mem_iff.mp (List.mem_of_mem_drop hy)
        exact (lacLe_iff_exact (hden x hxl) (hden y hyl)).mp hxy

/-- Candidate with a tiny positive error (below `EPSILON`) and a large size
gain. -/
def lacCexA : LacR := ⟨0, 10, 1 / 200000000, 0, [], "1 1\n"⟩

/-- Candidate with error exactly zero and a small size gain. -/
def lacCexB : LacR := ⟨1, 1, 0, 0, [], "1 1\n"⟩

/-- C6 (counterexample to the claim as stated).  For arbitrary `double` error
scores the comparator treats errors within `EPSILON = 1e-8` as equal and falls
back to the size gain, so `SortAndKeepTopKLACs 1` retains `lacCexA`
(error `5e-9`, gain 10) although under the exact (error, then −sizeGain) order
the unique smallest candidate is `lacCexB` (error 0): the retained list is not
the set of `k` smallest. -/
theorem sortAndKeepTopKLACs_not_exact_topK :
    sortAndKeepTopKLACs 1 [lacCexA, lacCexB] = [lacCexA]
    ∧ lacExactLt lacCexB lacCexA ∧ lacCexA ≠ lacCexB := by
  have hAB : lacLe lacCexA lacCexB = true := by
    simp only [lacLe, Lac0BetterThanLac1, DoubleLess, DoubleEqual, EPSILON,
      lacCexA, lacCexB]
    norm_num
  have hsorted : List.Pairwise (fun a b => lacLe a b = true) [lacCexA, lacCexB] := by
    refine List.Pairwise.cons ?_ (List.pairwise_singleton _ _)
    intro b hb
    rw [List.mem_singleton] at hb
    subst hb
    exact hAB
  have hms : [lacCexA, lacCexB].mergeSort lacLe = [lacCexA, lacCexB] :=
    List.mergeSort_of_sorted hsorted
  refine ⟨?_, ?_, ?_⟩
  · unfold sortAndKeepTopKLACs
    rw [hms]
    norm_num
  · simp only [lacExactLt, lacCexA, lacCexB]
    norm_num
  · simp only [lacCexA, lacCexB, ne_eq, LacR.mk.injEq]
    norm_num

/-- Witness instantiating `sortAndKeepTopKLACs_idempotent_topK` on a concrete
integer-valued candidate list. -/
theorem sortAndKeepTopKLACs_idempotent_topK_witness :
    (0 : Int) ≤ 1
    ∧ (sortAndKeepTopKLACs 1 (sortAndKeepTopKLACs 1 [lacCexB, ⟨2, 3, 7, 0, [], " 0\n"⟩])
        = sortAndKeepTopKLACs 1 [lacCexB, ⟨2, 3, 7, 0, [], " 0\n"⟩]
      ∧ ∃ rest : List LacR,
        (sortAndKeepTopKLACs 1 [lacCexB, ⟨2, 3, 7, 0, [], " 0\n"⟩] ++ rest).Perm
            [lacCexB, ⟨2, 3, 7, 0, [], " 0\n"⟩]
        ∧ (sortAndKeepTopKLACs 1 [lacCexB, ⟨2, 3, 7, 0, [], " 0\n"⟩]).length
            = min (1 : Int).toNat ([lacCexB, ⟨2, 3, 7, 0, [], " 0\n"⟩] : List LacR).length
        ∧ ∀ x ∈ sortAndKeepTopKLACs 1 [lacCexB, ⟨2, 3, 7, 0, [], " 0\n"⟩], ∀ y ∈ rest,
            lacExactLe x y) :=
  ⟨by decide,
   sortAndKeepTopKLACs_idempotent_topK 1 [lacCexB, ⟨2, 3, 7, 0, [], " 0\n"⟩]
     (by decide) (by decide)⟩

/-! ## SASIMI candidate generation (`LACMan::GenSasimiLACs`, `lac.cc`)

The generator reads the network only through the accessors `IsObj`, `IsNode`,
`IsObjPo`, `IsConst`, `GetFaninNum`, `GetObjLev` and `GetSizeGain`; the network
collaborator is embedded as that accessor record. -/

structure SasimiNet where
  idMaxPlus1 : Nat
  isObj : Nat → Bool
  isNode : Nat → Bool
  isObjPo : Nat → Bool
  isConst : Nat → Bool
  faninNum : Nat → Nat
  objLev : Nat → Nat
  sizeGain : Nat → List Nat → Int

/-- Value `DBL_MAX` used to initialise the `err`/`err2` fields of a freshly
constructed `LAC`; the largest finite double, an integer-valued real. -/
def DBL_MAX_Q : ℚ := mkRat (2 ^ 1024 - 2 ^ 971) 1

/-- Constructor `LAC(targId, sizeGain, divs, sop)` from `lac.h`: error fields
start at `DBL_MAX`. -/
def mkLac (targId : Nat) (gain : Int) (divs : List Nat) (sop : String) : LacR :=
  ⟨targId, gain, DBL_MAX_Q, DBL_MAX_Q, divs, sop⟩

/-- Inner substitute loop of `GenSasimiLACs` for one target: scan candidate
substitute ids, skip non-objects, POs, constants and the target itself, emit
the equal/complemented pair for substitutes at strictly lower level, and break
once the per-target counter reaches `maxPerNode`. -/
def sasimiInner (net : SasimiNet) (maxPerNode targId : Nat) :
    List Nat → Nat → List LacR
  | [], _ => []
  | subId :: rest, lacNum =>
    if !net.isObj subId || net.isObjPo subId || net.isConst subId || targId = subId then
      sasimiInner net maxPerNode targId rest lacNum
    else if net.objLev subId < net.objLev targId then
      let g := net.sizeGain targId [subId]
      let emitted := [mkLac targId g [subId] "1 1\n", mkLac targId g [subId] "0 1\n"]
      if lacNum + 2 ≥ maxPerNode then emitted
      else emitted ++ sasimiInner net maxPerNode targId rest (lacNum + 2)
    else sasimiInner net maxPerNode targId rest lacNum

/-- Predicate for target collection in `GenSasimiLACs`: internal non-constant
node with more than one fanin. -/
def sasimiTargP (net : SasimiNet) (nodeId : Nat) : Bool :=
  net.isNode nodeId && !net.isConst nodeId && decide (net.faninNum nodeId > 1)

/-- Generator `LACMan::GenSasimiLACs` from `lac.cc`: optional constant
candidates, then for every target the substitute scan capped at
`max(1, maxCandResub / #targets)` candidates per target. -/
def genSasimiLACs (net : SasimiNet) (maxCandResub : Nat) (inclConst : Bool) :
    List LacR :=
  let constPart :=
    if inclConst then
      (List.range net.idMaxPlus1).flatMap fun nodeId =>
        if net.isNode nodeId && !net.isConst nodeId then
          [mkLac nodeId (net.sizeGain nodeId []) [] " 1\n",
           mkLac nodeId (net.sizeGain nodeId []) [] " 0\n"]
        else []
    else []
  let targIds := (List.range net.idMaxPlus1).filter (sasimiTargP net)
  if targIds = [] then constPart
  else
    let maxPerNode := max 1 (maxCandResub / targIds.length)
    constPart ++ targIds.flatMap fun targId =>
      sasimiInner net maxPerNode targId (List.range net.idMaxPlus1) 0

/-- Eligibility of a substitute id for a given target in the SASIMI scan. -/
def sasimiSubOk (net : SasimiNet) (targId subId : Nat) : Prop :=
  net.isObj subId = true ∧ net.isObjPo subId = false ∧ net.isConst subId = false
  ∧ targId ≠ subId ∧ net.objLev subId < net.objLev targId

instance (net : SasimiNet) (t s : Nat) : Decidable (sasimiSubOk net t s) := by
  unfold sasimiSubOk; infer_instance

theorem mkLac_inj {t g divs sop t' g' divs' sop'} :
    mkLac t g divs sop = mkLac t' g' divs' sop'
    ↔ t = t' ∧ g = g' ∧ divs = divs' ∧ sop = sop' := by
  unfold mkLac
  rw [LacR.mk.injEq]
  simp

theorem sasimiInner_mem {net : SasimiNet} {maxPerNode targId : Nat}
    {subs : List Nat} {lacNum : Nat} {lac : LacR}
    (h : lac ∈ sasimiInner net maxPerNode targId subs lacNum) :
    lac.targId = targId
    ∧ ∃ s ∈ subs, sasimiSubOk net targId s ∧ lac.divs = [s]
        ∧ lac.sizeGain = net.sizeGain targId [s]
        ∧ (lac.sop = "1 1\n" ∨ lac.sop = "0 1\n") := by
  induction subs generalizing lacNum with
  | nil => simp [sasimiInner] at h
  | cons s rest ih =>
    rw [sasimiInner] at h
    by_cases hskip : (!net.isObj s || net.isObjPo s || net.isConst s || targId = s) = true
    · rw [if_pos hskip] at h
      obtain ⟨ht, s0, hs0, hrest⟩ := ih h
      exact ⟨ht, s0, List.mem_cons_of_mem _ hs0, hrest⟩
    · rw [if_neg hskip] at h
      have hok0 : net.isObj s = true ∧ net.isObjPo s = false ∧ net.isConst s = false
          ∧ targId ≠ s := by
        by_cases h1 : net.isObj s = true
        · by_cases h2 : net.isObjPo s = false
          · by_cases h3 : net.isConst s = false
            · by_cases h4 : targId = s
              · exact absurd (by simp [h4]) hskip
              · exact ⟨h1, h2, h3, h4⟩
            · rw [Bool.not_eq_false] at h3
              exact absurd (by simp [h3]) hskip
          · rw [Bool.not_eq_false] at h2
            exact absurd (by simp [h2]) hskip
        · rw [Bool.not_eq_true] at h1
          exact absurd (by simp [h1]) hskip
      obtain ⟨hobj, hpo, hconst, hne⟩ := hok0
      by_cases hlev : net.objLev s < net.objLev targId
      · rw [if_pos hlev] at h
        have hok : sasimiSubOk net targId s := ⟨hobj, hpo, hconst, hne, hlev⟩
        have hcase : lac = mkLac targId (net.sizeGain targId [s]) [s] "1 1\n"
            ∨ lac = mkLac targId (net.sizeGain targId [s]) [s] "0 1\n"
            ∨ lac ∈ sasimiInner net maxPerNode targId rest (lacNum + 2) := by
          by_cases hbrk : lacNum + 2 ≥ maxPerNode
          · rw [if_pos hbrk] at h
            rcases List.mem_cons.mp h with h | h
            · exact Or.inl h
            · exact Or.inr (Or.inl (List.mem_singleton.mp h))
          · rw [if_neg hbrk] at h
            rcases List.mem_append.mp h with h | h
            · rcases List.mem_cons.mp h with h | h
              · exact Or.inl h
              · exact Or.inr (Or.inl (List.mem_singleton.mp h))
            · exact Or.inr (Or.inr h)
        rcases hcase with h | h | h
        · subst h
          exact ⟨rfl, s, List.mem_cons_self .., hok, rfl, rfl, Or.inl rfl⟩
        · subst h
          exact ⟨rfl, s, List.mem_cons_self .., hok, rfl, rfl, Or.inr rfl⟩
        · obtain ⟨ht, s0, hs0, hrest⟩ := ih h
          exact ⟨ht, s0, List.mem_cons_of_mem _ hs0, hrest⟩
      · rw [if_neg hlev] at h
        obtain ⟨ht, s0, hs0, hrest⟩ := ih h
        exact ⟨ht, s0, List.mem_cons_of_mem _ hs0, hrest⟩

theorem sasimiInner_length {net : SasimiNet} {maxPerNode targId : Nat}
    (subs : List Nat) (lacNum : Nat) (hlt : lacNum < maxPerNode) :
    (sasimiInner net maxPerNode targId subs lacNum).length + lacNum ≤ maxPerNode + 1 := by
  induction subs generalizing lacNum with
  | nil =>
    rw [sasimiInner]
    simp only [List.length_nil]
    omega
  | cons s rest ih =>
    rw [sasimiInner]
    by_cases hskip : (!net.isObj s || net.isObjPo s || net.isConst s || targId = s) = true
    · rw [if_pos hskip]; exact ih lacNum hlt
    · rw [if_neg hskip]
      by_cases hlev : net.objLev s < net.objLev targId
      · rw [if_pos hlev]
        by_cases hbrk : lacNum + 2 ≥ maxPerNode
        · rw [if_pos hbrk]
          simp only [List.length_cons, List.length_nil]
          omega
        · rw [if_neg hbrk]
          have := ih (lacNum + 2) (by omega)
          simp only [List.length_append, List.length_cons, List.length_nil]
          omega
      · rw [if_neg hlev]; exact ih lacNum hlt

/-- Characterisation of the substitution pair list: `sasimiInner` emits the
equal and complemented candidates in pairs. -/
theorem sasimiInner_paired {net : SasimiNet} {maxPerNode targId : Nat}
    (subs : List Nat) (lacNum : Nat) :
    ∃ ps : List (Int × Nat),
      sasimiInner net maxPerNode targId subs lacNum
        = ps.flatMap fun p =>
            [mkLac targId p.1 [p.2] "1 1\n", mkLac targId p.1 [p.2] "0 1\n"] := by
  induction subs generalizing lacNum with
  | nil => exact ⟨[], rfl⟩
  | cons s rest ih =>
    rw [sasimiInner]
    by_cases hskip : (!net.isObj s || net.isObjPo s || net.isConst s || targId = s) = true
    · rw [if_pos hskip]; exact ih lacNum
    · rw [if_neg hskip]
      by_cases hlev : net.objLev s < net.objLev targId
      · rw [if_pos hlev]
        by_cases hbrk : lacNum + 2 ≥ maxPerNode
        · rw [if_pos hbrk]
          exact ⟨[(net.sizeGain targId [s], s)], rfl⟩
        · rw [if_neg hbrk]
          obtain ⟨ps, hps⟩ := ih (lacNum + 2)
          refine ⟨(net.sizeGain targId [s], s) :: ps, ?_⟩
          rw [List.flatMap_cons, hps]
      · rw [if_neg hlev]; exact ih lacNum

theorem pairList_mem_iff {targId : Nat} (ps : List (Int × Nat)) (g : Int) (s : Nat) :
    mkLac targId g [s] "1 1\n"
        ∈ (ps.flatMap fun p =>
            [mkLac targId p.1 [p.2] "1 1\n", mkLac targId p.1 [p.2] "0 1\n"])
    ↔ mkLac targId g [s] "0 1\n"
        ∈ (ps.flatMap fun p =>
            [mkLac targId p.1 [p.2] "1 1\n", mkLac targId p.1 [p.2] "0 1\n"]) := by
  have hne : ("1 1\n" : String) ≠ "0 1\n" := by decide
  induction ps with
  | nil => simp
  | cons p rest ih =>
    rw [List.flatMap_cons]
    simp only [List.mem_append, List.mem_cons, List.mem_singleton, List.not_mem_nil,
      or_false, mkLac_inj, eq_self_iff_true, true_and, and_true, hne, Ne.symm hne,
      false_and, and_false, false_or, or_false]
    exact or_congr Iff.rfl ih

/-- If some eligible substitute occurs in the scan list and the counter is
still below the cap, the scan emits at least one candidate. -/
theorem sasimiInner_ne_nil {net : SasimiNet} {maxPerNode targId : Nat}
    {subs : List Nat} {lacNum : Nat} {s : Nat} (hs : s ∈ subs)
    (hok : sasimiSubOk net targId s) (hlt : lacNum < maxPerNode) :
    sasimiInner net maxPerNode targId subs lacNum ≠ [] := by
  induction subs generalizing lacNum with
  | nil => exact absurd hs (List.not_mem_nil s)
  | cons s0 rest ih =>
    rw [sasimiInner]
    by_cases hskip : (!net.isObj s0 || net.isObjPo s0 || net.isConst s0 || targId = s0) = true
    · rw [if_pos hskip]
      rcases List.mem_cons.mp hs with rfl | hs0
      · obtain ⟨h1, h2, h3, h4, _⟩ := hok
        rw [h1, h2, h3] at hskip
        simp at hskip
        exact absurd hskip h4
      · exact ih hs0 hlt
    · rw [if_neg hskip]
      by_cases hlev : net.objLev s0 < net.objLev targId
      · rw [if_pos hlev]
        by_cases hbrk : lacNum + 2 ≥ maxPerNode
        · rw [if_pos hbrk]; simp
        · rw [if_neg hbrk]; simp
      · rw [if_neg hlev]
        rcases List.mem_cons.mp hs with rfl | hs0
        · exact absurd hok.2.2.2.2 hlev
        · exact ih hs0 hlt

/-- Substitution targets collected by `GenSasimiLACs`. -/
def sasimiTargIds (net : SasimiNet) : List Nat :=
  (List.range net.idMaxPlus1).filter (sasimiTargP net)

/-- Per-target candidate cap `MAX_LAC_PER_NODE` of `GenSasimiLACs`. -/
def sasimiQuota (net : SasimiNet) (maxCandResub : Nat) : Nat :=
  max 1 (maxCandResub / (sasimiTargIds net).length)

/-- Substitution (non-constant) candidates produced by `GenSasimiLACs`. -/
def sasimiSubCands (net : SasimiNet) (maxCandResub : Nat) (inclConst : Bool) :
    List LacR :=
  (genSasimiLACs net maxCandResub inclConst).filter fun l => !l.divs.isEmpty

theorem sasimiSubCands_eq (net : SasimiNet) (m : Nat) (inclConst : Bool) :
    sasimiSubCands net m inclConst
      = (sasimiTargIds net).flatMap fun t =>
          sasimiInner net (sasimiQuota net m) t (List.range net.idMaxPlus1) 0 := by
  have hconst : ∀ (cp : List LacR), (∀ l ∈ cp, l.divs = []) →
      cp.filter (fun l => !l.divs.isEmpty) = [] := by
    intro cp hcp
    rw [List.filter_eq_nil_iff]
    intro l hl
    rw [hcp l hl]
    simp
  have hconstPart : ∀ l ∈ (if inclConst then
      (List.range net.idMaxPlus1).flatMap fun nodeId =>
        if net.isNode nodeId && !net.isConst nodeId then
          [mkLac nodeId (net.sizeGain nodeId []) [] " 1\n",
           mkLac nodeId (net.sizeGain nodeId []) [] " 0\n"]
        else []
      else []), l.divs = [] := by
    intro l hl
    by_cases hic : inclConst
    · rw [if_pos hic] at hl
      rw [List.mem_flatMap] at hl
      obtain ⟨nodeId, _, hl⟩ := hl
      by_cases hn : (net.isNode nodeId && !net.isConst nodeId) = true
      · rw [if_pos hn] at hl
        rcases List.mem_cons.mp hl with h | h
        · rw [h]; rfl
        · rw [List.mem_singleton.mp h]; rfl
      · rw [if_neg hn] at hl
        exact absurd hl (List.not_mem_nil l)
    · rw [if_neg hic] at hl
      exact absurd hl (List.not_mem_nil l)
  unfold sasimiTargIds sasimiQuota sasimiTargIds
  show ((if (List.range net.idMaxPlus1).filter (sasimiTargP net) = [] then _ else _) :
      List LacR).filter _ = _
  by_cases hemp : (List.range net.idMaxPlus1).filter (sasimiTargP net) = []
  · rw [if_pos hemp, hconst _ hconstPart, hemp, List.flatMap_nil]
  · rw [if_neg hemp, List.filter_append, hconst _ hconstPart, List.nil_append]
    rw [List.filter_eq_self]
    intro l hl
    rw [List.mem_flatMap] at hl
    obtain ⟨t, _, hl⟩ := hl
    obtain ⟨_, s, _, _, hdiv, _⟩ := sasimiInner_mem hl
    rw [hdiv]
    simp

theorem sasimiSubCands_targ_block (net : SasimiNet) (m : Nat) (inclConst : Bool)
    (t : Nat) :
    (sasimiSubCands net m inclConst).filter (fun l => decide (l.targId = t))
      = if t ∈ sasimiTargIds net then
          sasimiInner net (sasimiQuota net m) t (List.range net.idMaxPlus1) 0
        else [] := by
  rw [sasimiSubCands_eq]
  have hnd : (sasimiTargIds net).Nodup := (List.nodup_range _).filter _
  have hblock : ∀ t' : Nat,
      (sasimiInner net (sasimiQuota net m) t' (List.range net.idMaxPlus1) 0).filter
        (fun l => decide (l.targId = t))
      = if t' = t then
          sasimiInner net (sasimiQuota net m) t (List.range net.idMaxPlus1) 0
        else [] := by
    intro t'
    by_cases ht' : t' = t
    · subst ht'
      rw [if_pos rfl, List.filter_eq_self]
      intro l hl
      rw [(sasimiInner_mem hl).1]
      simp
    · rw [if_neg ht', List.filter_eq_nil_iff]
      intro l hl
      rw [(sasimiInner_mem hl).1]
      simp [ht']
  have key : ∀ L : List Nat, L.Nodup →
      (L.flatMap fun t' =>
          sasimiInner net (sasimiQuota net m) t' (List.range net.idMaxPlus1) 0).filter
        (fun l => decide (l.targId = t))
      = if t ∈ L then
          sasimiInner net (sasimiQuota net m) t (List.range net.idMaxPlus1) 0
        else [] := by
    intro L
    induction L with
    | nil => intro _; simp
    | cons t0 rest ih =>
      intro hnd0
      rw [List.nodup_cons] at hnd0
      rw [List.flatMap_cons, List.filter_append, hblock t0]
      by_cases ht0 : t0 = t
      · subst ht0
        rw [if_pos rfl, if_pos (List.mem_cons_self ..)]
        have hrest : (rest.flatMap fun t' =>
            sasimiInner net (sasimiQuota net m) t' (List.range net.idMaxPlus1) 0).filter
            (fun l => decide (l.targId = t0)) = [] := by
          rw [List.filter_eq_nil_iff]
          intro l hl
          rw [List.mem_flatMap] at hl
          obtain ⟨t', ht', hl⟩ := hl
          rw [(sasimiInner_mem hl).1]
          intro hc
          rw [decide_eq_true_eq] at hc
          exact hnd0.1 (hc ▸ ht')
        rw [hrest, List.append_nil]
      · rw [if_neg ht0, List.nil_append, ih hnd0.2]
        by_cases htr : t ∈ rest
        · rw [if_pos htr, if_pos (List.mem_cons_of_mem _ htr)]
        · rw [if_neg htr, if_neg ?_]
          intro hc
          rcases List.mem_cons.mp hc with hc | hc
          · exact ht0 hc.symm
          · exact htr hc
  exact key _ hnd

/-- C8 (amended).  `LACMan::GenSasimiLACs` emits substitution candidates
exactly for targets that are non-constant internal nodes with fan-in at least
two; every emitted substitution candidate uses a single substitute node that is
an existing non-PO, non-constant object distinct from the target at strictly
lower logic level, carries the equal/complemented one-divisor SOP, and comes
paired with its complemented twin; every target with at least one eligible
substitute receives candidates; and the number of candidates per target is at
most one more than the per-target quota `max(1, maxCandResub / #targets)`
(the code checks the cap only after emitting a pair, so an odd quota is
exceeded by one). -/
theorem genSasimiLACs_spec (net : SasimiNet) (m : Nat) (inclConst : Bool) :
    (∀ lac ∈ sasimiSubCands net m inclConst,
       lac.targId ∈ sasimiTargIds net
       ∧ ∃ s < net.idMaxPlus1, sasimiSubOk net lac.targId s ∧ lac.divs = [s]
           ∧ lac.sizeGain = net.sizeGain lac.targId [s]
           ∧ (lac.sop = "1 1\n" ∨ lac.sop = "0 1\n"))
    ∧ (∀ (g : Int) (t s : Nat),
         mkLac t g [s] "1 1\n" ∈ sasimiSubCands net m inclConst
         ↔ mkLac t g [s] "0 1\n" ∈ sasimiSubCands net m inclConst)
    ∧ (∀ t : Nat,
         ((sasimiSubCands net m inclConst).filter
            (fun l => decide (l.targId = t))).length ≤ sasimiQuota net m + 1)
    ∧ (∀ t ∈ sasimiTargIds net, (∃ s < net.idMaxPlus1, sasimiSubOk net t s) →
         ∃ lac ∈ sasimiSubCands net m inclConst, lac.targId = t) := by
  refine ⟨?_, ?_, ?_, ?_⟩
  · intro lac hl
    rw [sasimiSubCands_eq, List.mem_flatMap] at hl
    obtain ⟨t, ht, hl⟩ := hl
    obtain ⟨htarg, s, hs, hok, hrest⟩ := sasimiInner_mem hl
    refine ⟨htarg ▸ ht, s, List.mem_range.mp hs, htarg ▸ hok, htarg ▸ hrest⟩
  · intro g t s
    rw [sasimiSubCands_eq]
    constructor
    · intro h
      rw [List.mem_flatMap] at h ⊢
      obtain ⟨t', ht', hmem⟩ := h
      have heq : t = t' := (sasimiInner_mem hmem).1
      subst heq
      obtain ⟨ps, hps⟩ := @sasimiInner_paired net
        (sasimiQuota net m) t (List.range net.idMaxPlus1) 0
      rw [hps] at hmem
      exact ⟨t, ht', by rw [hps]; exact (pairList_mem_iff ps g s).mp hmem⟩
    · intro h
      rw [List.mem_flatMap] at h ⊢
      obtain ⟨t', ht', hmem⟩ := h
      have heq : t = t' := (sasimiInner_mem hmem).1
      subst heq
      obtain ⟨ps, hps⟩ := @sasimiInner_paired net
        (sasimiQuota net m) t (List.range net.idMaxPlus1) 0
      rw [hps] at hmem
      exact ⟨t, ht', by rw [hps]; exact (pairList_mem_iff ps g s).mpr hmem⟩
  · intro t
    rw [sasimiSubCands_targ_block]
    by_cases ht : t ∈ sasimiTargIds net
    · rw [if_pos ht]
      have := @sasimiInner_length net (sasimiQuota net m)
        t (List.range net.idMaxPlus1) 0
        (by unfold sasimiQuota; omega)
      omega
    · rw [if_neg ht]
      simp
  · intro t ht hex
    obtain ⟨s, hs, hok⟩ := hex
    have hne := @sasimiInner_ne_nil net (sasimiQuota net m)
      t (List.range net.idMaxPlus1) 0 s (List.mem_range.mpr hs) hok (show 0 < sasimiQuota net m by unfold sasimiQuota; omega)
    obtain ⟨lac, hlac⟩ := List.exists_mem_of_ne_nil _ hne
    refine ⟨lac, ?_, (sasimiInner_mem hlac).1⟩
    rw [sasimiSubCands_eq, List.mem_flatMap]
    exact ⟨t, ht, hlac⟩

/-- Network with a single SASIMI target (node 1, two fanins, level 1) and a
single eligible substitute (object 0 at level 0). -/
def sasimiCexNet : SasimiNet where
  idMaxPlus1 := 2
  isObj := fun i => decide (i < 2)
  isNode := fun i => decide (i = 1)
  isObjPo := fun _ => false
  isConst := fun _ => false
  faninNum := fun i => if i = 1 then 2 else 0
  objLev := fun i => if i = 1 then 1 else 0
  sizeGain := fun _ _ => 1

/-- C8 (counterexample to the claim as stated).  With candidate budget
`maxCandResub = 1` and a single target, the claimed per-target quota is
`1 / 1 = 1`, yet the generator emits two candidates for the target: the cap is
checked only after a pair is emitted, so the emitted count exceeds the quota
obtained by dividing the budget by the number of targets. -/
theorem genSasimiLACs_cap_exceeded :
    ((genSasimiLACs sasimiCexNet 1 false).filter
        (fun l => decide (l.targId = 1))).length = 2
    ∧ (1 : Nat) / (sasimiTargIds sasimiCexNet).length = 1 := by
  constructor
  · rfl
  · rfl

/-- Witness instantiating `genSasimiLACs_spec` on the concrete network
`sasimiCexNet`. -/
theorem genSasimiLACs_spec_witness :
    (∀ lac ∈ sasimiSubCands sasimiCexNet 1 false,
       lac.targId ∈ sasimiTargIds sasimiCexNet
       ∧ ∃ s < sasimiCexNet.idMaxPlus1, sasimiSubOk sasimiCexNet lac.targId s
           ∧ lac.divs = [s]
           ∧ lac.sizeGain = sasimiCexNet.sizeGain lac.targId [s]
           ∧ (lac.sop = "1 1\n" ∨ lac.sop = "0 1\n"))
    ∧ (∀ (g : Int) (t s : Nat),
         mkLac t g [s] "1 1\n" ∈ sasimiSubCands sasimiCexNet 1 false
         ↔ mkLac t g [s] "0 1\n" ∈ sasimiSubCands sasimiCexNet 1 false)
    ∧ (∀ t : Nat,
         ((sasimiSubCands sasimiCexNet 1 false).filter
            (fun l => decide (l.targId = t))).length ≤ sasimiQuota sasimiCexNet 1 + 1)
    ∧ (∀ t ∈ sasimiTargIds sasimiCexNet,
         (∃ s < sasimiCexNet.idMaxPlus1, sasimiSubOk sasimiCexNet t s) →
         ∃ lac ∈ sasimiSubCands sasimiCexNet 1 false, lac.targId = t) :=
  genSasimiLACs_spec sasimiCexNet 1 false

/-! ## Mutable network, temporary replacement and rollback (`my_abc.cc`)

The ABC network is an arena of objects indexed by stable integer ids
(`vObjs`); deleted slots stay allocated and hold no object.  The embedding is a
list of optional objects, one slot per id; an object is a primary input, an
internal node with an ordered fanin list and a SOP string, or a primary output
with one driver.  Fanout lists are derived from the fanin lists. -/

inductive MObj where
  | mpi : MObj
  | mnode (fanins : List Nat) (sop : String) : MObj
  | mpo (driver : Nat) : MObj
deriving DecidableEq

abbrev MNet := List (Option MObj)

/-- Slot lookup by object id (`Abc_NtkObj`); absent and out-of-range slots read
as empty. -/
def getObj (net : MNet) (i : Nat) : Option MObj := (net[i]?).getD none

/-- Ordered fanin list of an object (`vFanins`; for a PO the single driver). -/
def objFanins : MObj → List Nat
  | .mpi => []
  | .mnode fs _ => fs
  | .mpo d => [d]

/-- Fanin substitution applied to one object, used by the fanout-transfer loop
of `TempRepl_v2` (`Abc_ObjPatchFanin` on every connection to the old node). -/
def mapObjFanins (f : Nat → Nat) : MObj → MObj
  | .mpi => .mpi
  | .mnode fs sop => .mnode (fs.map f) sop
  | .mpo d => .mpo (f d)

/-- Write of one fanin slot (`NetMan::PatchFanin`: `Vec_IntWriteEntry` of
`vFanins[iFanin]`). -/
def patchObjFanin (p newId : Nat) : MObj → MObj
  | .mpi => .mpi
  | .mnode fs sop => .mnode (fs.set p newId) sop
  | .mpo d => .mpo (if p = 0 then newId else d)

/-- Total fanout count of an id (`Abc_ObjFanoutNum`), derived by counting
occurrences among all fanin lists. -/
def fanoutNum (net : MNet) (x : Nat) : Nat :=
  (net.map fun s =>
    match s with
    | some o => (objFanins o).count x
    | none => 0).sum

/-- In-place slot update; updates beyond the arena are no-ops. -/
def modifySlot (net : MNet) (i : Nat) (f : Option MObj → Option MObj) : MNet :=
  net.set i (f (getObj net i))

/-- Network after `TempRepl_v2` transfers every fanout of `ts` (except a fanout
that is `ss` itself) to `ss`: every other object's fanin occurrences of `ts`
become `ss`. -/
def tempReplNet (net : MNet) (ts ss : Nat) : MNet :=
  net.mapIdx fun i s =>
    if i = ss then s else s.map (mapObjFanins fun f => if f = ts then ss else f)

/-- Recorded `(fanout, iFanin)` pairs of `TempRepl_v2`: for every object other
than `ss`, each fanin position currently holding `ts`, in increasing id and
position order. -/
def replPairs (net : MNet) (ts ss : Nat) : List (Nat × Nat) :=
  (List.range net.length).flatMap fun i =>
    if i = ss then []
    else
      match getObj net i with
      | some o =>
        ((List.range (objFanins o).length).filter
          fun p => (objFanins o)[p]? = some ts).map fun p => (i, p)
      | none => []

/-- Encoding of the pair list into the flat integer trace used by the C++
code. -/
def encodePairs (ps : List (Nat × Nat)) : List Int :=
  ps.flatMap fun q => [(q.1 : Int), (q.2 : Int)]

/-- Replacement `NetMan::TempRepl_v2` from `my_abc.cc`: record the trace
`{pTS, pSS, fanout0, iFanin0, ...}` and transfer the fanouts of `ts` to
`ss`. -/
def TempRepl_v2 (net : MNet) (ts ss : Nat) : MNet × List Int :=
  (tempReplNet net ts ss, (ts : Int) :: (ss : Int) :: encodePairs (replPairs net ts ss))

/-- One recovery patch (`PatchFanin(pFanout, iFanin, pSS, pTS)`): restore `ts`
into fanin slot `p` of object `o`. -/
def patchFanin (net : MNet) (o p ts : Nat) : MNet :=
  modifySlot net o (Option.map (patchObjFanin p ts))

/-- Object deletion `Abc_NtkDeleteObj`: the slot becomes empty, the id is not
reused. -/
def delSlot (net : MNet) (i : Nat) : MNet :=
  modifySlot net i fun _ => none

/-- Tail of `NetMan::Recov_v2`: walk the `(fanout, iFanin)` pairs, patching
`ts` back, until the `-1` separator; then delete the listed objects. -/
def recovRest (net : MNet) (ts : Nat) : List Int → MNet
  | [] => net
  | x :: rest =>
    if x = -1 then rest.foldl (fun acc d => delSlot acc d.toNat) net
    else
      match rest with
      | p :: rest2 => recovRest (patchFanin net x.toNat p.toNat ts) ts rest2
      | [] => net

/-- Rollback `NetMan::Recov_v2` from `my_abc.cc`: read `pTS`/`pSS` from the
trace head, patch every recorded `(fanout, iFanin)` connection back to `pTS`,
and delete the objects recorded after the `-1` separator. -/
def Recov_v2 (net : MNet) (trace : List Int) : MNet :=
  match trace with
  | ts :: _ss :: rest => recovRest net ts.toNat rest
  | _ => net

/-- Rollback driver `RecovNet` from `lac.cc`: apply the traces' rollbacks in
reverse application order. -/
def RecovNet (net : MNet) (traces : List (List Int)) : MNet :=
  traces.reverse.foldl (fun acc tr => Recov_v2 acc tr) net

/-- Node creation `NetMan::CreateNode`: a fresh id at the end of the arena. -/
def CreateNode (net : MNet) (faninIds : List Nat) (sop : String) : MNet × Nat :=
  (net ++ [some (.mnode faninIds sop)], net.length)

/-- Constant-function test `Abc_NodeIsConst0` (a node whose SOP is `" 0\n"`). -/
def isConst0Obj : Option MObj → Bool
  | some (.mnode _ sop) => sop = " 0\n"
  | _ => false

/-- Constant-function test `Abc_NodeIsConst1`. -/
def isConst1Obj : Option MObj → Bool
  | some (.mnode _ sop) => sop = " 1\n"
  | _ => false

/-- Lowest id holding a constant-0 node, as `GetConstIds` scans. -/
def constId0 (net : MNet) : Option Nat :=
  (List.range net.length).find? fun i => isConst0Obj (getObj net i)

/-- Lowest id holding a constant-1 node. -/
def constId1 (net : MNet) : Option Nat :=
  (List.range net.length).find? fun i => isConst1Obj (getObj net i)

/-- Constant provisioning `NetMan::CreateConstsIfNotExist`: reuse the constant
nodes when present, otherwise create them (a permanent mutation). -/
def CreateConstsIfNotExist (net : MNet) : MNet × (Nat × Nat) :=
  let s0 := match constId0 net with
    | some i => (net, i)
    | none => (net ++ [some (MObj.mnode [] " 0\n")], net.length)
  let s1 := match constId1 s0.1 with
    | some i => (s0.1, i)
    | none => (s0.1 ++ [some (MObj.mnode [] " 1\n")], s0.1.length)
  (s1.1, (s0.2, s1.2))

/-- Preconditions asserted on the `TempRepl_v2` path (`tsId != ssId`, the
target exists and has at least one fanout). -/
def tempReplOk (net : MNet) (ts ss : Nat) : Bool :=
  decide (ts ≠ ss) && (getObj net ts).isSome && decide (0 < fanoutNum net ts)

/-- Trial application `TempApplyLac` from `lac.cc`: a constant LAC reuses (or
creates) the constant node and replaces the target by it; any other LAC first
creates the substitution node over the divisors, replaces the target, and
appends `-1` and the created node to the trace for rollback deletion.
Assertion failures abort (`none`). -/
def TempApplyLac (net : MNet) (lac : LacR) : Option (MNet × List Int) :=
  if lac.divs.isEmpty && (lac.sop = " 0\n" || lac.sop = " 1\n") then
    let r := CreateConstsIfNotExist net
    let ss := if lac.sop = " 0\n" then r.2.1 else r.2.2
    if tempReplOk r.1 lac.targId ss then
      some (TempRepl_v2 r.1 lac.targId ss)
    else none
  else
    if lac.divs.all (fun f => (getObj net f).isSome) then
      let r := CreateNode net lac.divs lac.sop
      if tempReplOk r.1 lac.targId r.2 then
        let t := TempRepl_v2 r.1 lac.targId r.2
        some (t.1, t.2 ++ [(-1 : Int), (r.2 : Int)])
      else none
    else none

/-- Sequence of trial applications, recording one trace per edit; aborts when
any step's asserted preconditions fail. -/
def applyLacsSeq (net : MNet) : List LacR → Option (MNet × List (List Int))
  | [] => some (net, [])
  | lac :: rest =>
    match TempApplyLac net lac with
    | none => none
    | some r1 =>
      match applyLacsSeq r1.1 rest with
      | none => none
      | some r2 => some (r2.1, r1.2 :: r2.2)

/-- Presence of both constant nodes. -/
def hasConsts (net : MNet) : Prop :=
  (constId0 net).isSome = true ∧ (constId1 net).isSome = true

instance (net : MNet) : Decidable (hasConsts net) := by
  unfold hasConsts; infer_instance

theorem getObj_modifySlot (net : MNet) (i : Nat) (f : Option MObj → Option MObj)
    (hf : f none = none) (j : Nat) :
    getObj (modifySlot net i f) j = if j = i then f (getObj net j) else getObj net j := by
  unfold modifySlot getObj
  rw [List.getElem?_set]
  by_cases hij : i = j
  · subst hij
    by_cases hlen : i < net.length
    · simp [hlen]
    · rw [if_pos rfl, if_neg hlen, if_pos rfl]
      have : net[i]? = none := by
        rw [List.getElem?_eq_none]
        omega
      rw [this]
      simp [hf]
  · rw [if_neg hij, if_neg (fun hc => hij hc.symm)]

theorem getObj_tempReplNet (net : MNet) (ts ss : Nat) (j : Nat) :
    getObj (tempReplNet net ts ss) j
      = if j = ss then getObj net j
        else (getObj net j).map (mapObjFanins fun f => if f = ts then ss else f) := by
  unfold tempReplNet getObj
  rw [List.getElem?_mapIdx]
  by_cases hj : j = ss
  · subst hj
    cases net[j]? <;> simp
  · cases h : net[j]? <;> simp [hj]

theorem getObj_append_single (net : MNet) (v : Option MObj) (j : Nat) :
    getObj (net ++ [v]) j = if j = net.length then v else getObj net j := by
  unfold getObj
  rcases Nat.lt_trichotomy j net.length with h | h | h
  · rw [List.getElem?_append_left h, if_neg (by omega)]
  · subst h
    rw [List.getElem?_append_right (le_refl _), if_pos rfl]
    simp
  · rw [List.getElem?_append_right (by omega), if_neg (by omega)]
    have h1 : [v][j - net.length]? = none := by
      rw [List.getElem?_eq_none]
      simp
      omega
    have h2 : net[j]? = none := by
      rw [List.getElem?_eq_none]
      omega
    rw [h1, h2]

theorem getObj_foldPatch (ps : List (Nat × Nat)) (net : MNet) (ts j : Nat) :
    getObj (ps.foldl (fun acc q => patchFanin acc q.1 q.2 ts) net) j
      = (ps.filter fun q => decide (q.1 = j)).foldl
          (fun ob q => ob.map (patchObjFanin q.2 ts)) (getObj net j) := by
  induction ps generalizing net with
  | nil => rfl
  | cons q rest ih =>
    rw [List.foldl_cons, ih]
    have hchar := getObj_modifySlot net q.1 (Option.map (patchObjFanin q.2 ts)) rfl j
    by_cases hq : q.1 = j
    · subst hq
      rw [List.filter_cons_of_pos (by simp)]
      rw [List.foldl_cons]
      unfold patchFanin
      rw [hchar, if_pos rfl]
    · rw [List.filter_cons_of_neg (by simp [hq])]
      unfold patchFanin
      rw [hchar, if_neg (fun hc => hq hc.symm)]

theorem foldl_option_map {α : Type} (l : List α) (g : α → MObj → MObj) (x : MObj) :
    l.foldl (fun ob q => ob.map (g q)) (some x) = some (l.foldl (fun y q => g q y) x) := by
  induction l generalizing x with
  | nil => rfl
  | cons q rest ih =>
    rw [List.foldl_cons, List.foldl_cons]
    rw [show Option.map (g q) (some x) = some (g q x) from rfl, ih]

theorem foldSet_getElem (L : List Nat) (xs : List Nat) (ts q : Nat) :
    (L.foldl (fun acc p => acc.set p ts) xs)[q]?
      = if q ∈ L ∧ q < xs.length then some ts else xs[q]? := by
  induction L generalizing xs with
  | nil => simp
  | cons p rest ih =>
    rw [List.foldl_cons, ih, List.length_set]
    by_cases hcond : q ∈ rest ∧ q < xs.length
    · rw [if_pos hcond, if_pos ⟨List.mem_cons_of_mem _ hcond.1, hcond.2⟩]
    · rw [if_neg hcond, List.getElem?_set]
      by_cases hpq : p = q
      · subst hpq
        by_cases hlen : p < xs.length
        · rw [if_pos rfl, if_pos hlen, if_pos ⟨List.mem_cons_self .., hlen⟩]
        · rw [if_pos rfl, if_neg hlen, if_neg (by tauto),
            List.getElem?_eq_none (by omega)]
      · have hnc : ¬(q ∈ p :: rest ∧ q < xs.length) := by
          rintro ⟨hmem, hlen⟩
          rcases List.mem_cons.mp hmem with h | h
          · exact hpq h.symm
          · exact hcond ⟨h, hlen⟩
        rw [if_neg hpq, if_neg hnc]

theorem set_restore (fs : List Nat) (ts ss : Nat) :
    ((List.range fs.length).filter fun p => decide (fs[p]? = some ts)).foldl
      (fun acc p => acc.set p ts) (fs.map fun f => if f = ts then ss else f) = fs := by
  apply List.ext_getElem?
  intro q
  rw [foldSet_getElem]
  rw [List.length_map]
  by_cases hq : q < fs.length
  · have hmemIff : q ∈ (List.range fs.length).filter (fun p => decide (fs[p]? = some ts))
        ↔ fs[q]? = some ts := by
      rw [List.mem_filter, List.mem_range, decide_eq_true_iff]
      tauto
    by_cases hts : fs[q]? = some ts
    · rw [if_pos ⟨hmemIff.mpr hts, hq⟩, hts]
    · rw [if_neg (by rw [hmemIff]; tauto)]
      rw [List.getElem?_map]
      obtain ⟨v, hv⟩ : ∃ v, fs[q]? = some v := ⟨_, List.getElem?_eq_getElem hq⟩
      rw [hv]
      have hvne : v ≠ ts := fun hc => hts (by rw [hv, hc])
      simp [hvne]
  · rw [if_neg (by tauto), List.getElem?_map]
    rw [List.getElem?_eq_none (by omega)]
    rfl

theorem foldl_patch_mnode (L : List Nat) (fs : List Nat) (sop : String) (ts : Nat) :
    L.foldl (fun ob p => patchObjFanin p ts ob) (.mnode fs sop)
      = .mnode (L.foldl (fun a p => a.set p ts) fs) sop := by
  induction L generalizing fs with
  | nil => rfl
  | cons p rest ih => rw [List.foldl_cons, List.foldl_cons]; exact ih _

theorem patchObj_restore (o : MObj) (ts ss : Nat) :
    ((List.range (objFanins o).length).filter
        fun p => decide ((objFanins o)[p]? = some ts)).foldl
      (fun ob p => patchObjFanin p ts ob)
      (mapObjFanins (fun f => if f = ts then ss else f) o) = o := by
  cases o with
  | mpi => rfl
  | mnode fs sop =>
    show _ = MObj.mnode fs sop
    unfold mapObjFanins
    rw [show objFanins (.mnode fs sop) = fs from rfl]
    rw [foldl_patch_mnode, set_restore]
  | mpo d =>
    unfold mapObjFanins objFanins
    by_cases hd : d = ts
    · subst hd
      simp [patchObjFanin, List.filter]
    · simp [patchObjFanin, List.filter, hd]

theorem flatMap_filter_fst {L : List Nat} (hnd : L.Nodup) (F : Nat → List (Nat × Nat))
    (hF : ∀ i, ∀ q ∈ F i, q.1 = i) (j : Nat) :
    ((L.flatMap F).filter fun q => decide (q.1 = j)) = if j ∈ L then F j else [] := by
  induction L with
  | nil => simp
  | cons i0 rest ih =>
    rw [List.nodup_cons] at hnd
    rw [List.flatMap_cons, List.filter_append]
    have hblock : ∀ i : Nat, (F i).filter (fun q => decide (q.1 = j))
        = if i = j then F j else [] := by
      intro i
      by_cases hij : i = j
      · subst hij
        rw [if_pos rfl, List.filter_eq_self]
        intro q hq
        rw [hF i q hq]
        simp
      · rw [if_neg hij, List.filter_eq_nil_iff]
        intro q hq
        rw [hF i q hq]
        simp [hij]
    rw [hblock i0]
    by_cases hij : i0 = j
    · subst hij
      rw [if_pos rfl, if_pos (List.mem_cons_self ..)]
      have hrest : (rest.flatMap F).filter (fun q => decide (q.1 = i0)) = [] := by
        rw [List.filter_eq_nil_iff]
        intro q hq
        rw [List.mem_flatMap] at hq
        obtain ⟨i, hi, hq⟩ := hq
        rw [hF i q hq]
        intro hc
        rw [decide_eq_true_eq] at hc
        exact hnd.1 (hc ▸ hi)
      rw [hrest, List.append_nil]
    · rw [if_neg hij, List.nil_append, ih hnd.2]
      by_cases hjr : j ∈ rest
      · rw [if_pos hjr, if_pos (List.mem_cons_of_mem _ hjr)]
      · have hnc : j ∉ i0 :: rest := by
          intro hc
          rcases List.mem_cons.mp hc with hc | hc
          · exact hij hc.symm
          · exact hjr hc
        rw [if_neg hjr, if_neg hnc]

theorem replPairs_block (net : MNet) (ts ss i : Nat) :
    ∀ q ∈ (if i = ss then ([] : List (Nat × Nat))
      else
        match getObj net i with
        | some o =>
          ((List.range (objFanins o).length).filter
            fun p => (objFanins o)[p]? = some ts).map fun p => (i, p)
        | none => []), q.1 = i := by
  intro q hq
  by_cases hiss : i = ss
  · rw [if_pos hiss] at hq
    exact absurd hq (List.not_mem_nil q)
  · rw [if_neg hiss] at hq
    cases hobj : getObj net i with
    | some o =>
      rw [hobj] at hq
      rw [List.mem_map] at hq
      obtain ⟨p, _, hp⟩ := hq
      rw [← hp]
    | none =>
      rw [hobj] at hq
      exact absurd hq (List.not_mem_nil q)

theorem replPairs_filter (net : MNet) (ts ss j : Nat) :
    (replPairs net ts ss).filter (fun q => decide (q.1 = j))
      = if j < net.length ∧ j ≠ ss then
          (match getObj net j with
           | some o =>
             ((List.range (objFanins o).length).filter
               fun p => (objFanins o)[p]? = some ts).map fun p => (j, p)
           | none => [])
        else [] := by
  unfold replPairs
  rw [flatMap_filter_fst (List.nodup_range _) _ (replPairs_block net ts ss) j]
  by_cases hj : j < net.length
  · rw [if_pos (List.mem_range.mpr hj)]
    by_cases hjss : j = ss
    · rw [if_pos hjss, if_neg (by tauto)]
    · rw [if_neg hjss, if_pos ⟨hj, hjss⟩]
  · rw [if_neg (fun hc => hj (List.mem_range.mp hc)), if_neg (by tauto)]

theorem recovRest_encodePairs (net : MNet) (ts : Nat) (ps : List (Nat × Nat)) :
    recovRest net ts (encodePairs ps)
      = ps.foldl (fun acc q => patchFanin acc q.1 q.2 ts) net := by
  induction ps generalizing net with
  | nil => rfl
  | cons q rest ih =>
    show recovRest net ts ((q.1 : Int) :: (q.2 : Int) :: encodePairs rest) = _
    rw [recovRest]
    rw [if_neg (by omega)]
    simp only [Int.toNat_natCast]
    rw [ih, List.foldl_cons]

theorem recovRest_encodePairs_del (net : MNet) (ts : Nat) (ps : List (Nat × Nat))
    (dels : List Int) :
    recovRest net ts (encodePairs ps ++ (-1 : Int) :: dels)
      = dels.foldl (fun acc d => delSlot acc d.toNat)
          (ps.foldl (fun acc q => patchFanin acc q.1 q.2 ts) net) := by
  induction ps generalizing net with
  | nil =>
    show recovRest net ts ((-1 : Int) :: dels) = _
    cases dels with
    | nil =>
      rw [recovRest, if_pos rfl]
      rfl
    | cons d ds =>
      rw [recovRest, if_pos rfl]
      rfl
  | cons q rest ih =>
    show recovRest net ts ((q.1 : Int) :: (q.2 : Int) :: (encodePairs rest ++ _)) = _
    rw [recovRest]
    rw [if_neg (by omega)]
    simp only [Int.toNat_natCast]
    rw [ih, List.foldl_cons]

/-- Pointwise restoration of one `TempRepl_v2` by the patch phase of
`Recov_v2`. -/
theorem tempRepl_patch_restore (net : MNet) (ts ss j : Nat) :
    getObj ((replPairs net ts ss).foldl
        (fun acc q => patchFanin acc q.1 q.2 ts) (tempReplNet net ts ss)) j
      = getObj net j := by
  rw [getObj_foldPatch, replPairs_filter, getObj_tempReplNet]
  by_cases hjss : j = ss
  · have hnc : ¬(j < net.length ∧ j ≠ ss) := fun hc => hc.2 hjss
    rw [if_pos hjss, if_neg hnc]
    rfl
  · rw [if_neg hjss]
    by_cases hj : j < net.length
    · rw [if_pos ⟨hj, hjss⟩]
      cases hobj : getObj net j with
      | some o =>
        rw [show Option.map (mapObjFanins fun f => if f = ts then ss else f) (some o)
          = some (mapObjFanins (fun f => if f = ts then ss else f) o) from rfl]
        rw [List.foldl_map, foldl_option_map]
        exact congrArg some (patchObj_restore o ts ss)
      | none => rfl
    · have hnc : ¬(j < net.length ∧ j ≠ ss) := fun hc => hj hc.1
      rw [if_neg hnc]
      have hnone : getObj net j = none := by
        unfold getObj
        rw [List.getElem?_eq_none (by omega)]
        rfl
      rw [hnone]
      rfl

theorem modifySlot_congr {A B : MNet} (h : ∀ j, getObj A j = getObj B j)
    (i : Nat) (f : Option MObj → Option MObj) (hf : f none = none) (j : Nat) :
    getObj (modifySlot A i f) j = getObj (modifySlot B i f) j := by
  rw [getObj_modifySlot _ _ _ hf, getObj_modifySlot _ _ _ hf, h j]

theorem foldDel_congr (dels : List Int) :
    ∀ {A B : MNet}, (∀ j, getObj A j = getObj B j) →
      ∀ j, getObj (dels.foldl (fun acc d => delSlot acc d.toNat) A) j
        = getObj (dels.foldl (fun acc d => delSlot acc d.toNat) B) j := by
  induction dels with
  | nil => intro A B h j; exact h j
  | cons d rest ih =>
    intro A B h j
    rw [List.foldl_cons, List.foldl_cons]
    exact ih (fun j2 => modifySlot_congr h d.toNat _ rfl j2) j

theorem recovRest_congr (ts : Nat) :
    ∀ (tr : List Int) (A B : MNet), (∀ j, getObj A j = getObj B j) →
      ∀ j, getObj (recovRest A ts tr) j = getObj (recovRest B ts tr) j
  | [], _, _, h, j => h j
  | [x], A, B, h, j => by
    rw [recovRest, recovRest]
    by_cases hx : x = -1
    · rw [if_pos hx, if_pos hx]
      exact h j
    · rw [if_neg hx, if_neg hx]
      exact h j
  | x :: p :: rest2, A, B, h, j => by
    rw [recovRest, recovRest]
    by_cases hx : x = -1
    · rw [if_pos hx, if_pos hx]
      exact foldDel_congr (p :: rest2) h j
    · rw [if_neg hx, if_neg hx]
      exact recovRest_congr ts rest2 _ _
        (fun j2 => modifySlot_congr h x.toNat _ rfl j2) j

theorem recov_v2_congr {A B : MNet} (h : ∀ j, getObj A j = getObj B j)
    (tr : List Int) (j : Nat) :
    getObj (Recov_v2 A tr) j = getObj (Recov_v2 B tr) j := by
  match tr with
  | [] => exact h j
  | [x] => exact h j
  | x :: y :: rest => exact recovRest_congr x.toNat rest A B h j

theorem createConsts_eq_of_hasConsts {net : MNet} (hc : hasConsts net) :
    (CreateConstsIfNotExist net).1 = net := by
  obtain ⟨h0, h1⟩ := hc
  obtain ⟨c0, hc0⟩ := Option.isSome_iff_exists.mp h0
  obtain ⟨c1, hc1⟩ := Option.isSome_iff_exists.mp h1
  simp only [CreateConstsIfNotExist, hc0, hc1]

theorem isConst0Obj_map (f : Nat → Nat) (s : Option MObj) :
    isConst0Obj (s.map (mapObjFanins f)) = isConst0Obj s := by
  cases s with
  | none => rfl
  | some o => cases o <;> rfl

theorem isConst1Obj_map (f : Nat → Nat) (s : Option MObj) :
    isConst1Obj (s.map (mapObjFanins f)) = isConst1Obj s := by
  cases s with
  | none => rfl
  | some o => cases o <;> rfl

theorem hasConsts_tempReplNet {net : MNet} (hc : hasConsts net) (ts ss : Nat) :
    hasConsts (tempReplNet net ts ss) := by
  obtain ⟨h0, h1⟩ := hc
  have hlen : (tempReplNet net ts ss).length = net.length := by
    unfold tempReplNet
    exact List.length_mapIdx
  constructor
  · rw [constId0, List.find?_isSome] at h0 ⊢
    obtain ⟨i, hi, hp⟩ := h0
    refine ⟨i, by rw [hlen]; exact hi, ?_⟩
    rw [getObj_tempReplNet]
    by_cases hiss : i = ss
    · rw [if_pos hiss]; exact hp
    · rw [if_neg hiss, isConst0Obj_map]; exact hp
  · rw [constId1, List.find?_isSome] at h1 ⊢
    obtain ⟨i, hi, hp⟩ := h1
    refine ⟨i, by rw [hlen]; exact hi, ?_⟩
    rw [getObj_tempReplNet]
    by_cases hiss : i = ss
    · rw [if_pos hiss]; exact hp
    · rw [if_neg hiss, isConst1Obj_map]; exact hp

theorem hasConsts_append {net : MNet} (hc : hasConsts net) (v : Option MObj) :
    hasConsts (net ++ [v]) := by
  obtain ⟨h0, h1⟩ := hc
  have hlen : (net ++ [v]).length = net.length + 1 := by simp
  constructor
  · rw [constId0, List.find?_isSome] at h0 ⊢
    obtain ⟨i, hi, hp⟩ := h0
    rw [List.mem_range] at hi
    refine ⟨i, List.mem_range.mpr (by omega), ?_⟩
    rw [getObj_append_single, if_neg (by omega)]
    exact hp
  · rw [constId1, List.find?_isSome] at h1 ⊢
    obtain ⟨i, hi, hp⟩ := h1
    rw [List.mem_range] at hi
    refine ⟨i, List.mem_range.mpr (by omega), ?_⟩
    rw [getObj_append_single, if_neg (by omega)]
    exact hp

/-- One trial application followed by its rollback restores every slot, and the
constant nodes survive the trial edit. -/
theorem createConsts_pair_of_hasConsts {net : MNet} (hc : hasConsts net) :
    ∃ c0 c1, CreateConstsIfNotExist net = (net, (c0, c1)) := by
  obtain ⟨h0, h1⟩ := hc
  obtain ⟨c0, hc0⟩ := Option.isSome_iff_exists.mp h0
  obtain ⟨c1, hc1⟩ := Option.isSome_iff_exists.mp h1
  refine ⟨c0, c1, ?_⟩
  simp only [CreateConstsIfNotExist, hc0, hc1]

/-- One trial application followed by its rollback restores every slot, and the
constant nodes survive the trial edit. -/
theorem tempApplyLac_step {net : MNet} {lac : LacR} {net1 : MNet} {tr : List Int}
    (hc : hasConsts net) (h : TempApplyLac net lac = some (net1, tr)) :
    (∀ j, getObj (Recov_v2 net1 tr) j = getObj net j) ∧ hasConsts net1 := by
  unfold TempApplyLac at h
  by_cases hconst : (lac.divs.isEmpty && (decide (lac.sop = " 0\n")
      || decide (lac.sop = " 1\n"))) = true
  · rw [if_pos hconst] at h
    obtain ⟨c0, c1, hcc⟩ := createConsts_pair_of_hasConsts hc
    rw [hcc] at h
    simp only at h
    set ss := (if lac.sop = " 0\n" then c0 else c1) with hssdef
    by_cases hok : tempReplOk net lac.targId ss = true
    · rw [if_pos hok, Option.some_inj] at h
      have hnet1 : tempReplNet net lac.targId ss = net1 := congrArg Prod.fst h
      have htr : ((lac.targId : Int) :: (ss : Int)
          :: encodePairs (replPairs net lac.targId ss)) = tr := congrArg Prod.snd h
      constructor
      · intro j
        rw [← hnet1, ← htr]
        show getObj (recovRest (tempReplNet net lac.targId ss) ((lac.targId : Int)).toNat
          (encodePairs (replPairs net lac.targId ss))) j = getObj net j
        rw [Int.toNat_natCast, recovRest_encodePairs]
        exact tempRepl_patch_restore net lac.targId ss j
      · rw [← hnet1]
        exact hasConsts_tempReplNet hc lac.targId ss
    · rw [if_neg hok] at h
      exact Option.noConfusion h
  · rw [if_neg hconst] at h
    by_cases hdivs : lac.divs.all (fun f => (getObj net f).isSome) = true
    · rw [if_pos hdivs] at h
      simp only at h
      rw [show CreateNode net lac.divs lac.sop
        = (net ++ [some (MObj.mnode lac.divs lac.sop)], net.length) from rfl] at h
      simp only at h
      by_cases hok : tempReplOk (net ++ [some (MObj.mnode lac.divs lac.sop)])
          lac.targId net.length = true
      · rw [if_pos hok, Option.some_inj] at h
        set net0 := net ++ [some (MObj.mnode lac.divs lac.sop)] with hnet0
        have hnet1 : tempReplNet net0 lac.targId net.length = net1 := congrArg Prod.fst h
        have htr : (((lac.targId : Int) :: (net.length : Int)
            :: encodePairs (replPairs net0 lac.targId net.length))
            ++ [(-1 : Int), (net.length : Int)]) = tr := congrArg Prod.snd h
        constructor
        · intro j
          rw [← hnet1, ← htr]
          show getObj (recovRest (tempReplNet net0 lac.targId net.length)
            ((lac.targId : Int)).toNat
            (encodePairs (replPairs net0 lac.targId net.length)
              ++ (-1 : Int) :: [(net.length : Int)])) j = getObj net j
          rw [Int.toNat_natCast, recovRest_encodePairs_del]
          rw [List.foldl_cons, List.foldl_nil]
          unfold delSlot
          rw [getObj_modifySlot _ _ _ rfl]
          by_cases hjss : j = ((net.length : Int)).toNat
          · rw [if_pos hjss, hjss, Int.toNat_natCast]
            unfold getObj
            rw [List.getElem?_eq_none (le_refl _)]
            rfl
          · rw [if_neg hjss]
            rw [Int.toNat_natCast] at hjss
            rw [tempRepl_patch_restore net0 lac.targId net.length j]
            rw [hnet0, getObj_append_single, if_neg hjss]
        · rw [← hnet1]
          exact hasConsts_tempReplNet (hasConsts_append hc _) lac.targId net.length
      · rw [if_neg hok] at h
        exact Option.noConfusion h
    · rw [if_neg hdivs] at h
      exact Option.noConfusion h

theorem recovNet_cons (net : MNet) (tr : List Int) (trs : List (List Int)) :
    RecovNet net (tr :: trs) = Recov_v2 (RecovNet net trs) tr := by
  unfold RecovNet
  rw [List.reverse_cons, List.foldl_append]
  rfl

theorem applyLacsSeq_cons {net : MNet} {lac : LacR} {rest : List LacR}
    {res : MNet × List (List Int)} (h : applyLacsSeq net (lac :: rest) = some res) :
    ∃ r1 r2, TempApplyLac net lac = some r1 ∧ applyLacsSeq r1.1 rest = some r2
      ∧ res = (r2.1, r1.2 :: r2.2) := by
  rw [applyLacsSeq] at h
  cases hstep : TempApplyLac net lac with
  | none =>
    rw [hstep] at h
    exact Option.noConfusion h
  | some r1 =>
    rw [hstep] at h
    simp only at h
    cases hseq : applyLacsSeq r1.1 rest with
    | none =>
      rw [hseq] at h
      exact Option.noConfusion h
    | some r2 =>
      rw [hseq] at h
      exact ⟨r1, r2, rfl, hseq, (Option.some_inj.mp h).symm⟩

/-- C5 (amended).  Provided the network already contains both constant nodes,
any sequence of `TempApplyLac`/`TempRepl_v2` trial edits whose asserted
preconditions hold is undone exactly by applying the recorded traces'
`Recov_v2` rollbacks in reverse application order: every arena slot — object
presence, kind, SOP function and fanin list in order — reads back identical to
the pre-apply network. -/
theorem tempApply_rollback_restores (lacs : List LacR) :
    ∀ (net net' : MNet) (traces : List (List Int)),
      hasConsts net →
      applyLacsSeq net lacs = some (net', traces) →
      ∀ j, getObj (RecovNet net' traces) j = getObj net j := by
  induction lacs with
  | nil =>
    intro net net2 traces hc h j
    rw [applyLacsSeq, Option.some_inj] at h
    have h1 : net = net2 := congrArg Prod.fst h
    have h2 : ([] : List (List Int)) = traces := congrArg Prod.snd h
    rw [← h1, ← h2]
    rfl
  | cons lac rest ih =>
    intro net net2 traces hc h j
    obtain ⟨r1, r2, hstep, hseq, hres⟩ := applyLacsSeq_cons h
    obtain ⟨hrestore, hcons1⟩ := tempApplyLac_step hc (by rw [hstep])
    have hIH := ih r1.1 r2.1 r2.2 hcons1 hseq
    have hn2 : net2 = r2.1 := congrArg Prod.fst hres
    have htrc : traces = r1.2 :: r2.2 := congrArg Prod.snd hres
    rw [hn2, htrc, recovNet_cons]
    calc getObj (Recov_v2 (RecovNet r2.1 r2.2) r1.2) j
        = getObj (Recov_v2 r1.1 r1.2) j := recov_v2_congr hIH r1.2 j
      _ = getObj net j := hrestore j


/-- Network with no constant nodes: a PI, an internal buffer node and a PO. -/
def rollbackCexNet : MNet :=
  [some .mpi, some (.mnode [0] "1 1\n"), some (.mpo 1)]

/-- Constant-0 LAC aimed at the internal node. -/
def rollbackCexLac : LacR := ⟨1, 1, 0, 0, [], " 0\n"⟩

/-- C5 counterexample: applying a constant-0 LAC to a network holding no
constant nodes makes `TempApplyLac` create the two constant nodes through
`CreateConstsIfNotExist`, and the recorded trace does not list them for
deletion, so after the `Recov_v2` rollback the arena still holds the constant
nodes at ids 3 and 4 — the rollback is not exact on the raw network state. -/
theorem tempApplyLac_rollback_not_exact :
    applyLacsSeq rollbackCexNet [rollbackCexLac]
      = some ([some MObj.mpi, some (MObj.mnode [0] "1 1\n"), some (MObj.mpo 3),
               some (MObj.mnode [] " 0\n"), some (MObj.mnode [] " 1\n")],
              [[1, 3, 2, 0]]) ∧
    getObj (RecovNet [some MObj.mpi, some (MObj.mnode [0] "1 1\n"),
        some (MObj.mpo 3), some (MObj.mnode [] " 0\n"),
        some (MObj.mnode [] " 1\n")] [[1, 3, 2, 0]]) 3
      ≠ getObj rollbackCexNet 3 :=
  ⟨by decide, by decide⟩

/-- The counterexample network with both constant nodes already present. -/
def rollbackWitNet : MNet :=
  [some .mpi, some (.mnode [0] "1 1\n"), some (.mpo 1),
   some (.mnode [] " 0\n"), some (.mnode [] " 1\n")]

/-- State of `rollbackWitNet` after the trial constant-0 replacement. -/
def rollbackWitNet2 : MNet :=
  [some .mpi, some (.mnode [0] "1 1\n"), some (.mpo 3),
   some (.mnode [] " 0\n"), some (.mnode [] " 1\n")]

theorem tempApply_rollback_restores_witness :
    hasConsts rollbackWitNet ∧
    applyLacsSeq rollbackWitNet [rollbackCexLac]
      = some (rollbackWitNet2, [[1, 3, 2, 0]]) ∧
    getObj (RecovNet rollbackWitNet2 [[1, 3, 2, 0]]) 2 = getObj rollbackWitNet 2 :=
  ⟨by decide, by decide,
    tempApply_rollback_restores [rollbackCexLac] rollbackWitNet rollbackWitNet2
      [[1, 3, 2, 0]] (by decide) (by decide) 2⟩

/-! ### The apply-many pass and the round loop of `als.cc` -/

/-- Verdict of one CryptoMiniSat `SolveSat` call (`CMSat::lbool`). -/
inductive SatRes where
  | unsat : SatRes
  | sat : SatRes
  | undef : SatRes
deriving DecidableEq

/-- Canonical candidate signature `LAC::ToStrShort`, the string
`"n<targ>d<divs>f<sop>"`; the format is injective in the three fields, so the
triple itself is kept. -/
structure LacSig where
  targ : Nat
  divs : List Nat
  sop : String
deriving DecidableEq

/-- Signature of a candidate. -/
def lacSig (lac : LacR) : LacSig := ⟨lac.targId, lac.divs, lac.sop⟩

/-- External services consumed by the ALS loop: the ABC acyclicity check, the
counterexample fast check on the error miter, the SAT oracle, counterexample
extraction, `Sweep`, area and delay measurement, candidate generation
(`GenConstLACs` / `GenSasimiLACs` / `GenResubLACs`), the
estimate-prune-sort-top-K stage, and the final synthesis script. -/
structure AlsOracle where
  isAcyclic : MNet → Bool
  fastFail : MNet → List (List Bool) → Bool
  solve : MNet → SatRes
  cexOf : MNet → List Bool
  sweep : MNet → MNet
  area : MNet → Nat
  delay : MNet → Nat
  genLacs : MNet → List LacR
  score : MNet → List LacR → List LacR
  synth : MNet → MNet

/-- Per-candidate outcome inside `ApplyMultValidLacs`. -/
inductive LacAction where
  | skipFrozen : LacAction
  | skipDangling : LacAction
  | skipCyclic : LacAction
  | skipFastCheck : LacAction
  | commit : LacAction
  | cex : LacAction
  | blacklist : LacAction
deriving DecidableEq

/-- State threaded through one `ApplyMultValidLacs` pass: the approximate
network, the freeze set `frozTargNodes`, the blacklist, the collected
counterexample patterns, the counterexample write index `countExNum`, and the
`existValidLac` flag. -/
structure PassState where
  net : MNet
  froz : List Nat
  black : List LacSig
  cexs : List (List Bool)
  cexNum : Nat
  valid : Bool
deriving DecidableEq

/-- One iteration of the candidate loop of `ALSMan::ApplyMultValidLacs`:
freeze-set check, dangling-target check, trial application, acyclicity check,
counterexample fast check, then one SAT solve deciding commit (freeze the
target) / counterexample (record it, roll back) / blacklist (record the
signature, roll back); assertion failures abort. -/
def applyStep (O : AlsOracle) (nFrame : Nat) (s : PassState) (lac : LacR) :
    Option (PassState × LacAction) :=
  if lac.targId ∈ s.froz then some (s, .skipFrozen)
  else if fanoutNum s.net lac.targId = 0 then some (s, .skipDangling)
  else
    match TempApplyLac s.net lac with
    | none => none
    | some r =>
      if ! O.isAcyclic r.1 then
        some (⟨RecovNet r.1 [r.2], s.froz, s.black, s.cexs, s.cexNum, s.valid⟩,
          .skipCyclic)
      else if ! s.cexs.isEmpty && O.fastFail r.1 s.cexs then
        some (⟨RecovNet r.1 [r.2], s.froz, s.black, s.cexs, s.cexNum, s.valid⟩,
          .skipFastCheck)
      else
        match O.solve r.1 with
        | .unsat =>
          some (⟨r.1, lac.targId :: s.froz, s.black, s.cexs, s.cexNum, true⟩,
            .commit)
        | .sat =>
          some (⟨RecovNet r.1 [r.2], s.froz, s.black, s.cexs ++ [O.cexOf r.1],
            if nFrame ≤ s.cexNum + 1 then 0 else s.cexNum + 1, s.valid⟩, .cex)
        | .undef =>
          some (⟨RecovNet r.1 [r.2], s.froz, lacSig lac :: s.black, s.cexs,
            s.cexNum, s.valid⟩, .blacklist)

/-- The candidate loop of `ApplyMultValidLacs` over the sorted LAC list,
recording one action per candidate. -/
def applyPass (O : AlsOracle) (nFrame : Nat) :
    PassState → List LacR → Option (PassState × List LacAction)
  | s, [] => some (s, [])
  | s, lac :: rest =>
    match applyStep O nFrame s lac with
    | none => none
    | some r =>
      match applyPass O nFrame r.1 rest with
      | none => none
      | some r2 => some (r2.1, r.2 :: r2.2)

/-- `ALSMan::ApplyMultValidLacs`: fresh freeze set and counterexample store,
run the candidate loop, then `Sweep`; returns the swept network, blacklist,
counterexample index, the `existValidLac` flag and the actions. -/
def ApplyMultValidLacs (O : AlsOracle) (nFrame : Nat) (lacs : List LacR)
    (net : MNet) (black : List LacSig) (cexNum : Nat) :
    Option ((MNet × List LacSig × Nat) × Bool × List LacAction) :=
  match applyPass O nFrame ⟨net, [], black, [], cexNum, false⟩ lacs with
  | none => none
  | some r => some ((O.sweep r.1.net, r.1.black, r.1.cexNum), r.1.valid, r.2)

/-- `LACMan::RemLacsFromBlackList`: drop every candidate whose signature is
blacklisted (the early return on an empty blacklist removes nothing). -/
def RemLacsFromBlackList (black : List LacSig) (lacs : List LacR) : List LacR :=
  if black.isEmpty then lacs
  else lacs.filter fun l => ! decide (lacSig l ∈ black)

/-- State carried across rounds of `SimplifyWithSingleLac`: the approximate
network, the round counter, the counterexample write index and the
blacklist. -/
structure SimpState where
  net : MNet
  round : Nat
  cexNum : Nat
  black : List LacSig
deriving DecidableEq

/-- Record of one executed round: the blacklist at round start, the candidate
list handed to `ApplyMultValidLacs`, the actions, the blacklist afterwards,
and — when the round reached the measurement point — the new and previous
`(size, depth)` pairs. -/
structure RoundLog where
  blackBefore : List LacSig
  lacs : List LacR
  acts : List LacAction
  blackAfter : List LacSig
  meas : Option ((Nat × Nat) × (Nat × Nat))
deriving DecidableEq

/-- The round loop of `ALSMan::SimplifyWithSingleLac` (fuel-bounded): generate
candidates, drop blacklisted ones, estimate-prune-sort, run the apply-many
pass; stop when no candidate survives or none is valid, otherwise measure
`(size, depth)`, enforce the non-regression assertion, and stop on
stagnation. -/
def simplifyLoop (O : AlsOracle) (nFrame : Nat) :
    Nat → Nat → Nat → SimpState → Option (SimpState × List RoundLog)
  | 0, _, _, _ => none
  | fuel + 1, oldSize, oldDepth, s =>
    let lacs := O.score s.net (RemLacsFromBlackList s.black (O.genLacs s.net))
    if lacs.isEmpty then some (s, [])
    else
      match ApplyMultValidLacs O nFrame lacs s.net s.black s.cexNum with
      | none => none
      | some r =>
        if ! r.2.1 then
          some (⟨r.1.1, s.round, r.1.2.2, r.1.2.1⟩,
            [⟨s.black, lacs, r.2.2, r.1.2.1, none⟩])
        else
          let size := O.area r.1.1
          let depth := O.delay r.1.1
          if size < oldSize ∨ (size = oldSize ∧ depth ≤ oldDepth) then
            if size = oldSize ∧ depth = oldDepth then
              some (⟨r.1.1, s.round, r.1.2.2, r.1.2.1⟩,
                [⟨s.black, lacs, r.2.2, r.1.2.1,
                  some ((size, depth), (oldSize, oldDepth))⟩])
            else
              match simplifyLoop O nFrame fuel size depth
                  ⟨r.1.1, s.round + 1, r.1.2.2, r.1.2.1⟩ with
              | none => none
              | some r2 =>
                some (r2.1, ⟨s.black, lacs, r.2.2, r.1.2.1,
                  some ((size, depth), (oldSize, oldDepth))⟩ :: r2.2)
          else none

/-- `ALSMan::SimplifyWithSingleLac`: immediate return when `errUppBound == 0`,
otherwise the round loop starting from the entry `(size, depth)`, followed by
the optional final synthesis pass. -/
def SimplifyWithSingleLac (O : AlsOracle) (nFrame fuel : Nat)
    (errUppBound : Int) (fSimpl : Bool) (s : SimpState) :
    Option (SimpState × List RoundLog) :=
  if errUppBound = 0 then some (s, [])
  else
    match simplifyLoop O nFrame fuel (O.area s.net) (O.delay s.net) s with
    | none => none
    | some r =>
      if fSimpl then some (⟨O.synth r.1.net, r.1.round, r.1.cexNum, r.1.black⟩, r.2)
      else some r

/-- Targets of the committed candidates, in commit order. -/
def committedTargs (las : List (LacR × LacAction)) : List Nat :=
  (las.filter fun p => decide (p.2 = LacAction.commit)).map fun p => p.1.targId

theorem applyStep_spec {O : AlsOracle} {nF : Nat} {s : PassState} {lac : LacR}
    {s1 : PassState} {a : LacAction}
    (h : applyStep O nF s lac = some (s1, a)) :
    (s1.froz = if a = LacAction.commit then lac.targId :: s.froz else s.froz)
    ∧ (s1.black = if a = LacAction.blacklist then lacSig lac :: s.black
        else s.black)
    ∧ (s1.valid = (s.valid || decide (a = LacAction.commit)))
    ∧ (a = LacAction.commit → lac.targId ∉ s.froz)
    ∧ (a = LacAction.skipFrozen → s1 = s)
    ∧ (lac.targId ∈ s.froz ↔ a = LacAction.skipFrozen) := by
  unfold applyStep at h
  by_cases hfz : lac.targId ∈ s.froz
  · rw [if_pos hfz, Option.some_inj] at h
    have h1 : s1 = s := (congrArg Prod.fst h).symm
    have h2 : a = LacAction.skipFrozen := (congrArg Prod.snd h).symm
    subst h1; subst h2
    simp [hfz]
  · rw [if_neg hfz] at h
    by_cases hdang : fanoutNum s.net lac.targId = 0
    · rw [if_pos hdang, Option.some_inj] at h
      have h1 : s1 = s := (congrArg Prod.fst h).symm
      have h2 : a = LacAction.skipDangling := (congrArg Prod.snd h).symm
      subst h1; subst h2
      simp [hfz]
    · rw [if_neg hdang] at h
      cases hstep : TempApplyLac s.net lac with
      | none => rw [hstep] at h; exact Option.noConfusion h
      | some r =>
        rw [hstep] at h
        simp only at h
        by_cases hacy : (! O.isAcyclic r.1) = true
        · rw [if_pos hacy, Option.some_inj] at h
          have h1 : s1 = ⟨RecovNet r.1 [r.2], s.froz, s.black, s.cexs,
              s.cexNum, s.valid⟩ := (congrArg Prod.fst h).symm
          have h2 : a = LacAction.skipCyclic := (congrArg Prod.snd h).symm
          subst h1; subst h2
          simp [hfz]
        · rw [if_neg hacy] at h
          by_cases hfc : (! s.cexs.isEmpty && O.fastFail r.1 s.cexs) = true
          · rw [if_pos hfc, Option.some_inj] at h
            have h1 : s1 = ⟨RecovNet r.1 [r.2], s.froz, s.black, s.cexs,
                s.cexNum, s.valid⟩ := (congrArg Prod.fst h).symm
            have h2 : a = LacAction.skipFastCheck := (congrArg Prod.snd h).symm
            subst h1; subst h2
            simp [hfz]
          · rw [if_neg hfc] at h
            cases hsol : O.solve r.1 with
            | unsat =>
              rw [hsol] at h
              simp only [Option.some_inj] at h
              have h1 : s1 = ⟨r.1, lac.targId :: s.froz, s.black, s.cexs,
                  s.cexNum, true⟩ := (congrArg Prod.fst h).symm
              have h2 : a = LacAction.commit := (congrArg Prod.snd h).symm
              subst h1; subst h2
              simp [hfz]
            | sat =>
              rw [hsol] at h
              simp only [Option.some_inj] at h
              have h1 : s1 = ⟨RecovNet r.1 [r.2], s.froz, s.black,
                  s.cexs ++ [O.cexOf r.1],
                  if nF ≤ s.cexNum + 1 then 0 else s.cexNum + 1, s.valid⟩ :=
                (congrArg Prod.fst h).symm
              have h2 : a = LacAction.cex := (congrArg Prod.snd h).symm
              subst h1; subst h2
              simp [hfz]
            | undef =>
              rw [hsol] at h
              simp only [Option.some_inj] at h
              have h1 : s1 = ⟨RecovNet r.1 [r.2], s.froz,
                  lacSig lac :: s.black, s.cexs, s.cexNum, s.valid⟩ :=
                (congrArg Prod.fst h).symm
              have h2 : a = LacAction.blacklist := (congrArg Prod.snd h).symm
              subst h1; subst h2
              simp [hfz]

theorem committedTargs_cons (lac : LacR) (a : LacAction)
    (ps : List (LacR × LacAction)) :
    committedTargs ((lac, a) :: ps)
      = if a = LacAction.commit then lac.targId :: committedTargs ps
        else committedTargs ps := by
  by_cases h : a = LacAction.commit <;> simp [committedTargs, h]

theorem applyPass_len {O : AlsOracle} {nF : Nat} (lacs : List LacR) :
    ∀ {s s1 : PassState} {acts : List LacAction},
      applyPass O nF s lacs = some (s1, acts) → acts.length = lacs.length := by
  induction lacs with
  | nil =>
    intro s s1 acts h
    rw [applyPass, Option.some_inj] at h
    have h2 : acts = [] := (congrArg Prod.snd h).symm
    subst h2; rfl
  | cons lac rest ih =>
    intro s s1 acts h
    rw [applyPass] at h
    cases hstep : applyStep O nF s lac with
    | none => rw [hstep] at h; exact Option.noConfusion h
    | some r =>
      rw [hstep] at h
      simp only at h
      cases hseq : applyPass O nF r.1 rest with
      | none => rw [hseq] at h; exact Option.noConfusion h
      | some r2 =>
        rw [hseq] at h
        simp only [Option.some_inj] at h
        have h2 : acts = r.2 :: r2.2 := (congrArg Prod.snd h).symm
        subst h2
        simp [ih hseq]

theorem applyPass_froz {O : AlsOracle} {nF : Nat} (lacs : List LacR) :
    ∀ {s s1 : PassState} {acts : List LacAction},
      applyPass O nF s lacs = some (s1, acts) →
      s1.froz = (committedTargs (lacs.zip acts)).reverse ++ s.froz := by
  induction lacs with
  | nil =>
    intro s s1 acts h
    rw [applyPass, Option.some_inj] at h
    have h1 : s1 = s := (congrArg Prod.fst h).symm
    have h2 : acts = [] := (congrArg Prod.snd h).symm
    subst h1; subst h2
    simp [committedTargs]
  | cons lac rest ih =>
    intro s s1 acts h
    rw [applyPass] at h
    cases hstep : applyStep O nF s lac with
    | none => rw [hstep] at h; exact Option.noConfusion h
    | some r =>
      rw [hstep] at h
      simp only at h
      cases hseq : applyPass O nF r.1 rest with
      | none => rw [hseq] at h; exact Option.noConfusion h
      | some r2 =>
        rw [hseq] at h
        simp only [Option.some_inj] at h
        have h1 : s1 = r2.1 := (congrArg Prod.fst h).symm
        have h2 : acts = r.2 :: r2.2 := (congrArg Prod.snd h).symm
        subst h1; subst h2
        have hfroz := (applyStep_spec
          (show applyStep O nF s lac = some (r.1, r.2) from hstep)).1
        rw [ih hseq, hfroz]
        by_cases hr2 : r.2 = LacAction.commit
        · simp [committedTargs_cons, hr2]
        · simp [committedTargs_cons, hr2]

theorem applyPass_valid {O : AlsOracle} {nF : Nat} (lacs : List LacR) :
    ∀ {s s1 : PassState} {acts : List LacAction},
      applyPass O nF s lacs = some (s1, acts) →
      s1.valid = (s.valid || decide (LacAction.commit ∈ acts)) := by
  induction lacs with
  | nil =>
    intro s s1 acts h
    rw [applyPass, Option.some_inj] at h
    have h1 : s1 = s := (congrArg Prod.fst h).symm
    have h2 : acts = [] := (congrArg Prod.snd h).symm
    subst h1; subst h2
    simp
  | cons lac rest ih =>
    intro s s1 acts h
    rw [applyPass] at h
    cases hstep : applyStep O nF s lac with
    | none => rw [hstep] at h; exact Option.noConfusion h
    | some r =>
      rw [hstep] at h
      simp only at h
      cases hseq : applyPass O nF r.1 rest with
      | none => rw [hseq] at h; exact Option.noConfusion h
      | some r2 =>
        rw [hseq] at h
        simp only [Option.some_inj] at h
        have h1 : s1 = r2.1 := (congrArg Prod.fst h).symm
        have h2 : acts = r.2 :: r2.2 := (congrArg Prod.snd h).symm
        subst h1; subst h2
        have hval := (applyStep_spec
          (show applyStep O nF s lac = some (r.1, r.2) from hstep)).2.2.1
        rw [ih hseq, hval]
        by_cases hr2 : r.2 = LacAction.commit
        · simp [hr2]
        · simp [hr2, Ne.symm hr2, Bool.or_assoc]

theorem applyPass_black_mono {O : AlsOracle} {nF : Nat} (lacs : List LacR) :
    ∀ {s s1 : PassState} {acts : List LacAction},
      applyPass O nF s lacs = some (s1, acts) →
      ∀ sig ∈ s.black, sig ∈ s1.black := by
  induction lacs with
  | nil =>
    intro s s1 acts h sig hsig
    rw [applyPass, Option.some_inj] at h
    have h1 : s1 = s := (congrArg Prod.fst h).symm
    subst h1; exact hsig
  | cons lac rest ih =>
    intro s s1 acts h sig hsig
    rw [applyPass] at h
    cases hstep : applyStep O nF s lac with
    | none => rw [hstep] at h; exact Option.noConfusion h
    | some r =>
      rw [hstep] at h
      simp only at h
      cases hseq : applyPass O nF r.1 rest with
      | none => rw [hseq] at h; exact Option.noConfusion h
      | some r2 =>
        rw [hseq] at h
        simp only [Option.some_inj] at h
        have h1 : s1 = r2.1 := (congrArg Prod.fst h).symm
        subst h1
        refine ih hseq sig ?_
        have hbl := (applyStep_spec
          (show applyStep O nF s lac = some (r.1, r.2) from hstep)).2.1
        rw [hbl]
        by_cases hr2 : r.2 = LacAction.blacklist
        · simp [hr2, hsig]
        · simp [hr2, hsig]

theorem applyPass_nodup {O : AlsOracle} {nF : Nat} (lacs : List LacR) :
    ∀ {s s1 : PassState} {acts : List LacAction},
      applyPass O nF s lacs = some (s1, acts) → s.froz.Nodup →
      (committedTargs (lacs.zip acts) ++ s.froz).Nodup := by
  induction lacs with
  | nil =>
    intro s s1 acts h hnd
    rw [applyPass, Option.some_inj] at h
    have h2 : acts = [] := (congrArg Prod.snd h).symm
    subst h2
    simpa [committedTargs] using hnd
  | cons lac rest ih =>
    intro s s1 acts h hnd
    rw [applyPass] at h
    cases hstep : applyStep O nF s lac with
    | none => rw [hstep] at h; exact Option.noConfusion h
    | some r =>
      rw [hstep] at h
      simp only at h
      cases hseq : applyPass O nF r.1 rest with
      | none => rw [hseq] at h; exact Option.noConfusion h
      | some r2 =>
        rw [hseq] at h
        simp only [Option.some_inj] at h
        have h2 : acts = r.2 :: r2.2 := (congrArg Prod.snd h).symm
        subst h2
        have hspec := applyStep_spec
          (show applyStep O nF s lac = some (r.1, r.2) from hstep)
        by_cases hr2 : r.2 = LacAction.commit
        · have hnotin : lac.targId ∉ s.froz := hspec.2.2.2.1 hr2
          have hfroz : r.1.froz = lac.targId :: s.froz := by
            rw [hspec.1, if_pos hr2]
          have hnd1 : r.1.froz.Nodup := by
            rw [hfroz]; exact List.nodup_cons.mpr ⟨hnotin, hnd⟩
          have hrec := ih hseq hnd1
          rw [hfroz] at hrec
          have hperm : List.Perm
              (committedTargs (rest.zip r2.2) ++ lac.targId :: s.froz)
              (lac.targId :: (committedTargs (rest.zip r2.2) ++ s.froz)) :=
            List.perm_middle
          have := hperm.nodup hrec
          simpa [committedTargs_cons, hr2] using this
        · have hfroz : r.1.froz = s.froz := by
            rw [hspec.1, if_neg hr2]
          have hnd1 : r.1.froz.Nodup := by rw [hfroz]; exact hnd
          have hrec := ih hseq hnd1
          rw [hfroz] at hrec
          simpa [committedTargs_cons, hr2] using hrec

theorem applyPass_frozen_skip {O : AlsOracle} {nF : Nat} (lacs : List LacR) :
    ∀ {s s1 : PassState} {acts : List LacAction},
      applyPass O nF s lacs = some (s1, acts) →
      ∀ i, (hi : i < lacs.length) →
        (lacs.get ⟨i, hi⟩).targId
          ∈ s.froz ++ committedTargs ((lacs.zip acts).take i) →
        acts[i]? = some LacAction.skipFrozen := by
  induction lacs with
  | nil =>
    intro s s1 acts h i hi hmem
    exact absurd hi (by simp)
  | cons lac rest ih =>
    intro s s1 acts h i hi hmem
    rw [applyPass] at h
    cases hstep : applyStep O nF s lac with
    | none => rw [hstep] at h; exact Option.noConfusion h
    | some r =>
      rw [hstep] at h
      simp only at h
      cases hseq : applyPass O nF r.1 rest with
      | none => rw [hseq] at h; exact Option.noConfusion h
      | some r2 =>
        rw [hseq] at h
        simp only [Option.some_inj] at h
        have h2 : acts = r.2 :: r2.2 := (congrArg Prod.snd h).symm
        subst h2
        have hspec := applyStep_spec
          (show applyStep O nF s lac = some (r.1, r.2) from hstep)
        cases i with
        | zero =>
          have hm : lac.targId ∈ s.froz := by
            simpa [committedTargs] using hmem
          have hsf : r.2 = LacAction.skipFrozen := hspec.2.2.2.2.2.mp hm
          simp [hsf]
        | succ j =>
          have hj : j < rest.length := by simpa using hi
          have hget : ((lac :: rest).get ⟨j + 1, hi⟩) = rest.get ⟨j, hj⟩ := rfl
          rw [hget] at hmem
          have hmem2 : (rest.get ⟨j, hj⟩).targId
              ∈ r.1.froz ++ committedTargs ((rest.zip r2.2).take j) := by
            by_cases hr2 : r.2 = LacAction.commit
            · rw [hspec.1, if_pos hr2]
              simp [List.zip_cons_cons, List.take_succ_cons,
                committedTargs_cons, hr2] at hmem ⊢
              tauto
            · rw [hspec.1, if_neg hr2]
              simp [List.zip_cons_cons, List.take_succ_cons,
                committedTargs_cons, hr2] at hmem ⊢
              tauto
          simpa using ih hseq j hj hmem2

theorem applyStep_frozen (O : AlsOracle) (nF : Nat) (st : PassState)
    (lac : LacR) (hmem : lac.targId ∈ st.froz) :
    applyStep O nF st lac = some (st, LacAction.skipFrozen) := by
  unfold applyStep
  rw [if_pos hmem]

theorem applyStep_blacklist {O : AlsOracle} {nF : Nat} {st st1 : PassState}
    {lac : LacR} (hc : hasConsts st.net)
    (h : applyStep O nF st lac = some (st1, LacAction.blacklist)) :
    st1.black = lacSig lac :: st.black
    ∧ (∀ j, getObj st1.net j = getObj st.net j)
    ∧ st1.froz = st.froz ∧ st1.cexs = st.cexs ∧ st1.cexNum = st.cexNum
    ∧ st1.valid = st.valid := by
  unfold applyStep at h
  by_cases hfz : lac.targId ∈ st.froz
  · rw [if_pos hfz, Option.some_inj] at h
    exact absurd (congrArg Prod.snd h) (by simp)
  · rw [if_neg hfz] at h
    by_cases hdang : fanoutNum st.net lac.targId = 0
    · rw [if_pos hdang, Option.some_inj] at h
      exact absurd (congrArg Prod.snd h) (by simp)
    · rw [if_neg hdang] at h
      cases hstep : TempApplyLac st.net lac with
      | none => rw [hstep] at h; exact Option.noConfusion h
      | some r =>
        rw [hstep] at h
        simp only at h
        by_cases hacy : (! O.isAcyclic r.1) = true
        · rw [if_pos hacy, Option.some_inj] at h
          exact absurd (congrArg Prod.snd h) (by simp)
        · rw [if_neg hacy] at h
          by_cases hfc : (! st.cexs.isEmpty && O.fastFail r.1 st.cexs) = true
          · rw [if_pos hfc, Option.some_inj] at h
            exact absurd (congrArg Prod.snd h) (by simp)
          · rw [if_neg hfc] at h
            cases hsol : O.solve r.1 with
            | unsat =>
              rw [hsol] at h
              simp only [Option.some_inj] at h
              exact absurd (congrArg Prod.snd h) (by simp)
            | sat =>
              rw [hsol] at h
              simp only [Option.some_inj] at h
              exact absurd (congrArg Prod.snd h) (by simp)
            | undef =>
              rw [hsol] at h
              simp only [Option.some_inj] at h
              have h1 : st1 = ⟨RecovNet r.1 [r.2], st.froz,
                  lacSig lac :: st.black, st.cexs, st.cexNum, st.valid⟩ :=
                (congrArg Prod.fst h).symm
              subst h1
              refine ⟨rfl, ?_, rfl, rfl, rfl, rfl⟩
              intro j
              exact (tempApplyLac_step hc
                (show TempApplyLac st.net lac = some (r.1, r.2) from hstep)).1 j

theorem applyMultValidLacs_run {O : AlsOracle} {nF : Nat} {lacs : List LacR}
    {net : MNet} {black : List LacSig} {cexNum : Nat}
    {out : (MNet × List LacSig × Nat) × Bool × List LacAction}
    (h : ApplyMultValidLacs O nF lacs net black cexNum = some out) :
    ∃ p : PassState × List LacAction,
      applyPass O nF ⟨net, [], black, [], cexNum, false⟩ lacs = some p
      ∧ out = ((O.sweep p.1.net, p.1.black, p.1.cexNum), p.1.valid, p.2) := by
  unfold ApplyMultValidLacs at h
  cases hp : applyPass O nF ⟨net, [], black, [], cexNum, false⟩ lacs with
  | none => rw [hp] at h; exact Option.noConfusion h
  | some p =>
    rw [hp] at h
    simp only [Option.some_inj] at h
    exact ⟨p, rfl, h.symm⟩

/-- C7: within one `ApplyMultValidLacs` pass no two committed candidates share
a target node id: a commit inserts its target into the freeze set, the freeze
set at the end of the pass holds exactly the committed targets, every later
candidate whose target was committed earlier is answered `skipFrozen`, by a
step that does not modify the state and does not consult any oracle, and the
committed targets are pairwise distinct. -/
theorem applyMultValidLacs_freeze (O : AlsOracle) (nF : Nat) (lacs : List LacR)
    (net : MNet) (black : List LacSig) (cexNum : Nat)
    {out : (MNet × List LacSig × Nat) × Bool × List LacAction}
    (h : ApplyMultValidLacs O nF lacs net black cexNum = some out) :
    out.2.2.length = lacs.length
    ∧ (committedTargs (lacs.zip out.2.2)).Nodup
    ∧ (∀ (s0 s1 : PassState) (acts : List LacAction),
        applyPass O nF s0 lacs = some (s1, acts) →
        s1.froz = (committedTargs (lacs.zip acts)).reverse ++ s0.froz)
    ∧ (∀ i, (hi : i < lacs.length) →
        (lacs.get ⟨i, hi⟩).targId
          ∈ committedTargs ((lacs.zip out.2.2).take i) →
        out.2.2[i]? = some LacAction.skipFrozen)
    ∧ (∀ (Oth : AlsOracle) (st : PassState) (lac : LacR),
        lac.targId ∈ st.froz →
        applyStep Oth nF st lac = some (st, LacAction.skipFrozen)) := by
  obtain ⟨p, hp, hout⟩ := applyMultValidLacs_run h
  have hacts : out.2.2 = p.2 := by rw [hout]
  refine ⟨?_, ?_, ?_, ?_, ?_⟩
  · rw [hacts]
    exact applyPass_len lacs
      (show applyPass O nF _ lacs = some (p.1, p.2) from hp)
  · rw [hacts]
    have := applyPass_nodup lacs
      (show applyPass O nF _ lacs = some (p.1, p.2) from hp) (by simp)
    simpa using this
  · intro s0 s1 acts hrun
    exact applyPass_froz lacs hrun
  · intro i hi hmem
    rw [hacts] at hmem ⊢
    refine applyPass_frozen_skip lacs
      (show applyPass O nF _ lacs = some (p.1, p.2) from hp) i hi ?_
    simpa using hmem
  · intro Oth st lac hm
    exact applyStep_frozen Oth nF st lac hm

/-- All-UNSAT oracle used in the freeze-set witness. -/
def commitOracle : AlsOracle :=
  ⟨fun _ => true, fun _ _ => false, fun _ => SatRes.unsat, fun _ => [],
   id, fun _ => 5, fun _ => 3, fun _ => [rollbackCexLac, rollbackCexLac],
   fun _ ls => ls, id⟩

theorem applyMultValidLacs_freeze_witness :
    ApplyMultValidLacs commitOracle 4 [rollbackCexLac, rollbackCexLac]
        rollbackWitNet [] 0
      = some ((rollbackWitNet2, [], 0), true,
          [LacAction.commit, LacAction.skipFrozen])
    ∧ (committedTargs ([rollbackCexLac, rollbackCexLac].zip
        [LacAction.commit, LacAction.skipFrozen])).Nodup
    ∧ ([LacAction.commit, LacAction.skipFrozen][1]?
        = some LacAction.skipFrozen) := by
  have h : ApplyMultValidLacs commitOracle 4 [rollbackCexLac, rollbackCexLac]
      rollbackWitNet [] 0
      = some ((rollbackWitNet2, [], 0), true,
          [LacAction.commit, LacAction.skipFrozen]) := by decide
  refine ⟨h, ?_, ?_⟩
  · exact (applyMultValidLacs_freeze commitOracle 4
      [rollbackCexLac, rollbackCexLac] rollbackWitNet [] 0 h).2.1
  · exact (applyMultValidLacs_freeze commitOracle 4
      [rollbackCexLac, rollbackCexLac] rollbackWitNet [] 0 h).2.2.2.1 1
      (by decide) (by decide)

/-- C10: with a zero error upper bound, `SimplifyWithSingleLac` returns
immediately — for every oracle, so before any candidate is generated — and the
returned state keeps the approximate network, the round counter, the
counterexample index and the blacklist untouched, with no round executed. -/
theorem simplifyWithSingleLac_zero_bound (O : AlsOracle) (nF fuel : Nat)
    (fS : Bool) (s : SimpState) :
    SimplifyWithSingleLac O nF fuel 0 fS s = some (s, []) := by
  unfold SimplifyWithSingleLac
  simp

theorem applyMultValidLacs_valid {O : AlsOracle} {nF : Nat} {lacs : List LacR}
    {net : MNet} {black : List LacSig} {cexNum : Nat}
    {out : (MNet × List LacSig × Nat) × Bool × List LacAction}
    (h : ApplyMultValidLacs O nF lacs net black cexNum = some out) :
    out.2.1 = decide (LacAction.commit ∈ out.2.2) := by
  obtain ⟨p, hp, hout⟩ := applyMultValidLacs_run h
  have hval := applyPass_valid lacs
    (show applyPass O nF _ lacs = some (p.1, p.2) from hp)
  rw [hout]
  simpa using hval

theorem simplifyLoop_mono {O : AlsOracle} {nF : Nat} :
    ∀ (fuel : Nat) (oS oD : Nat) (s : SimpState) {s1 : SimpState}
      {logs : List RoundLog},
      simplifyLoop O nF fuel oS oD s = some (s1, logs) →
      (∀ lg ∈ logs, LacAction.commit ∈ lg.acts → ∃ m, lg.meas = some m)
      ∧ (∀ lg ∈ logs, ∀ sz dp oSz oDp,
          lg.meas = some ((sz, dp), (oSz, oDp)) →
          sz < oSz ∨ (sz = oSz ∧ dp ≤ oDp))
      ∧ (∀ i lg, i + 1 < logs.length → logs[i]? = some lg →
          ∀ sz dp oSz oDp, lg.meas = some ((sz, dp), (oSz, oDp)) →
          ¬(sz = oSz ∧ dp = oDp)) := by
  intro fuel
  induction fuel with
  | zero =>
    intro oS oD s s1 logs h
    rw [simplifyLoop] at h
    exact Option.noConfusion h
  | succ fuel ih =>
    intro oS oD s s1 logs h
    rw [simplifyLoop] at h
    simp only at h
    set lacs := O.score s.net (RemLacsFromBlackList s.black (O.genLacs s.net))
      with hlacs
    by_cases hemp : lacs.isEmpty = true
    · rw [if_pos hemp, Option.some_inj] at h
      have hlg : logs = [] := (congrArg Prod.snd h).symm
      subst hlg
      refine ⟨by simp, by simp, ?_⟩
      intro i lg hil
      rw [List.length_nil] at hil
      omega
    · rw [if_neg hemp] at h
      cases happ : ApplyMultValidLacs O nF lacs s.net s.black s.cexNum with
      | none => rw [happ] at h; exact Option.noConfusion h
      | some r =>
        rw [happ] at h
        simp only at h
        by_cases hval : (! r.2.1) = true
        · rw [if_pos hval, Option.some_inj] at h
          have hlg : logs = [⟨s.black, lacs, r.2.2, r.1.2.1, none⟩] :=
            (congrArg Prod.snd h).symm
          subst hlg
          have hnc : LacAction.commit ∉ r.2.2 := by
            intro hmem
            have hv := applyMultValidLacs_valid happ
            rw [hv] at hval
            simp [hmem] at hval
          refine ⟨?_, ?_, ?_⟩
          · intro lg hlgm hcom
            simp only [List.mem_singleton] at hlgm
            subst hlgm
            exact absurd hcom hnc
          · intro lg hlgm sz dp oSz oDp hmeas
            simp only [List.mem_singleton] at hlgm
            subst hlgm
            simp at hmeas
          · intro i lg hil
            rw [List.length_singleton] at hil
            omega
        · rw [if_neg hval] at h
          set size := O.area r.1.1 with hsize
          set depth := O.delay r.1.1 with hdepth
          by_cases hass : size < oS ∨ (size = oS ∧ depth ≤ oD)
          · rw [if_pos hass] at h
            by_cases hstag : size = oS ∧ depth = oD
            · rw [if_pos hstag, Option.some_inj] at h
              have hlg : logs = [⟨s.black, lacs, r.2.2, r.1.2.1,
                  some ((size, depth), (oS, oD))⟩] :=
                (congrArg Prod.snd h).symm
              subst hlg
              refine ⟨?_, ?_, ?_⟩
              · intro lg hlgm hcom
                simp only [List.mem_singleton] at hlgm
                subst hlgm
                exact ⟨((size, depth), (oS, oD)), rfl⟩
              · intro lg hlgm sz dp oSz oDp hmeas
                simp only [List.mem_singleton] at hlgm
                subst hlgm
                simp at hmeas
                obtain ⟨⟨h1, h2⟩, h3, h4⟩ := hmeas
                subst h1; subst h2; subst h3; subst h4
                exact hass
              · intro i lg hil
                rw [List.length_singleton] at hil
                omega
            · rw [if_neg hstag] at h
              cases hrec : simplifyLoop O nF fuel size depth
                  ⟨r.1.1, s.round + 1, r.1.2.2, r.1.2.1⟩ with
              | none => rw [hrec] at h; exact Option.noConfusion h
              | some r2 =>
                rw [hrec] at h
                simp only [Option.some_inj] at h
                have hlg : logs = ⟨s.black, lacs, r.2.2, r.1.2.1,
                    some ((size, depth), (oS, oD))⟩ :: r2.2 :=
                  (congrArg Prod.snd h).symm
                subst hlg
                obtain ⟨ih1, ih2, ih3⟩ :=
                  ih size depth ⟨r.1.1, s.round + 1, r.1.2.2, r.1.2.1⟩ hrec
                refine ⟨?_, ?_, ?_⟩
                · intro lg hlgm hcom
                  rcases List.mem_cons.mp hlgm with hhead | htail
                  · subst hhead
                    exact ⟨((size, depth), (oS, oD)), rfl⟩
                  · exact ih1 lg htail hcom
                · intro lg hlgm sz dp oSz oDp hmeas
                  rcases List.mem_cons.mp hlgm with hhead | htail
                  · subst hhead
                    simp at hmeas
                    obtain ⟨⟨h1, h2⟩, h3, h4⟩ := hmeas
                    subst h1; subst h2; subst h3; subst h4
                    exact hass
                  · exact ih2 lg htail sz dp oSz oDp hmeas
                · intro i lg hil hget sz dp oSz oDp hmeas
                  cases i with
                  | zero =>
                    simp only [List.getElem?_cons_zero, Option.some_inj]
                      at hget
                    subst hget
                    simp at hmeas
                    obtain ⟨⟨h1, h2⟩, h3, h4⟩ := hmeas
                    subst h1; subst h2; subst h3; subst h4
                    exact hstag
                  | succ j =>
                    have hil2 : j + 1 < r2.2.length := by
                      rw [List.length_cons] at hil
                      omega
                    have hget2 : r2.2[j]? = some lg := by
                      simpa using hget
                    exact ih3 j lg hil2 hget2 sz dp oSz oDp hmeas
          · rw [if_neg hass] at h
            exact Option.noConfusion h

/-- C4: in every completed `SimplifyWithSingleLac` call, every round that
commits at least one candidate reaches the measurement point, every measured
round satisfies the non-regression guarantee against the previous round — the
size strictly decreases, or the size is unchanged and the depth does not
increase (the in-code assertion: a violating round aborts the run) — and a
measured round with both size and depth unchanged is the last round of the
phase. -/
theorem simplifyWithSingleLac_round_monotone (O : AlsOracle) (nF fuel : Nat)
    (b : Int) (fS : Bool) (s : SimpState) {s1 : SimpState}
    {logs : List RoundLog}
    (h : SimplifyWithSingleLac O nF fuel b fS s = some (s1, logs)) :
    (∀ lg ∈ logs, LacAction.commit ∈ lg.acts → ∃ m, lg.meas = some m)
    ∧ (∀ lg ∈ logs, ∀ sz dp oSz oDp,
        lg.meas = some ((sz, dp), (oSz, oDp)) →
        sz < oSz ∨ (sz = oSz ∧ dp ≤ oDp))
    ∧ (∀ i lg, i + 1 < logs.length → logs[i]? = some lg →
        ∀ sz dp oSz oDp, lg.meas = some ((sz, dp), (oSz, oDp)) →
        ¬(sz = oSz ∧ dp = oDp)) := by
  unfold SimplifyWithSingleLac at h
  by_cases hb : b = 0
  · rw [if_pos hb, Option.some_inj] at h
    have hlg : logs = [] := (congrArg Prod.snd h).symm
    subst hlg
    refine ⟨by simp, by simp, ?_⟩
    intro i lg hil
    rw [List.length_nil] at hil
    omega
  · rw [if_neg hb] at h
    cases hrun : simplifyLoop O nF fuel (O.area s.net) (O.delay s.net) s with
    | none => rw [hrun] at h; exact Option.noConfusion h
    | some r =>
      rw [hrun] at h
      simp only at h
      have hmono := simplifyLoop_mono fuel (O.area s.net) (O.delay s.net) s hrun
      by_cases hfS : fS = true
      · rw [if_pos hfS, Option.some_inj] at h
        have hlg : logs = r.2 := (congrArg Prod.snd h).symm
        subst hlg
        exact hmono
      · rw [if_neg hfS, Option.some_inj] at h
        have hlg : logs = r.2 := (congrArg Prod.snd h).symm
        subst hlg
        exact hmono

theorem simplifyWithSingleLac_round_monotone_witness :
    SimplifyWithSingleLac commitOracle 4 1 1 false ⟨rollbackWitNet, 1, 0, []⟩
      = some (⟨rollbackWitNet2, 1, 0, []⟩,
          [⟨[], [rollbackCexLac, rollbackCexLac],
            [LacAction.commit, LacAction.skipFrozen], [],
            some ((5, 3), (5, 3))⟩])
    ∧ (5 < 5 ∨ (5 = 5 ∧ 3 ≤ 3)) := by
  have h : SimplifyWithSingleLac commitOracle 4 1 1 false
      ⟨rollbackWitNet, 1, 0, []⟩
      = some (⟨rollbackWitNet2, 1, 0, []⟩,
          [⟨[], [rollbackCexLac, rollbackCexLac],
            [LacAction.commit, LacAction.skipFrozen], [],
            some ((5, 3), (5, 3))⟩]) := by decide
  refine ⟨h, ?_⟩
  exact (simplifyWithSingleLac_round_monotone commitOracle 4 1 1 false
    ⟨rollbackWitNet, 1, 0, []⟩ h).2.1
    ⟨[], [rollbackCexLac, rollbackCexLac],
      [LacAction.commit, LacAction.skipFrozen], [], some ((5, 3), (5, 3))⟩
    (by decide) 5 3 5 3 rfl

theorem remLacsFromBlackList_mem {black : List LacSig} {ls : List LacR}
    {l : LacR} (h : l ∈ RemLacsFromBlackList black ls) :
    l ∈ ls ∧ lacSig l ∉ black := by
  unfold RemLacsFromBlackList at h
  by_cases hemp : black.isEmpty = true
  · rw [if_pos hemp] at h
    refine ⟨h, ?_⟩
    rw [List.isEmpty_iff] at hemp
    subst hemp
    simp
  · rw [if_neg hemp] at h
    have hm := List.mem_filter.mp h
    refine ⟨hm.1, ?_⟩
    simpa using hm.2

theorem applyMultValidLacs_black_mono {O : AlsOracle} {nF : Nat}
    {lacs : List LacR} {net : MNet} {black : List LacSig} {cexNum : Nat}
    {out : (MNet × List LacSig × Nat) × Bool × List LacAction}
    (h : ApplyMultValidLacs O nF lacs net black cexNum = some out) :
    ∀ sig ∈ black, sig ∈ out.1.2.1 := by
  obtain ⟨p, hp, hout⟩ := applyMultValidLacs_run h
  intro sig hsig
  rw [hout]
  exact applyPass_black_mono lacs
    (show applyPass O nF _ lacs = some (p.1, p.2) from hp) sig hsig

theorem simplifyLoop_blacklist {O : AlsOracle} {nF : Nat}
    (hsub : ∀ net ls l, l ∈ O.score net ls → l ∈ ls) :
    ∀ (fuel : Nat) (oS oD : Nat) (s : SimpState) {s1 : SimpState}
      {logs : List RoundLog},
      simplifyLoop O nF fuel oS oD s = some (s1, logs) →
      (∀ lg ∈ logs, ∀ sig ∈ s.black,
        sig ∈ lg.blackBefore ∧ sig ∈ lg.blackAfter)
      ∧ (∀ lg ∈ logs, ∀ lac ∈ lg.lacs, lacSig lac ∉ lg.blackBefore)
      ∧ (∀ (i j : Nat) (lgi lgj : RoundLog), i < j →
          logs[i]? = some lgi → logs[j]? = some lgj →
          ∀ sig ∈ lgi.blackAfter, sig ∈ lgj.blackBefore) := by
  intro fuel
  induction fuel with
  | zero =>
    intro oS oD s s1 logs h
    rw [simplifyLoop] at h
    exact Option.noConfusion h
  | succ fuel ih =>
    intro oS oD s s1 logs h
    rw [simplifyLoop] at h
    simp only at h
    set lacs := O.score s.net (RemLacsFromBlackList s.black (O.genLacs s.net))
      with hlacs
    have hproc : ∀ lac ∈ lacs, lacSig lac ∉ s.black := by
      intro lac hlac
      exact (remLacsFromBlackList_mem (hsub _ _ _ (hlacs ▸ hlac))).2
    by_cases hemp : lacs.isEmpty = true
    · rw [if_pos hemp, Option.some_inj] at h
      have hlg : logs = [] := (congrArg Prod.snd h).symm
      subst hlg
      refine ⟨by simp, by simp, ?_⟩
      intro i j lgi lgj hij hgi hgj
      rw [List.getElem?_eq_none (by rw [List.length_nil]; omega)] at hgj
      exact Option.noConfusion hgj
    · rw [if_neg hemp] at h
      cases happ : ApplyMultValidLacs O nF lacs s.net s.black s.cexNum with
      | none => rw [happ] at h; exact Option.noConfusion h
      | some r =>
        rw [happ] at h
        simp only at h
        have hmono := applyMultValidLacs_black_mono happ
        by_cases hval : (! r.2.1) = true
        · rw [if_pos hval, Option.some_inj] at h
          have hlg : logs = [⟨s.black, lacs, r.2.2, r.1.2.1, none⟩] :=
            (congrArg Prod.snd h).symm
          subst hlg
          refine ⟨?_, ?_, ?_⟩
          · intro lg hlgm sig hsig
            simp only [List.mem_singleton] at hlgm
            subst hlgm
            exact ⟨hsig, hmono sig hsig⟩
          · intro lg hlgm lac hlac
            simp only [List.mem_singleton] at hlgm
            subst hlgm
            exact hproc lac hlac
          · intro i j lgi lgj hij hgi hgj sig hsig
            have hj1 : j < 1 := by
              by_contra hge
              rw [List.getElem?_eq_none
                (by rw [List.length_singleton]; omega)] at hgj
              exact Option.noConfusion hgj
            exact ((by omega : False)).elim
        · rw [if_neg hval] at h
          set size := O.area r.1.1 with hsize
          set depth := O.delay r.1.1 with hdepth
          by_cases hass : size < oS ∨ (size = oS ∧ depth ≤ oD)
          · rw [if_pos hass] at h
            by_cases hstag : size = oS ∧ depth = oD
            · rw [if_pos hstag, Option.some_inj] at h
              have hlg : logs = [⟨s.black, lacs, r.2.2, r.1.2.1,
                  some ((size, depth), (oS, oD))⟩] :=
                (congrArg Prod.snd h).symm
              subst hlg
              refine ⟨?_, ?_, ?_⟩
              · intro lg hlgm sig hsig
                simp only [List.mem_singleton] at hlgm
                subst hlgm
                exact ⟨hsig, hmono sig hsig⟩
              · intro lg hlgm lac hlac
                simp only [List.mem_singleton] at hlgm
                subst hlgm
                exact hproc lac hlac
              · intro i j lgi lgj hij hgi hgj sig hsig
                have hj1 : j < 1 := by
                  by_contra hge
                  rw [List.getElem?_eq_none
                    (by rw [List.length_singleton]; omega)] at hgj
                  exact Option.noConfusion hgj
                exact ((by omega : False)).elim
            · rw [if_neg hstag] at h
              cases hrec : simplifyLoop O nF fuel size depth
                  ⟨r.1.1, s.round + 1, r.1.2.2, r.1.2.1⟩ with
              | none => rw [hrec] at h; exact Option.noConfusion h
              | some r2 =>
                rw [hrec] at h
                simp only [Option.some_inj] at h
                have hlg : logs = ⟨s.black, lacs, r.2.2, r.1.2.1,
                    some ((size, depth), (oS, oD))⟩ :: r2.2 :=
                  (congrArg Prod.snd h).symm
                subst hlg
                obtain ⟨ihA, ihB, ihC⟩ :=
                  ih size depth ⟨r.1.1, s.round + 1, r.1.2.2, r.1.2.1⟩ hrec
                refine ⟨?_, ?_, ?_⟩
                · intro lg hlgm sig hsig
                  rcases List.mem_cons.mp hlgm with hhead | htail
                  · subst hhead
                    exact ⟨hsig, hmono sig hsig⟩
                  · exact ihA lg htail sig (hmono sig hsig)
                · intro lg hlgm lac hlac
                  rcases List.mem_cons.mp hlgm with hhead | htail
                  · subst hhead
                    exact hproc lac hlac
                  · exact ihB lg htail lac hlac
                · intro i j lgi lgj hij hgi hgj sig hsig
                  cases i with
                  | zero =>
                    simp only [List.getElem?_cons_zero, Option.some_inj]
                      at hgi
                    subst hgi
                    cases j with
                    | zero => exact ((by omega : False)).elim
                    | succ m =>
                      simp only [List.getElem?_cons_succ] at hgj
                      have hmem : lgj ∈ r2.2 := List.getElem?_mem hgj
                      exact (ihA lgj hmem sig hsig).1
                  | succ k =>
                    cases j with
                    | zero => exact ((by omega : False)).elim
                    | succ m =>
                      simp only [List.getElem?_cons_succ] at hgi hgj
                      exact ihC k m lgi lgj (by omega) hgi hgj sig hsig
          · rw [if_neg hass] at h
            exact Option.noConfusion h

/-- C9 (amended): when the SAT oracle returns UNDEF, the step inserts the
candidate signature into the blacklist and — provided the network holds both
constant nodes — rolls the trial edit back so every arena slot of the
approximate network reads back unchanged, leaving the freeze set, the
counterexample store, the counterexample index and the valid flag untouched;
`RemLacsFromBlackList` keeps exactly the candidates whose signature is not
blacklisted, so in every round of a completed `SimplifyWithSingleLac` phase
the processed candidate list carries no blacklisted signature, and a signature
blacklisted in an earlier round belongs to every later round's starting
blacklist and is never processed again. Without the constant-node proviso the
rollback is not exact: a constant LAC creates the missing constant nodes and
the recorded trace does not delete them. -/
theorem undefBlacklist_spec (O : AlsOracle) (nF fuel : Nat) (b : Int)
    (fS : Bool) (s : SimpState) {s1 : SimpState} {logs : List RoundLog}
    (hsub : ∀ (net : MNet) (ls : List LacR) (l : LacR),
      l ∈ O.score net ls → l ∈ ls)
    (h : SimplifyWithSingleLac O nF fuel b fS s = some (s1, logs)) :
    (∀ (st st1 : PassState) (lac : LacR), hasConsts st.net →
        applyStep O nF st lac = some (st1, LacAction.blacklist) →
        st1.black = lacSig lac :: st.black
        ∧ (∀ j, getObj st1.net j = getObj st.net j)
        ∧ st1.froz = st.froz ∧ st1.cexs = st.cexs ∧ st1.cexNum = st.cexNum
        ∧ st1.valid = st.valid)
    ∧ (∀ (bl : List LacSig) (ls : List LacR) (l : LacR),
        l ∈ RemLacsFromBlackList bl ls → l ∈ ls ∧ lacSig l ∉ bl)
    ∧ (∀ lg ∈ logs, ∀ lac ∈ lg.lacs, lacSig lac ∉ lg.blackBefore)
    ∧ (∀ (i j : Nat) (lgi lgj : RoundLog), i < j →
        logs[i]? = some lgi → logs[j]? = some lgj →
        ∀ sig ∈ lgi.blackAfter, sig ∈ lgj.blackBefore
          ∧ ∀ lac ∈ lgj.lacs, lacSig lac ≠ sig) := by
  have hcore : (∀ lg ∈ logs, ∀ lac ∈ lg.lacs, lacSig lac ∉ lg.blackBefore)
      ∧ (∀ (i j : Nat) (lgi lgj : RoundLog), i < j →
          logs[i]? = some lgi → logs[j]? = some lgj →
          ∀ sig ∈ lgi.blackAfter, sig ∈ lgj.blackBefore) := by
    unfold SimplifyWithSingleLac at h
    by_cases hb : b = 0
    · rw [if_pos hb, Option.some_inj] at h
      have hlg : logs = [] := (congrArg Prod.snd h).symm
      subst hlg
      refine ⟨by simp, ?_⟩
      intro i j lgi lgj hij hgi hgj
      rw [List.getElem?_eq_none (by rw [List.length_nil]; omega)] at hgj
      exact Option.noConfusion hgj
    · rw [if_neg hb] at h
      cases hrun : simplifyLoop O nF fuel (O.area s.net) (O.delay s.net) s with
      | none => rw [hrun] at h; exact Option.noConfusion h
      | some r =>
        rw [hrun] at h
        simp only at h
        obtain ⟨hA, hB, hC⟩ :=
          simplifyLoop_blacklist hsub fuel (O.area s.net) (O.delay s.net) s hrun
        have hlg : logs = r.2 := by
          by_cases hfS : fS = true
          · rw [if_pos hfS, Option.some_inj] at h
            exact (congrArg Prod.snd h).symm
          · rw [if_neg hfS, Option.some_inj] at h
            exact (congrArg Prod.snd h).symm
        subst hlg
        exact ⟨hB, hC⟩
  refine ⟨fun st st1 lac hc hs => applyStep_blacklist hc hs,
    fun bl ls l hm => remLacsFromBlackList_mem hm, hcore.1, ?_⟩
  intro i j lgi lgj hij hgi hgj sig hsig
  have hbef := hcore.2 i j lgi lgj hij hgi hgj sig hsig
  refine ⟨hbef, ?_⟩
  intro lac hlac heq
  exact hcore.1 lgj (List.getElem?_mem hgj) lac hlac (heq.symm ▸ hbef)

/-- Oracle whose SAT solver always reports UNDEF. -/
def undefOracle : AlsOracle :=
  ⟨fun _ => true, fun _ _ => false, fun _ => SatRes.undef, fun _ => [],
   id, fun _ => 5, fun _ => 3, fun _ => [rollbackCexLac], fun _ ls => ls, id⟩

/-- C9 counterexample: for a constant candidate on a network without constant
nodes, the UNDEF branch does blacklist the signature, but the rollback leaves
the approximate network changed — the constant nodes created by the trial
application survive at ids 3 and 4, so the network is not unchanged. -/
theorem undefBlacklist_rollback_not_exact :
    applyStep undefOracle 4 ⟨rollbackCexNet, [], [], [], 0, false⟩
        rollbackCexLac
      = some (⟨[some MObj.mpi, some (MObj.mnode [0] "1 1\n"),
          some (MObj.mpo 1), some (MObj.mnode [] " 0\n"),
          some (MObj.mnode [] " 1\n")], [], [lacSig rollbackCexLac], [], 0,
          false⟩, LacAction.blacklist)
    ∧ getObj [some MObj.mpi, some (MObj.mnode [0] "1 1\n"),
        some (MObj.mpo 1), some (MObj.mnode [] " 0\n"),
        some (MObj.mnode [] " 1\n")] 3 ≠ getObj rollbackCexNet 3 :=
  ⟨by decide, by decide⟩

theorem undefBlacklist_spec_witness :
    SimplifyWithSingleLac undefOracle 4 1 1 false ⟨rollbackWitNet, 1, 0, []⟩
      = some (⟨rollbackWitNet, 1, 0, [lacSig rollbackCexLac]⟩,
          [⟨[], [rollbackCexLac], [LacAction.blacklist],
            [lacSig rollbackCexLac], none⟩])
    ∧ lacSig rollbackCexLac ∉
        (⟨[], [rollbackCexLac], [LacAction.blacklist],
          [lacSig rollbackCexLac], none⟩ : RoundLog).blackBefore := by
  have h : SimplifyWithSingleLac undefOracle 4 1 1 false
      ⟨rollbackWitNet, 1, 0, []⟩
      = some (⟨rollbackWitNet, 1, 0, [lacSig rollbackCexLac]⟩,
          [⟨[], [rollbackCexLac], [LacAction.blacklist],
            [lacSig rollbackCexLac], none⟩]) := by decide
  refine ⟨h, ?_⟩
  exact (undefBlacklist_spec undefOracle 4 1 1 false ⟨rollbackWitNet, 1, 0, []⟩
    (fun net ls l hm => hm) h).2.2.1
    ⟨[], [rollbackCexLac], [LacAction.blacklist],
      [lacSig rollbackCexLac], none⟩ (by decide) rollbackCexLac (by decide)

/-! ### Combinational SOP networks and the error miter (`error.cc`) -/

/-- An SOP function: cubes of input literals (`none` = dont-care `-`,
`some b` = literal value) plus the output phase of the cubes (`false` means
the OR of the cubes is complemented, as `Abc_SopIsComplement` reads it). -/
structure SopF where
  cubes : List (List (Option Bool))
  phase : Bool
deriving DecidableEq, Inhabited

/-- Value of one cube on the fanin values (the inner loop of
`Simulator::UpdSop`): the AND of the selected literals; an all-dash cube is
constant 1. -/
def evalCube (vals : List Bool) (cube : List (Option Bool)) : Bool :=
  (List.zip vals cube).all fun p =>
    match p.2 with
    | none => true
    | some b => p.1 == b

/-- Value of an SOP on its fanin values (`Simulator::UpdSop`): OR of the cube
products, complemented when the output phase is 0. -/
def evalSop (f : SopF) (vals : List Bool) : Bool :=
  let r := f.cubes.any fun c => evalCube vals c
  if f.phase then r else !r

/-- A combinational network in SOP form: named primary inputs, internal nodes
in topological order (a fanin id below `pis.length` is a PI, id
`pis.length + k` is node `k`), and one driver id per primary output. -/
structure CNet where
  pis : List String
  gates : List (List Nat × SopF)
  pos : List Nat
deriving DecidableEq, Inhabited

/-- One simulation step: append the value of the next node. -/
def wireStep (acc : List Bool) (g : List Nat × SopF) : List Bool :=
  acc ++ [evalSop g.2 (g.1.map fun f => (acc[f]?).getD false)]

/-- Values of all wires given the PI values (`UpdNodeAndPoPatts` restricted to
one pattern). -/
def wireValsV (net : CNet) (vals : List Bool) : List Bool :=
  net.gates.foldl wireStep vals

/-- Primary-output values given the PI values. -/
def netPoValsV (net : CNet) (vals : List Bool) : List Bool :=
  net.pos.map fun d => ((wireValsV net vals)[d]?).getD false

/-- Values of all wires under a named PI assignment. -/
def wireVals (net : CNet) (env : String → Bool) : List Bool :=
  wireValsV net (net.pis.map env)

/-- Primary-output values under a named PI assignment. -/
def netPoVals (net : CNet) (env : String → Bool) : List Bool :=
  netPoValsV net (net.pis.map env)

/-- Topological well-formedness: every fanin of node `k` is a PI or an
earlier node. -/
def wfGates (net : CNet) : Bool :=
  (List.range net.gates.length).all fun k =>
    ((net.gates.getD k ([], default)).1.all fun f =>
      decide (f < net.pis.length + k))

/-- Every PO driver exists. -/
def wfPos (net : CNet) : Bool :=
  net.pos.all fun d => decide (d < net.pis.length + net.gates.length)

/-- PI names of the miter built by `ErrMan::BuildErrMit`: the accurate
network PIs, then the approximate network PIs whose name does
not appear in the accurate network (control signals), then the deviation
network `ref_err` PIs. -/
def miterPis (A B D : CNet) : List String :=
  A.pis ++ (B.pis.filter fun n => ! A.pis.contains n)
    ++ D.pis.drop (2 * A.pos.length)

/-- Id translation for the copied accurate block: a PI keeps its index (the
`name2PI` map), node `k` of `A` becomes node `k` of the miter. -/
def remapA (A : CNet) (nPiM : Nat) (i : Nat) : Nat :=
  if i < A.pis.length then i else nPiM + (i - A.pis.length)

/-- Id translation for the copied approximate block: a PI goes through the
`name2PI` map (first PI of the miter with the same name), node `k` of `B`
becomes node `A.gates.length + k` of the miter. -/
def remapB (A B D : CNet) (nPiM nGA : Nat) (i : Nat) : Nat :=
  if i < B.pis.length then (miterPis A B D).indexOf (B.pis.getD i "")
  else nPiM + nGA + (i - B.pis.length)

/-- Id translation for the copied deviation block: PI `i < nPo` reads the
`i`-th accurate PO driver, PI `nPo + i` reads the `i`-th approximate PO
driver, the remaining PIs are the fresh `ref_err` miter PIs, and node `k` of
`D` becomes node `A.gates.length + B.gates.length + k` of the miter. -/
def remapD (A B D : CNet) (i : Nat) : Nat :=
  if i < A.pos.length then
    remapA A (miterPis A B D).length (A.pos.getD i 0)
  else if i < 2 * A.pos.length then
    remapB A B D (miterPis A B D).length A.gates.length
      (B.pos.getD (i - A.pos.length) 0)
  else if i < D.pis.length then
    A.pis.length + (B.pis.filter fun n => ! A.pis.contains n).length
      + (i - 2 * A.pos.length)
  else
    (miterPis A B D).length + A.gates.length + B.gates.length
      + (i - D.pis.length)

/-- `ErrMan::BuildErrMit`: copy the accurate block, the approximate block and
the deviation block in order, translating every fanin id, and expose one
miter PO per deviation-network PO. -/
def BuildErrMit (A B D : CNet) : CNet :=
  ⟨miterPis A B D,
   (A.gates.map fun g => (g.1.map (remapA A (miterPis A B D).length), g.2))
     ++ (B.gates.map fun g =>
          (g.1.map (remapB A B D (miterPis A B D).length A.gates.length), g.2))
     ++ (D.gates.map fun g => (g.1.map (remapD A B D), g.2)),
   D.pos.map (remapD A B D)⟩

theorem foldWire_length (gs : List (List Nat × SopF)) :
    ∀ init : List Bool,
      (gs.foldl wireStep init).length = init.length + gs.length := by
  induction gs with
  | nil => intro init; simp
  | cons g rest ih =>
    intro init
    rw [List.foldl_cons, ih]
    simp [wireStep]
    omega

theorem foldWire_pref (gs : List (List Nat × SopF)) :
    ∀ (init : List Bool) (j : Nat), j < init.length →
      (gs.foldl wireStep init)[j]? = init[j]? := by
  induction gs with
  | nil => intro init j hj; rfl
  | cons g rest ih =>
    intro init j hj
    rw [List.foldl_cons]
    rw [ih (wireStep init g) j (by simp [wireStep]; omega)]
    unfold wireStep
    exact List.getElem?_append_left hj

theorem foldWire_gate (gs : List (List Nat × SopF)) :
    ∀ (init : List Bool) (k : Nat) (hk : k < gs.length),
      (∀ f ∈ (gs.get ⟨k, hk⟩).1, f < init.length + k) →
      (gs.foldl wireStep init)[init.length + k]?
        = some (evalSop (gs.get ⟨k, hk⟩).2
            ((gs.get ⟨k, hk⟩).1.map fun f =>
              ((gs.foldl wireStep init)[f]?).getD false)) := by
  induction gs with
  | nil => intro init k hk; exact absurd hk (by simp)
  | cons g rest ih =>
    intro init k hk hb
    cases k with
    | zero =>
      rw [List.foldl_cons]
      have h1 : (rest.foldl wireStep (wireStep init g))[init.length + 0]?
          = (wireStep init g)[init.length]? := by
        rw [Nat.add_zero]
        exact foldWire_pref rest (wireStep init g) init.length
          (by simp [wireStep])
      rw [h1]
      have h2 : (wireStep init g)[init.length]?
          = some (evalSop g.2 (g.1.map fun f => (init[f]?).getD false)) := by
        unfold wireStep
        rw [List.getElem?_append_right (le_refl _)]
        simp
      rw [h2]
      have h3 : (g.1.map fun f =>
            ((rest.foldl wireStep (wireStep init g))[f]?).getD false)
          = g.1.map fun f => (init[f]?).getD false := by
        apply List.map_congr_left
        intro f hf
        have hfb : f < init.length := by
          have := hb f hf
          omega
        rw [foldWire_pref rest (wireStep init g) f
          (by simp [wireStep]; omega)]
        unfold wireStep
        rw [List.getElem?_append_left hfb]
      rw [show (((g :: rest) : List (List Nat × SopF)).get ⟨0, hk⟩) = g
        from rfl]
      rw [h3]
    | succ k =>
      rw [List.foldl_cons]
      have hk2 : k < rest.length := by simpa using hk
      have hlen : (wireStep init g).length = init.length + 1 := by
        simp [wireStep]
      have hb2 : ∀ f ∈ (rest.get ⟨k, hk2⟩).1,
          f < (wireStep init g).length + k := by
        intro f hf
        have := hb f hf
        omega
      have hrec := ih (wireStep init g) k hk2 hb2
      rw [hlen] at hrec
      have hidx : init.length + (k + 1) = init.length + 1 + k := by omega
      rw [hidx]
      exact hrec

theorem blockEmbed (S : CNet) (vals0 : List Bool) (M : CNet)
    (initM : List Bool) (φ : Nat → Nat) (off : Nat)
    (hlen0 : vals0.length = S.pis.length)
    (hwfS : ∀ k, (hk : k < S.gates.length) →
      ∀ f ∈ (S.gates.get ⟨k, hk⟩).1, f < S.pis.length + k)
    (hgates : ∀ k, (hk : k < S.gates.length) →
      M.gates[off + k]? = some ((S.gates.get ⟨k, hk⟩).1.map φ,
        (S.gates.get ⟨k, hk⟩).2))
    (hphig : ∀ k, k < S.gates.length →
      φ (S.pis.length + k) = initM.length + off + k)
    (hbase : ∀ i, i < S.pis.length →
      (M.gates.foldl wireStep initM)[φ i]? = vals0[i]?)
    (hbaseB : ∀ i, i < S.pis.length → φ i < initM.length + off) :
    ∀ i, i < S.pis.length + S.gates.length →
      (M.gates.foldl wireStep initM)[φ i]?
        = (S.gates.foldl wireStep vals0)[i]? := by
  intro i
  induction i using Nat.strong_induction_on with
  | _ i IH =>
    intro hi
    by_cases hpi : i < S.pis.length
    · rw [hbase i hpi, foldWire_pref S.gates vals0 i (by omega)]
    · obtain ⟨k, hk, hkeq⟩ : ∃ k, k < S.gates.length ∧ i = S.pis.length + k :=
        ⟨i - S.pis.length, by omega, by omega⟩
      subst hkeq
      have hMg := hgates k hk
      have hoffk : off + k < M.gates.length := by
        by_contra hge
        rw [List.getElem?_eq_none (by omega)] at hMg
        exact Option.noConfusion hMg
      have hMget : M.gates.get ⟨off + k, hoffk⟩
          = ((S.gates.get ⟨k, hk⟩).1.map φ, (S.gates.get ⟨k, hk⟩).2) := by
        have h2 := List.getElem?_eq_getElem hoffk
        rw [hMg] at h2
        exact (Option.some_inj.mp h2).symm
      have hMfan : ∀ f ∈ (M.gates.get ⟨off + k, hoffk⟩).1,
          f < initM.length + (off + k) := by
        rw [hMget]
        intro f hf
        simp only [List.mem_map] at hf
        obtain ⟨f0, hf0, hfeq⟩ := hf
        subst hfeq
        have hf0b := hwfS k hk f0 hf0
        by_cases hf0pi : f0 < S.pis.length
        · have := hbaseB f0 hf0pi
          omega
        · obtain ⟨j, hj, hjeq⟩ : ∃ j, j < k ∧ f0 = S.pis.length + j :=
            ⟨f0 - S.pis.length, by omega, by omega⟩
          subst hjeq
          rw [hphig j (by omega)]
          omega
      have hMval := foldWire_gate M.gates initM (off + k) hoffk hMfan
      have hSval := foldWire_gate S.gates vals0 k hk
        (by intro f hf; rw [hlen0]; exact hwfS k hk f hf)
      rw [hphig k hk]
      have hidx : initM.length + off + k = initM.length + (off + k) := by
        omega
      rw [hidx, hMval]
      rw [show S.pis.length + k = vals0.length + k from by rw [hlen0]]
      rw [hSval]
      rw [hMget]
      simp only
      congr 1
      congr 1
      rw [List.map_map]
      apply List.map_congr_left
      intro f0 hf0
      have hf0b := hwfS k hk f0 hf0
      have hrec := IH f0 (by omega) (by omega)
      simp only [Function.comp]
      rw [hrec]

theorem wfGates_spec {net : CNet} (h : wfGates net = true) :
    ∀ k, (hk : k < net.gates.length) →
      ∀ f ∈ (net.gates.get ⟨k, hk⟩).1, f < net.pis.length + k := by
  intro k hk f hf
  unfold wfGates at h
  rw [List.all_eq_true] at h
  have h2 := h k (List.mem_range.mpr hk)
  rw [List.all_eq_true] at h2
  have h3 : net.gates.getD k ([], default) = net.gates.get ⟨k, hk⟩ := by
    rw [List.getD_eq_getElem?_getD, List.getElem?_eq_getElem hk]
    rfl
  rw [h3] at h2
  exact of_decide_eq_true (h2 f hf)

theorem wfPos_spec {net : CNet} (h : wfPos net = true) :
    ∀ d ∈ net.pos, d < net.pis.length + net.gates.length := by
  intro d hd
  unfold wfPos at h
  rw [List.all_eq_true] at h
  exact of_decide_eq_true (h d hd)

theorem miterPis_length (A B D : CNet) :
    (miterPis A B D).length = A.pis.length
      + (B.pis.filter fun n => ! A.pis.contains n).length
      + (D.pis.drop (2 * A.pos.length)).length := by
  unfold miterPis
  simp
  omega

theorem miterPis_getA (A B D : CNet) (i : Nat) (h : i < A.pis.length) :
    (miterPis A B D)[i]? = A.pis[i]? := by
  unfold miterPis
  rw [List.getElem?_append_left (by rw [List.length_append]; omega)]
  rw [List.getElem?_append_left h]

theorem miterPis_getRef (A B D : CNet) (j : Nat) :
    (miterPis A B D)[A.pis.length
      + (B.pis.filter fun n => ! A.pis.contains n).length + j]?
      = (D.pis.drop (2 * A.pos.length))[j]? := by
  unfold miterPis
  rw [List.getElem?_append_right (by rw [List.length_append]; omega)]
  congr 1
  rw [List.length_append]
  omega

theorem miterGates_A (A B D : CNet) (k : Nat) (hk : k < A.gates.length) :
    (BuildErrMit A B D).gates[k]?
      = some ((A.gates.get ⟨k, hk⟩).1.map
          (remapA A (miterPis A B D).length), (A.gates.get ⟨k, hk⟩).2) := by
  unfold BuildErrMit
  simp only
  rw [List.getElem?_append_left
    (by rw [List.length_append, List.length_map, List.length_map]; omega)]
  rw [List.getElem?_append_left (by rw [List.length_map]; omega)]
  rw [List.getElem?_map, List.getElem?_eq_getElem hk]
  rfl

theorem miterGates_B (A B D : CNet) (k : Nat) (hk : k < B.gates.length) :
    (BuildErrMit A B D).gates[A.gates.length + k]?
      = some ((B.gates.get ⟨k, hk⟩).1.map
          (remapB A B D (miterPis A B D).length A.gates.length),
        (B.gates.get ⟨k, hk⟩).2) := by
  unfold BuildErrMit
  simp only
  rw [List.getElem?_append_left
    (by rw [List.length_append, List.length_map, List.length_map]; omega)]
  rw [List.getElem?_append_right (by rw [List.length_map]; omega)]
  simp only [List.length_map]
  rw [Nat.add_sub_cancel_left]
  rw [List.getElem?_map, List.getElem?_eq_getElem hk]
  rfl

theorem miterGates_D (A B D : CNet) (k : Nat) (hk : k < D.gates.length) :
    (BuildErrMit A B D).gates[A.gates.length + B.gates.length + k]?
      = some ((D.gates.get ⟨k, hk⟩).1.map (remapD A B D),
        (D.gates.get ⟨k, hk⟩).2) := by
  unfold BuildErrMit
  simp only
  rw [List.getElem?_append_right
    (by rw [List.length_append, List.length_map, List.length_map]; omega)]
  simp only [List.length_append, List.length_map]
  rw [Nat.add_sub_cancel_left]
  rw [List.getElem?_map, List.getElem?_eq_getElem hk]
  rfl

theorem miterEmbedA (A B D : CNet) (env : String → Bool)
    (hwfA : wfGates A = true) :
    ∀ i, i < A.pis.length + A.gates.length →
      (wireVals (BuildErrMit A B D) env)[remapA A (miterPis A B D).length i]?
        = (wireVals A env)[i]? := by
  unfold wireVals wireValsV
  apply blockEmbed A (A.pis.map env) (BuildErrMit A B D)
    ((BuildErrMit A B D).pis.map env) (remapA A (miterPis A B D).length) 0
  · rw [List.length_map]
  · exact wfGates_spec hwfA
  · intro k hk
    rw [Nat.zero_add]
    exact miterGates_A A B D k hk
  · intro k hk
    unfold remapA
    rw [if_neg (by omega)]
    show (miterPis A B D).length + (A.pis.length + k - A.pis.length)
      = ((miterPis A B D).map env).length + 0 + k
    rw [List.length_map]
    omega
  · intro i hipi
    unfold remapA
    rw [if_pos hipi]
    rw [foldWire_pref _ _ i (by
      show i < ((miterPis A B D).map env).length
      rw [List.length_map, miterPis_length]
      omega)]
    show ((miterPis A B D).map env)[i]? = _
    rw [List.getElem?_map, List.getElem?_map, miterPis_getA A B D i hipi]
  · intro i hipi
    unfold remapA
    rw [if_pos hipi]
    show i < ((miterPis A B D).map env).length + 0
    rw [List.length_map, miterPis_length]
    omega

theorem miterEmbedB (A B D : CNet) (env : String → Bool)
    (hwfB : wfGates B = true) :
    ∀ i, i < B.pis.length + B.gates.length →
      (wireVals (BuildErrMit A B D) env)[remapB A B D
        (miterPis A B D).length A.gates.length i]?
        = (wireVals B env)[i]? := by
  unfold wireVals wireValsV
  apply blockEmbed B (B.pis.map env) (BuildErrMit A B D)
    ((BuildErrMit A B D).pis.map env)
    (remapB A B D (miterPis A B D).length A.gates.length) A.gates.length
  · rw [List.length_map]
  · exact wfGates_spec hwfB
  · intro k hk
    exact miterGates_B A B D k hk
  · intro k hk
    unfold remapB
    rw [if_neg (by omega)]
    show (miterPis A B D).length + A.gates.length
        + (B.pis.length + k - B.pis.length)
      = ((miterPis A B D).map env).length + A.gates.length + k
    rw [List.length_map]
    omega
  · intro i hipi
    unfold remapB
    rw [if_pos hipi]
    have hname : B.pis.getD i "" = B.pis.get ⟨i, hipi⟩ := by
      rw [List.getD_eq_getElem?_getD, List.getElem?_eq_getElem hipi]
      rfl
    rw [hname]
    have hmem : B.pis.get ⟨i, hipi⟩ ∈ miterPis A B D := by
      by_cases hin : B.pis.get ⟨i, hipi⟩ ∈ A.pis
      · unfold miterPis
        exact List.mem_append_left _ (List.mem_append_left _ hin)
      · unfold miterPis
        refine List.mem_append_left _ (List.mem_append_right _ ?_)
        refine List.mem_filter.mpr ⟨List.get_mem B.pis i hipi, ?_⟩
        simpa using hin
    have hidx : (miterPis A B D).indexOf (B.pis.get ⟨i, hipi⟩)
        < (miterPis A B D).length := List.indexOf_lt_length.mpr hmem
    rw [foldWire_pref _ _ _ (by
      show _ < ((miterPis A B D).map env).length
      rw [List.length_map]
      exact hidx)]
    show ((miterPis A B D).map env)[_]? = _
    rw [List.getElem?_map, List.getElem?_map]
    rw [List.getElem?_eq_getElem hidx, List.getElem?_eq_getElem hipi]
    show some (env ((miterPis A B D)[(miterPis A B D).indexOf
      (B.pis.get ⟨i, hipi⟩)])) = some (env (B.pis[i]))
    rw [List.getElem_indexOf hidx]
    rfl
  · intro i hipi
    unfold remapB
    rw [if_pos hipi]
    have hname : B.pis.getD i "" = B.pis.get ⟨i, hipi⟩ := by
      rw [List.getD_eq_getElem?_getD, List.getElem?_eq_getElem hipi]
      rfl
    rw [hname]
    have hmem : B.pis.get ⟨i, hipi⟩ ∈ miterPis A B D := by
      by_cases hin : B.pis.get ⟨i, hipi⟩ ∈ A.pis
      · unfold miterPis
        exact List.mem_append_left _ (List.mem_append_left _ hin)
      · unfold miterPis
        refine List.mem_append_left _ (List.mem_append_right _ ?_)
        refine List.mem_filter.mpr ⟨List.get_mem B.pis i hipi, ?_⟩
        simpa using hin
    have hidx := List.indexOf_lt_length.mpr hmem
    show _ < ((miterPis A B D).map env).length + A.gates.length
    rw [List.length_map]
    omega

theorem netPoVals_length (net : CNet) (env : String → Bool) :
    (netPoVals net env).length = net.pos.length := by
  unfold netPoVals netPoValsV
  rw [List.length_map]

theorem remapA_lt (A B D : CNet) (i : Nat)
    (hi : i < A.pis.length + A.gates.length) :
    remapA A (miterPis A B D).length i
      < (miterPis A B D).length + A.gates.length := by
  unfold remapA
  have hml := miterPis_length A B D
  by_cases h : i < A.pis.length
  · rw [if_pos h]
    omega
  · rw [if_neg h]
    omega

theorem bPiMem (A B D : CNet) (i : Nat) (h : i < B.pis.length) :
    B.pis.get ⟨i, h⟩ ∈ miterPis A B D := by
  by_cases hin : B.pis.get ⟨i, h⟩ ∈ A.pis
  · unfold miterPis
    exact List.mem_append_left _ (List.mem_append_left _ hin)
  · unfold miterPis
    refine List.mem_append_left _ (List.mem_append_right _ ?_)
    refine List.mem_filter.mpr ⟨List.get_mem B.pis i h, ?_⟩
    simpa using hin

theorem remapB_lt (A B D : CNet) (i : Nat)
    (hi : i < B.pis.length + B.gates.length) :
    remapB A B D (miterPis A B D).length A.gates.length i
      < (miterPis A B D).length + A.gates.length + B.gates.length := by
  unfold remapB
  by_cases h : i < B.pis.length
  · rw [if_pos h]
    have hname : B.pis.getD i "" = B.pis.get ⟨i, h⟩ := by
      rw [List.getD_eq_getElem?_getD, List.getElem?_eq_getElem h]
      rfl
    rw [hname]
    have hidx := List.indexOf_lt_length.mpr (bPiMem A B D i h)
    omega
  · rw [if_neg h]
    omega

theorem miterEmbedD (A B D : CNet) (env : String → Bool)
    (hwfA : wfGates A = true) (hwfB : wfGates B = true)
    (hwfD : wfGates D = true)
    (hposA : wfPos A = true) (hposB : wfPos B = true)
    (hBpo : B.pos.length = A.pos.length)
    (hDpi : 2 * A.pos.length ≤ D.pis.length) :
    ∀ i, i < D.pis.length + D.gates.length →
      (wireVals (BuildErrMit A B D) env)[remapD A B D i]?
        = (wireValsV D (netPoVals A env ++ netPoVals B env
            ++ (D.pis.drop (2 * A.pos.length)).map env))[i]? := by
  have hlenX := netPoVals_length A env
  have hlenY := netPoVals_length B env
  unfold wireVals wireValsV
  apply blockEmbed D
    (netPoVals A env ++ netPoVals B env
      ++ (D.pis.drop (2 * A.pos.length)).map env)
    (BuildErrMit A B D) ((BuildErrMit A B D).pis.map env)
    (remapD A B D) (A.gates.length + B.gates.length)
  · rw [List.length_append, List.length_append, List.length_map,
      List.length_drop, hlenX, hlenY]
    omega
  · exact wfGates_spec hwfD
  · intro k hk
    exact miterGates_D A B D k hk
  · intro k hk
    unfold remapD
    rw [if_neg (by omega), if_neg (by omega), if_neg (by omega)]
    show (miterPis A B D).length + A.gates.length + B.gates.length
        + (D.pis.length + k - D.pis.length)
      = ((miterPis A B D).map env).length
        + (A.gates.length + B.gates.length) + k
    rw [List.length_map]
    omega
  · intro i hipi
    unfold remapD
    by_cases h1 : i < A.pos.length
    · rw [if_pos h1]
      have hd : A.pos.getD i 0 = A.pos[i] := by
        rw [List.getD_eq_getElem?_getD, List.getElem?_eq_getElem h1]
        rfl
      rw [hd]
      have hdb : A.pos[i] < A.pis.length + A.gates.length :=
        wfPos_spec hposA (A.pos[i]) (List.getElem_mem h1)
      have hA := miterEmbedA A B D env hwfA (A.pos[i]) hdb
      unfold wireVals wireValsV at hA
      rw [hA]
      rw [List.getElem?_append_left (by rw [List.length_append]; omega)]
      rw [List.getElem?_append_left (by omega)]
      unfold netPoVals netPoValsV wireValsV
      rw [List.getElem?_map, List.getElem?_eq_getElem h1]
      have hb2 : A.pos[i]
          < (A.gates.foldl wireStep (A.pis.map env)).length := by
        rw [foldWire_length, List.length_map]
        omega
      rw [List.getElem?_eq_getElem hb2]
      simp only [Option.map_some']
      rw [List.getElem?_eq_getElem hb2]
      rfl
    · by_cases h2 : i < 2 * A.pos.length
      · rw [if_neg h1, if_pos h2]
        have hi2 : i - A.pos.length < B.pos.length := by omega
        have hd : B.pos.getD (i - A.pos.length) 0 = B.pos[i - A.pos.length] := by
          rw [List.getD_eq_getElem?_getD, List.getElem?_eq_getElem hi2]
          rfl
        rw [hd]
        have hdb : B.pos[i - A.pos.length] < B.pis.length + B.gates.length :=
          wfPos_spec hposB (B.pos[i - A.pos.length]) (List.getElem_mem hi2)
        have hB := miterEmbedB A B D env hwfB (B.pos[i - A.pos.length]) hdb
        unfold wireVals wireValsV at hB
        rw [hB]
        rw [List.getElem?_append_left (by rw [List.length_append]; omega)]
        rw [List.getElem?_append_right (by omega)]
        rw [hlenX]
        unfold netPoVals netPoValsV wireValsV
        rw [List.getElem?_map, List.getElem?_eq_getElem hi2]
        have hb2 : B.pos[i - A.pos.length]
            < (B.gates.foldl wireStep (B.pis.map env)).length := by
          rw [foldWire_length, List.length_map]
          omega
        rw [List.getElem?_eq_getElem hb2]
        simp only [Option.map_some']
        rw [List.getElem?_eq_getElem hb2]
        rfl
      · rw [if_neg h1, if_neg h2, if_pos hipi]
        rw [foldWire_pref _ _ _ (by
          show _ < ((miterPis A B D).map env).length
          rw [List.length_map, miterPis_length, List.length_drop]
          omega)]
        show ((miterPis A B D).map env)[A.pis.length
          + (B.pis.filter fun n => ! A.pis.contains n).length
          + (i - 2 * A.pos.length)]? = _
        rw [List.getElem?_map, miterPis_getRef]
        have hxy : (netPoVals A env ++ netPoVals B env).length
            = 2 * A.pos.length := by
          rw [List.length_append, hlenX, hlenY]
          omega
        rw [List.getElem?_append_right (by omega)]
        rw [hxy, List.getElem?_map]
  · intro i hipi
    unfold remapD
    have hml := miterPis_length A B D
    by_cases h1 : i < A.pos.length
    · rw [if_pos h1]
      have hd : A.pos.getD i 0 = A.pos[i] := by
        rw [List.getD_eq_getElem?_getD, List.getElem?_eq_getElem h1]
        rfl
      rw [hd]
      have hdb : A.pos[i] < A.pis.length + A.gates.length :=
        wfPos_spec hposA (A.pos[i]) (List.getElem_mem h1)
      have hlt := remapA_lt A B D (A.pos[i]) hdb
      show _ < ((miterPis A B D).map env).length
        + (A.gates.length + B.gates.length)
      rw [List.length_map]
      omega
    · by_cases h2 : i < 2 * A.pos.length
      · rw [if_neg h1, if_pos h2]
        have hi2 : i - A.pos.length < B.pos.length := by omega
        have hd : B.pos.getD (i - A.pos.length) 0
            = B.pos[i - A.pos.length] := by
          rw [List.getD_eq_getElem?_getD, List.getElem?_eq_getElem hi2]
          rfl
        rw [hd]
        have hdb : B.pos[i - A.pos.length]
            < B.pis.length + B.gates.length :=
          wfPos_spec hposB (B.pos[i - A.pos.length]) (List.getElem_mem hi2)
        have hlt := remapB_lt A B D (B.pos[i - A.pos.length]) hdb
        show _ < ((miterPis A B D).map env).length
          + (A.gates.length + B.gates.length)
        rw [List.length_map]
        omega
      · rw [if_neg h1, if_neg h2, if_pos hipi]
        show _ < ((miterPis A B D).map env).length
          + (A.gates.length + B.gates.length)
        rw [List.length_map]
        have hdl : (D.pis.drop (2 * A.pos.length)).length
            = D.pis.length - 2 * A.pos.length := by
          rw [List.length_drop]
        omega

/-- C2: the miter built by `BuildErrMit` has exactly one primary output per
deviation-network output; its primary inputs are the accurate network PIs,
then the approximate network PIs whose names are not accurate PIs (control
signals become additional miter inputs), then the `ref_err` PIs; and on every
assignment of its primary inputs each miter output equals the corresponding
deviation-network output applied to the accurate PO values, the approximate
PO values and the `ref_err` input values. In particular, when the deviation
network computes a bound-violation predicate of the two PO value vectors — as
the embedded-error-bound deviation network does — the single miter output is
true exactly when the error bound is violated. -/
theorem buildErrMit_spec (A B D : CNet) (env : String → Bool)
    (hwfA : wfGates A = true) (hwfB : wfGates B = true)
    (hwfD : wfGates D = true)
    (hposA : wfPos A = true) (hposB : wfPos B = true) (hposD : wfPos D = true)
    (hBpo : B.pos.length = A.pos.length)
    (hDpi : 2 * A.pos.length ≤ D.pis.length) :
    (BuildErrMit A B D).pos.length = D.pos.length
    ∧ (BuildErrMit A B D).pis = A.pis
        ++ (B.pis.filter fun n => ! A.pis.contains n)
        ++ D.pis.drop (2 * A.pos.length)
    ∧ netPoVals (BuildErrMit A B D) env
        = netPoValsV D (netPoVals A env ++ netPoVals B env
            ++ (D.pis.drop (2 * A.pos.length)).map env)
    ∧ ∀ (P : List Bool → List Bool → Bool),
        (∀ av bv rv, netPoValsV D (av ++ bv ++ rv) = [P av bv]) →
        netPoVals (BuildErrMit A B D) env
          = [P (netPoVals A env) (netPoVals B env)] := by
  have hmain : netPoVals (BuildErrMit A B D) env
      = netPoValsV D (netPoVals A env ++ netPoVals B env
          ++ (D.pis.drop (2 * A.pos.length)).map env) := by
    have h1 : netPoVals (BuildErrMit A B D) env
        = (D.pos.map (remapD A B D)).map
            (fun d => ((wireVals (BuildErrMit A B D) env)[d]?).getD false) :=
      rfl
    have h2 : netPoValsV D (netPoVals A env ++ netPoVals B env
          ++ (D.pis.drop (2 * A.pos.length)).map env)
        = D.pos.map (fun d => ((wireValsV D (netPoVals A env
            ++ netPoVals B env
            ++ (D.pis.drop (2 * A.pos.length)).map env))[d]?).getD false) :=
      rfl
    rw [h1, h2, List.map_map]
    apply List.map_congr_left
    intro d hd
    have hdb := wfPos_spec hposD d hd
    have hE := miterEmbedD A B D env hwfA hwfB hwfD hposA hposB hBpo hDpi d hdb
    simp only [Function.comp]
    rw [hE]
  refine ⟨?_, rfl, hmain, ?_⟩
  · show (D.pos.map (remapD A B D)).length = D.pos.length
    rw [List.length_map]
  · intro P hP
    rw [hmain, hP]

/-- Accurate network of the miter witness: one PI, a buffer, one PO. -/
def cnetA : CNet := ⟨["x"], [([0], ⟨[[some true]], true⟩)], [1]⟩

/-- Approximate network of the miter witness: the shared PI `x` plus a
control PI `c`, an AND node, one PO. -/
def cnetB : CNet :=
  ⟨["x", "c"], [([0, 1], ⟨[[some true, some true]], true⟩)], [2]⟩

/-- Deviation network of the miter witness: inputs `a0`, `b0`, `r0` and an
XOR output. -/
def cnetD : CNet :=
  ⟨["a0", "b0", "r0"],
   [([0, 1], ⟨[[some true, some false], [some false, some true]], true⟩)],
   [3]⟩

/-- PI assignment of the miter witness. -/
def envW : String → Bool := fun n => n == "x"

theorem buildErrMit_spec_witness :
    wfGates cnetA = true ∧ wfPos cnetD = true
    ∧ netPoVals (BuildErrMit cnetA cnetB cnetD) envW
        = netPoValsV cnetD (netPoVals cnetA envW ++ netPoVals cnetB envW
            ++ (cnetD.pis.drop (2 * cnetA.pos.length)).map envW)
    ∧ netPoVals (BuildErrMit cnetA cnetB cnetD) envW = [true] := by
  refine ⟨by decide, by decide, ?_, by decide⟩
  exact (buildErrMit_spec cnetA cnetB cnetD envW (by decide) (by decide)
    (by decide) (by decide) (by decide) (by decide) (by decide)
    (by decide)).2.2.1

/-! ### The batch error estimator (`PruneLacsWithSim`, `CalcBoolDiff`) -/

/-- Read of the incremental flip simulation (`UpdSopForBoolDiff`): a
traversed object is read from `tempDat`, any other from `dat`. -/
def flipRead (trav : List Nat) (temp base : List Bool) (f : Nat) : Bool :=
  if trav.contains f then (temp[f]?).getD false else (base[f]?).getD false

/-- The node loop of `Simulator::CalcBoolDiff` starting at gate position `k`:
a node with at least one traversed fanin is re-evaluated into `tempDat` and
marked traversed, any other node is skipped. -/
def flipGatesFrom (nPi : Nat) (base : List Bool) :
    Nat → List (List Nat × SopF) → List Nat → List Bool
      → List Nat × List Bool
  | _, [], trav, temp => (trav, temp)
  | k, g :: rest, trav, temp =>
    if g.1.any fun f => trav.contains f then
      flipGatesFrom nPi base (k + 1) rest ((nPi + k) :: trav)
        (temp.set (nPi + k) (evalSop g.2 (g.1.map (flipRead trav temp base))))
    else
      flipGatesFrom nPi base (k + 1) rest trav temp

/-- `Simulator::CalcBoolDiff` on one pattern: flip the target node value in
`tempDat`, mark it traversed, and re-simulate the remaining nodes in
topological order. -/
def flipSim (net : CNet) (base : List Bool) (t : Nat) : List Nat × List Bool :=
  flipGatesFrom net.pis.length base (t + 1) (net.gates.drop (t + 1))
    [net.pis.length + t]
    (base.set (net.pis.length + t) (! (base.getD (net.pis.length + t) false)))

/-- Boolean difference of every PO with respect to node `t` on one pattern:
`dat[po] xor tempDat[po]`, the PO reading its driver through the traversal
mark. -/
def boolDiffPos (net : CNet) (piv : List Bool) (t : Nat) : List Bool :=
  net.pos.map fun d =>
    xor (((wireValsV net piv)[d]?).getD false)
      (flipRead (flipSim net (wireValsV net piv) t).1
        (flipSim net (wireValsV net piv) t).2 (wireValsV net piv) d)

/-- The estimator reconstruction of the would-be PO values after applying a
LAC `(divs, sop)` at node `t` (the `tempPos` computation of
`PruneLacsWithSim`): simulate the new function on the divisors, XOR with the
current target value to get `nodeChange`, and flip exactly the POs whose
Boolean difference is set. -/
def reconPos (net : CNet) (piv : List Bool) (t : Nat) (divs : List Nat)
    (sop : SopF) : List Bool :=
  net.pos.mapIdx fun j d =>
    xor (((wireValsV net piv)[d]?).getD false)
      ((xor (evalSop sop (divs.map fun f =>
          ((wireValsV net piv)[f]?).getD false))
        (((wireValsV net piv)[net.pis.length + t]?).getD false))
       && ((boolDiffPos net piv t)[j]?).getD false)

/-- The approximate network with the LAC applied: node `t` now computes
`sop` over `divs`. -/
def modNet (net : CNet) (t : Nat) (divs : List Nat) (sop : SopF) : CNet :=
  ⟨net.pis, net.gates.set t (divs, sop), net.pos⟩

/-- Unsigned value of a PO vector, LSB first (`GetValue`). -/
def bitsToNat : List Bool → Nat
  | [] => 0
  | b :: rest => (if b then 1 else 0) + 2 * bitsToNat rest

/-- All PI assignments of width `n`. -/
def allInputs : Nat → List (List Bool)
  | 0 => [[]]
  | n + 1 => (allInputs n).flatMap fun v => [false :: v, true :: v]

/-- The max-error scan over the per-pattern errors with the early break of
`PruneLacsWithSim` (`if maxErrSim > errUppBound break`). -/
def maxErrLoop (bound : Int) : Int → List Int → Int
  | acc, [] => acc
  | acc, e :: rest =>
    if bound < max acc e then max acc e else maxErrLoop bound (max acc e) rest

/-- Per-pattern error distance the estimator computes from the reconstructed
PO vector. -/
def patErr (acc net : CNet) (t : Nat) (divs : List Nat) (sop : SopF)
    (piv : List Bool) : Int :=
  |(bitsToNat (netPoValsV acc piv) : Int)
    - (bitsToNat (reconPos net piv t divs sop) : Int)|

theorem foldWire_common_pref (p r1 r2 : List (List Nat × SopF))
    (init : List Bool) (j : Nat) (hj : j < init.length + p.length) :
    ((p ++ r1).foldl wireStep init)[j]? = ((p ++ r2).foldl wireStep init)[j]? := by
  rw [List.foldl_append, List.foldl_append]
  rw [foldWire_pref r1 (List.foldl wireStep init p) j
    (by rw [foldWire_length]; omega)]
  rw [foldWire_pref r2 (List.foldl wireStep init p) j
    (by rw [foldWire_length]; omega)]

theorem foldWire_set_pref (gs : List (List Nat × SopF))
    (g' : List Nat × SopF) (init : List Bool) (t : Nat)
    (ht : t < gs.length) (j : Nat) (hj : j < init.length + t) :
    ((gs.set t g').foldl wireStep init)[j]? = (gs.foldl wireStep init)[j]? := by
  have hdec : gs.set t g' = gs.take t ++ g' :: gs.drop (t + 1) := by
    rw [List.set_eq_take_append_cons_drop, if_pos ht]
  have hdec2 : gs = gs.take t ++ gs.drop t := (List.take_append_drop t gs).symm
  rw [hdec]
  conv_rhs => rw [hdec2]
  apply foldWire_common_pref
  rw [List.length_take]
  omega

theorem foldWire_congr_set (gs : List (List Nat × SopF)) (init : List Bool)
    (t : Nat) (g1 g2 : List Nat × SopF)
    (hwf : ∀ k, (hk : k < gs.length) → k ≠ t →
      ∀ f ∈ (gs.get ⟨k, hk⟩).1, f < init.length + k)
    (ht : t < gs.length)
    (hg1 : ∀ f ∈ g1.1, f < init.length + t)
    (hg2 : ∀ f ∈ g2.1, f < init.length + t)
    (hveq : evalSop g1.2 (g1.1.map fun f =>
        ((gs.foldl wireStep init)[f]?).getD false)
      = evalSop g2.2 (g2.1.map fun f =>
        ((gs.foldl wireStep init)[f]?).getD false)) :
    ∀ id, id < init.length + gs.length →
      ((gs.set t g1).foldl wireStep init)[id]?
        = ((gs.set t g2).foldl wireStep init)[id]? := by
  intro id
  induction id using Nat.strong_induction_on with
  | _ id IH =>
    intro hid
    by_cases hlow : id < init.length + t
    · rw [foldWire_set_pref gs g1 init t ht id hlow,
        foldWire_set_pref gs g2 init t ht id hlow]
    · by_cases hat : id = init.length + t
      · subst hat
        have hset1 : (gs.set t g1).get
            ⟨t, by rw [List.length_set]; exact ht⟩ = g1 := by
          have := @List.getElem?_eq_getElem
            _ (gs.set t g1) t (by rw [List.length_set]; exact ht)
          rw [List.getElem?_set_self ht] at this
          exact (Option.some_inj.mp this).symm
        have hset2 : (gs.set t g2).get
            ⟨t, by rw [List.length_set]; exact ht⟩ = g2 := by
          have := @List.getElem?_eq_getElem
            _ (gs.set t g2) t (by rw [List.length_set]; exact ht)
          rw [List.getElem?_set_self ht] at this
          exact (Option.some_inj.mp this).symm
        have hv1 := foldWire_gate (gs.set t g1) init t
          (by rw [List.length_set]; exact ht)
          (by rw [hset1]; exact hg1)
        have hv2 := foldWire_gate (gs.set t g2) init t
          (by rw [List.length_set]; exact ht)
          (by rw [hset2]; exact hg2)
        rw [hv1, hv2, hset1, hset2]
        congr 1
        have hm1 : (g1.1.map fun f =>
            (((gs.set t g1).foldl wireStep init)[f]?).getD false)
            = g1.1.map fun f => ((gs.foldl wireStep init)[f]?).getD false := by
          apply List.map_congr_left
          intro f hf
          rw [foldWire_set_pref gs g1 init t ht f (hg1 f hf)]
        have hm2 : (g2.1.map fun f =>
            (((gs.set t g2).foldl wireStep init)[f]?).getD false)
            = g2.1.map fun f => ((gs.foldl wireStep init)[f]?).getD false := by
          apply List.map_congr_left
          intro f hf
          rw [foldWire_set_pref gs g2 init t ht f (hg2 f hf)]
        rw [hm1, hm2, hveq]
      · obtain ⟨k, hk, hkt, hkeq⟩ :
            ∃ k, k < gs.length ∧ k ≠ t ∧ id = init.length + k := by
          refine ⟨id - init.length, by omega, by omega, by omega⟩
        subst hkeq
        have hgk : (gs.set t g1)[k]? = gs[k]? := List.getElem?_set_ne
          (by omega)
        have hgk2 : (gs.set t g2)[k]? = gs[k]? := List.getElem?_set_ne
          (by omega)
        have hkget := List.getElem?_eq_getElem hk
        have hset1 : (gs.set t g1).get
            ⟨k, by rw [List.length_set]; exact hk⟩ = gs.get ⟨k, hk⟩ := by
          have := @List.getElem?_eq_getElem
            _ (gs.set t g1) k (by rw [List.length_set]; exact hk)
          rw [hgk, hkget] at this
          exact (Option.some_inj.mp this).symm
        have hset2 : (gs.set t g2).get
            ⟨k, by rw [List.length_set]; exact hk⟩ = gs.get ⟨k, hk⟩ := by
          have := @List.getElem?_eq_getElem
            _ (gs.set t g2) k (by rw [List.length_set]; exact hk)
          rw [hgk2, hkget] at this
          exact (Option.some_inj.mp this).symm
        have hfan := hwf k hk hkt
        have hv1 := foldWire_gate (gs.set t g1) init k
          (by rw [List.length_set]; exact hk)
          (by rw [hset1]; exact hfan)
        have hv2 := foldWire_gate (gs.set t g2) init k
          (by rw [List.length_set]; exact hk)
          (by rw [hset2]; exact hfan)
        rw [hv1, hv2, hset1, hset2]
        congr 1
        congr 1
        apply List.map_congr_left
        intro f hf
        have hfb := hfan f hf
        rw [IH f (by omega) (by omega)]

/-- The constant gate forcing a node value (used to state that the flip
simulation computes the network with the target node inverted). -/
def flipConstGate (b : Bool) : List Nat × SopF := ([], ⟨[], ! b⟩)

theorem evalSop_flipConst (b : Bool) (xs : List Bool) :
    evalSop (flipConstGate b).2 xs = b := by
  cases b <;> rfl

/-- Full re-evaluation of the gate list with node `t` forced to the
complement of its value. -/
def forcedFold (gs : List (List Nat × SopF)) (init : List Bool) (t : Nat) :
    List Bool :=
  (gs.set t (flipConstGate
    (! (((gs.foldl wireStep init)[init.length + t]?).getD false)))).foldl
    wireStep init

theorem forcedFold_length (gs : List (List Nat × SopF)) (init : List Bool)
    (t : Nat) :
    (forcedFold gs init t).length = init.length + gs.length := by
  unfold forcedFold
  rw [foldWire_length, List.length_set]

theorem forcedFold_pref (gs : List (List Nat × SopF)) (init : List Bool)
    (t : Nat) (ht : t < gs.length) (j : Nat) (hj : j < init.length + t) :
    (forcedFold gs init t)[j]? = (gs.foldl wireStep init)[j]? := by
  unfold forcedFold
  exact foldWire_set_pref gs _ init t ht j hj

theorem forcedFold_at_targ (gs : List (List Nat × SopF)) (init : List Bool)
    (t : Nat) (ht : t < gs.length) :
    (forcedFold gs init t)[init.length + t]?
      = some (! (((gs.foldl wireStep init)[init.length + t]?).getD false)) := by
  unfold forcedFold
  set b := ! (((gs.foldl wireStep init)[init.length + t]?).getD false) with hb
  have hsetget : (gs.set t (flipConstGate b)).get
      ⟨t, by rw [List.length_set]; exact ht⟩ = flipConstGate b := by
    have h2 := @List.getElem?_eq_getElem
      _ (gs.set t (flipConstGate b)) t
      (by rw [List.length_set]; exact ht)
    rw [List.getElem?_set_self ht] at h2
    exact (Option.some_inj.mp h2).symm
  have hv := foldWire_gate (gs.set t (flipConstGate b)) init t
    (by rw [List.length_set]; exact ht)
    (by rw [hsetget]; intro f hf; exact absurd hf (by simp [flipConstGate]))
  rw [hsetget] at hv
  rw [hv, evalSop_flipConst]

theorem forcedFold_at_gate (gs : List (List Nat × SopF)) (init : List Bool)
    (t : Nat) (ht : t < gs.length) (k : Nat) (hk : k < gs.length)
    (hkt : k ≠ t)
    (hfan : ∀ f ∈ (gs.get ⟨k, hk⟩).1, f < init.length + k) :
    (forcedFold gs init t)[init.length + k]?
      = some (evalSop (gs.get ⟨k, hk⟩).2 ((gs.get ⟨k, hk⟩).1.map fun f =>
          ((forcedFold gs init t)[f]?).getD false)) := by
  unfold forcedFold
  set b := ! (((gs.foldl wireStep init)[init.length + t]?).getD false) with hb
  have hsetget : (gs.set t (flipConstGate b)).get
      ⟨k, by rw [List.length_set]; exact hk⟩ = gs.get ⟨k, hk⟩ := by
    have h2 := @List.getElem?_eq_getElem
      _ (gs.set t (flipConstGate b)) k
      (by rw [List.length_set]; exact hk)
    rw [List.getElem?_set_ne (by omega),
      List.getElem?_eq_getElem hk] at h2
    exact (Option.some_inj.mp h2).symm
  have hv := foldWire_gate (gs.set t (flipConstGate b)) init k
    (by rw [List.length_set]; exact hk)
    (by rw [hsetget]; exact hfan)
  rw [hsetget] at hv
  exact hv

theorem flipGatesFrom_inv (gs : List (List Nat × SopF)) (init : List Bool)
    (t : Nat) (ht : t < gs.length)
    (hwf : ∀ k, (hk : k < gs.length) →
      ∀ f ∈ (gs.get ⟨k, hk⟩).1, f < init.length + k) :
    ∀ (rest : List (List Nat × SopF)) (k : Nat) (trav : List Nat)
      (temp : List Bool),
      rest = gs.drop k →
      t < k →
      temp.length = init.length + gs.length →
      (∀ id ∈ trav, id < init.length + k) →
      (∀ id, id < init.length + k →
        flipRead trav temp (gs.foldl wireStep init) id
          = ((forcedFold gs init t)[id]?).getD false) →
      ∀ id, id < init.length + gs.length →
        flipRead
          (flipGatesFrom init.length (gs.foldl wireStep init) k rest
            trav temp).1
          (flipGatesFrom init.length (gs.foldl wireStep init) k rest
            trav temp).2
          (gs.foldl wireStep init) id
          = ((forcedFold gs init t)[id]?).getD false := by
  intro rest
  induction rest with
  | nil =>
    intro k trav temp hdrop hkt htlen htrav hinv id hid
    have hk : gs.length ≤ k := by
      by_contra hlt
      have hne : gs.drop k ≠ [] := by
        apply List.ne_nil_of_length_pos
        rw [List.length_drop]
        omega
      exact hne hdrop.symm
    rw [flipGatesFrom]
    exact hinv id (by omega)
  | cons g rest2 ih =>
    intro k trav temp hdrop hkt htlen htrav hinv id hid
    have hkb : k < gs.length := by
      by_contra hge
      rw [List.drop_eq_nil_of_le (by omega)] at hdrop
      exact List.noConfusion hdrop
    have hgk : gs[k]? = some g := by
      have h0 : (gs.drop k)[0]? = some g := by rw [← hdrop]; simp
      rw [List.getElem?_drop] at h0
      simpa using h0
    have hgget : gs.get ⟨k, hkb⟩ = g := by
      have h2 := List.getElem?_eq_getElem hkb
      rw [hgk] at h2
      exact (Option.some_inj.mp h2).symm
    have hrest2 : rest2 = gs.drop (k + 1) := by
      have h1 : (g :: rest2).tail = rest2 := rfl
      rw [hdrop] at h1
      rw [← h1, List.tail_drop]
    have hfanb : ∀ f ∈ g.1, f < init.length + k := by
      rw [← hgget]
      exact hwf k hkb
    rw [flipGatesFrom]
    by_cases hhit : (g.1.any fun f => trav.contains f) = true
    · rw [if_pos hhit]
      have hvF : (forcedFold gs init t)[init.length + k]?
          = some (evalSop g.2
            (g.1.map (flipRead trav temp (gs.foldl wireStep init)))) := by
        have h3 := forcedFold_at_gate gs init t ht k hkb (by omega)
          (by rw [hgget]; exact hfanb)
        rw [hgget] at h3
        rw [h3]
        congr 2
        apply List.map_congr_left
        intro f hf
        rw [hinv f (hfanb f hf)]
      refine ih (k + 1) ((init.length + k) :: trav)
        (temp.set (init.length + k)
          (evalSop g.2 (g.1.map (flipRead trav temp (gs.foldl wireStep init)))))
        hrest2 (by omega) (by rw [List.length_set]; exact htlen)
        ?_ ?_ id hid
      · intro id2 hid2
        rcases List.mem_cons.mp hid2 with h2 | h2
        · omega
        · have := htrav id2 h2
          omega
      · intro id2 hid2
        by_cases hg2 : id2 = init.length + k
        · subst hg2
          unfold flipRead
          rw [if_pos (by simp)]
          rw [List.getElem?_set_self (by omega)]
          rw [hvF]
          rfl
        · unfold flipRead
          have hcontains : ((init.length + k) :: trav).contains id2
              = trav.contains id2 := by
            rw [List.contains_cons]
            have hbeq : (id2 == init.length + k) = false := by
              simp [hg2]
            rw [hbeq]
            simp
          rw [hcontains, List.getElem?_set_ne (Ne.symm hg2)]
          exact hinv id2 (by omega)
    · rw [if_neg hhit]
      have hmiss : ∀ f ∈ g.1, trav.contains f = false := by
        intro f hf
        rw [List.any_eq_true] at hhit
        push_neg at hhit
        have := hhit f hf
        exact Bool.not_eq_true _ ▸ (by simpa using this)
      refine ih (k + 1) trav temp hrest2 (by omega) htlen
        (fun id2 h2 => by have := htrav id2 h2; omega) ?_ id hid
      intro id2 hid2
      by_cases hg2 : id2 = init.length + k
      · subst hg2
        have hnotin : trav.contains (init.length + k) = false := by
          by_contra hc
          have hmem : (init.length + k) ∈ trav := by
            have hc2 : trav.contains (init.length + k) = true := by
              revert hc
              cases trav.contains (init.length + k) <;> simp
            simpa using hc2
          have := htrav (init.length + k) hmem
          omega
        unfold flipRead
        rw [hnotin]
        simp only [Bool.false_eq_true, if_false]
        -- base value at the gate equals the forced value
        have hbase := foldWire_gate gs init k hkb (by rw [hgget]; exact hfanb)
        rw [hgget] at hbase
        have hforced := forcedFold_at_gate gs init t ht k hkb (by omega)
          (by rw [hgget]; exact hfanb)
        rw [hgget] at hforced
        rw [hbase, hforced]
        simp only [Option.getD_some]
        congr 1
        apply List.map_congr_left
        intro f hf
        have hfr := hinv f (hfanb f hf)
        unfold flipRead at hfr
        rw [hmiss f hf] at hfr
        simp only [Bool.false_eq_true, if_false] at hfr
        rw [← hfr]
      · exact hinv id2 (by omega)

theorem flipSim_spec (net : CNet) (piv : List Bool) (t : Nat)
    (hwf : wfGates net = true) (hlen : piv.length = net.pis.length)
    (ht : t < net.gates.length) :
    ∀ id, id < net.pis.length + net.gates.length →
      flipRead (flipSim net (wireValsV net piv) t).1
        (flipSim net (wireValsV net piv) t).2 (wireValsV net piv) id
        = ((forcedFold net.gates piv t)[id]?).getD false := by
  have hwf2 : ∀ k, (hk : k < net.gates.length) →
      ∀ f ∈ (net.gates.get ⟨k, hk⟩).1, f < piv.length + k := by
    intro k hk f hf
    rw [hlen]
    exact wfGates_spec hwf k hk f hf
  have hbaselen : (wireValsV net piv).length
      = piv.length + net.gates.length := by
    unfold wireValsV
    rw [foldWire_length]
  have hstart := flipGatesFrom_inv net.gates piv t ht hwf2
    (net.gates.drop (t + 1)) (t + 1) [piv.length + t]
    ((net.gates.foldl wireStep piv).set (piv.length + t)
      (! ((net.gates.foldl wireStep piv).getD (piv.length + t) false)))
    rfl (by omega)
    (by rw [List.length_set]; rw [foldWire_length])
    (by
      intro id hid
      rcases List.mem_singleton.mp hid with h
      omega)
    (by
      intro id hid
      by_cases hidt : id = piv.length + t
      · subst hidt
        unfold flipRead
        rw [if_pos (by simp)]
        rw [List.getElem?_set_self (by rw [foldWire_length]; omega)]
        rw [forcedFold_at_targ net.gates piv t ht]
        rw [List.getD_eq_getElem?_getD]
      · unfold flipRead
        rw [if_neg (by simp [hidt])]
        rw [forcedFold_pref net.gates piv t ht id (by omega)])
  intro id hid
  rw [← hlen] at hid
  have hres := hstart id hid
  unfold flipSim
  rw [hlen] at hres
  have hbase : wireValsV net piv = net.gates.foldl wireStep piv := rfl
  rw [hbase]
  exact hres

theorem set_self_getElem {α : Type} (l : List α) (t : Nat)
    (ht : t < l.length) : l.set t l[t] = l := by
  apply List.ext_getElem?
  intro n
  by_cases h : n = t
  · subst h
    rw [List.getElem?_set_self ht, List.getElem?_eq_getElem ht]
  · rw [List.getElem?_set_ne (Ne.symm h)]

theorem modNet_vals (net : CNet) (piv : List Bool) (t : Nat)
    (divs : List Nat) (sop : SopF)
    (hwf : wfGates net = true) (hlen : piv.length = net.pis.length)
    (ht : t < net.gates.length)
    (hdivs : ∀ f ∈ divs, f < net.pis.length + t) :
    ∀ id, id < net.pis.length + net.gates.length →
      (wireValsV (modNet net t divs sop) piv)[id]?
        = if (evalSop sop (divs.map fun f =>
              ((wireValsV net piv)[f]?).getD false))
            = ((wireValsV net piv)[net.pis.length + t]?).getD false
          then (wireValsV net piv)[id]?
          else (forcedFold net.gates piv t)[id]? := by
  have hwf2 : ∀ k, (hk : k < net.gates.length) → k ≠ t →
      ∀ f ∈ (net.gates.get ⟨k, hk⟩).1, f < piv.length + k := by
    intro k hk _ f hf
    rw [hlen]
    exact wfGates_spec hwf k hk f hf
  have hdivs2 : ∀ f ∈ divs, f < piv.length + t := by
    intro f hf
    rw [hlen]
    exact hdivs f hf
  have htfan : ∀ f ∈ (net.gates.get ⟨t, ht⟩).1, f < piv.length + t := by
    intro f hf
    rw [hlen]
    exact wfGates_spec hwf t ht f hf
  have hbase : wireValsV net piv = net.gates.foldl wireStep piv := rfl
  have htval := foldWire_gate net.gates piv t ht htfan
  intro id hid
  rw [← hlen] at hid
  by_cases hcond : (evalSop sop (divs.map fun f =>
        ((wireValsV net piv)[f]?).getD false))
      = ((wireValsV net piv)[net.pis.length + t]?).getD false
  · rw [if_pos hcond]
    have hveq : evalSop (divs, sop).2 ((divs, sop).1.map fun f =>
          ((net.gates.foldl wireStep piv)[f]?).getD false)
        = evalSop (net.gates.get ⟨t, ht⟩).2
            ((net.gates.get ⟨t, ht⟩).1.map fun f =>
              ((net.gates.foldl wireStep piv)[f]?).getD false) := by
      have h2 : ((net.gates.foldl wireStep piv)[piv.length + t]?).getD false
          = evalSop (net.gates.get ⟨t, ht⟩).2
            ((net.gates.get ⟨t, ht⟩).1.map fun f =>
              ((net.gates.foldl wireStep piv)[f]?).getD false) := by
        rw [htval]
        rfl
      rw [← h2]
      rw [hbase] at hcond
      rw [← hlen] at hcond
      exact hcond
    have hcong := foldWire_congr_set net.gates piv t (divs, sop)
      (net.gates.get ⟨t, ht⟩) hwf2 ht hdivs2 htfan hveq id hid
    have hset : net.gates.set t (net.gates.get ⟨t, ht⟩) = net.gates := by
      rw [List.get_eq_getElem]
      exact set_self_getElem net.gates t ht
    have hmod : wireValsV (modNet net t divs sop) piv
        = (net.gates.set t (divs, sop)).foldl wireStep piv := rfl
    rw [hmod, hcong, hset, hbase]
  · rw [if_neg hcond]
    have hcond2 : evalSop sop (divs.map fun f =>
          ((net.gates.foldl wireStep piv)[f]?).getD false)
        ≠ ((net.gates.foldl wireStep piv)[piv.length + t]?).getD false := by
      rw [hbase] at hcond
      rw [← hlen] at hcond
      exact hcond
    have hne := Bool.eq_not_of_ne hcond2
    have hveq : evalSop (divs, sop).2 ((divs, sop).1.map fun f =>
          ((net.gates.foldl wireStep piv)[f]?).getD false)
        = evalSop (flipConstGate
            (! ((net.gates.foldl wireStep piv)[piv.length + t]?).getD
              false)).2
          ((flipConstGate (! ((net.gates.foldl wireStep piv)[piv.length
            + t]?).getD false)).1.map fun f =>
              ((net.gates.foldl wireStep piv)[f]?).getD false) := by
      rw [evalSop_flipConst]
      exact hne
    have hcong := foldWire_congr_set net.gates piv t (divs, sop)
      (flipConstGate (! ((net.gates.foldl wireStep piv)[piv.length
        + t]?).getD false)) hwf2 ht hdivs2
      (by intro f hf; exact absurd hf (by simp [flipConstGate])) hveq id hid
    have hmod : wireValsV (modNet net t divs sop) piv
        = (net.gates.set t (divs, sop)).foldl wireStep piv := rfl
    have hforc : forcedFold net.gates piv t
        = (net.gates.set t (flipConstGate
            (! ((net.gates.foldl wireStep piv)[piv.length + t]?).getD
              false))).foldl wireStep piv := rfl
    rw [hmod, hcong, ← hforc]

theorem bool_xor_cancel (a b : Bool) : xor a (xor a b) = b := by cases a <;> cases b <;> rfl

theorem reconPos_exact (net : CNet) (piv : List Bool) (t : Nat)
    (divs : List Nat) (sop : SopF)
    (hwf : wfGates net = true) (hpos : wfPos net = true)
    (hlen : piv.length = net.pis.length) (ht : t < net.gates.length)
    (hdivs : ∀ f ∈ divs, f < net.pis.length + t) :
    reconPos net piv t divs sop = netPoValsV (modNet net t divs sop) piv := by
  unfold reconPos netPoValsV
  have hposeq : (modNet net t divs sop).pos = net.pos := rfl
  rw [hposeq]
  apply List.ext_getElem?
  intro j
  rw [List.getElem?_mapIdx, List.getElem?_map]
  by_cases hj : j < net.pos.length
  · rw [List.getElem?_eq_getElem hj]
    simp only [Option.map_some']
    congr 1
    set d := net.pos[j] with hd
    have hdb : d < net.pis.length + net.gates.length :=
      wfPos_spec hpos d (by rw [hd]; exact List.getElem_mem hj)
    have hbd : ((boolDiffPos net piv t)[j]?).getD false
        = xor (((wireValsV net piv)[d]?).getD false)
          (((forcedFold net.gates piv t)[d]?).getD false) := by
      unfold boolDiffPos
      rw [List.getElem?_map, List.getElem?_eq_getElem hj]
      simp only [Option.map_some', Option.getD_some]
      rw [flipSim_spec net piv t hwf hlen ht d hdb]
    rw [hbd]
    have hmv := modNet_vals net piv t divs sop hwf hlen ht hdivs d hdb
    by_cases hcond : (evalSop sop (divs.map fun f =>
          ((wireValsV net piv)[f]?).getD false))
        = ((wireValsV net piv)[net.pis.length + t]?).getD false
    · rw [if_pos hcond] at hmv
      rw [hmv, hcond]
      cases hx : ((wireValsV net piv)[net.pis.length + t]?).getD false <;>
        cases hy : ((wireValsV net piv)[d]?).getD false <;> simp
    · rw [if_neg hcond] at hmv
      rw [hmv]
      have hne := Bool.eq_not_of_ne hcond
      rw [hne]
      have hxor : xor (! (((wireValsV net piv)[net.pis.length
          + t]?).getD false)) (((wireValsV net piv)[net.pis.length
          + t]?).getD false) = true := by
        cases ((wireValsV net piv)[net.pis.length + t]?).getD false <;> rfl
      rw [hxor, Bool.true_and]
      exact bool_xor_cancel _ _
  · have hnone : net.pos[j]? = none := List.getElem?_eq_none (by omega)
    rw [hnone]
    rfl

theorem mem_allInputs : ∀ (n : Nat) (v : List Bool), v.length = n →
    v ∈ allInputs n
  | 0, [], _ => by simp [allInputs]
  | 0, b :: rest, h => by simp at h
  | n + 1, [], h => by simp at h
  | n + 1, b :: rest, h => by
    unfold allInputs
    rw [List.mem_flatMap]
    refine ⟨rest, mem_allInputs n rest (by simpa using h), ?_⟩
    cases b <;> simp

theorem le_foldr_max (l : List Int) (a : Int) : a ≤ l.foldr max a := by
  induction l with
  | nil => simp
  | cons x rest ih =>
    simp only [List.foldr_cons]
    exact le_trans ih (le_max_right x _)

theorem mem_le_foldr_max {x : Int} {l : List Int} (h : x ∈ l) (a : Int) :
    x ≤ l.foldr max a := by
  induction l with
  | nil => simp at h
  | cons y rest ih =>
    rcases List.mem_cons.mp h with h2 | h2
    · subst h2
      exact le_max_left x (rest.foldr max a)
    · exact le_trans (ih h2) (le_max_right y (rest.foldr max a))

theorem maxErrLoop_le (bound M : Int) :
    ∀ (errs : List Int) (acc : Int), acc ≤ M → (∀ e ∈ errs, e ≤ M) →
      maxErrLoop bound acc errs ≤ M := by
  intro errs
  induction errs with
  | nil =>
    intro acc h _
    rw [maxErrLoop]
    exact h
  | cons e rest ih =>
    intro acc hacc hall
    rw [maxErrLoop]
    have hm : max acc e ≤ M := max_le hacc (hall e (by simp))
    by_cases hb : bound < max acc e
    · rw [if_pos hb]
      exact hm
    · rw [if_neg hb]
      exact ih (max acc e) hm (fun x hx => hall x (by simp [hx]))

/-- Approximate network of the estimator witness. -/
def c3Net : CNet :=
  ⟨["x", "y"],
   [([0, 1], ⟨[[some true, some true]], true⟩), ([2], ⟨[[some true]], true⟩)],
   [3]⟩

/-- Candidate function of the estimator witness. -/
def c3Sop : SopF := ⟨[[some true]], true⟩

/-! ### Exact maximum-error computation by binary search (`error.cc`) -/

/-- Error metric selector (`METR_TYPE`), restricted to the two metrics
`ComputeMaxErr` accepts. -/
inductive MetrType where
  | maxed : MetrType
  | maxhd : MetrType
deriving DecidableEq

/-- Width of the `ref_err` input bundle: the full output width for MAXED,
`log2(outWidth) + 1` for MAXHD. -/
def refErrWidth (m : MetrType) (outWidth : Nat) : Nat :=
  match m with
  | .maxed => outWidth
  | .maxhd => Nat.log2 outWidth + 1

/-- Error of one input assignment: absolute difference of the output values
read as unsigned binary numbers (MAXED), or the Hamming distance of the two
output vectors (MAXHD). -/
def errOf (m : MetrType) (acc app : CNet) (x : List Bool) : Int :=
  match m with
  | .maxed => |(bitsToNat (netPoValsV acc x) : Int)
      - (bitsToNat (netPoValsV app x) : Int)|
  | .maxhd => ((((netPoValsV acc x).zip (netPoValsV app x)).filter
      fun p => ! (p.1 == p.2)).length : Int)

/-- One SAT solve of the error miter under the assumptions forcing the
`ref_err` bundle to `v`: satisfiable exactly when some input drives the
error above `v`. -/
def satQuery (m : MetrType) (acc app : CNet) (v : Int) : Bool :=
  (allInputs acc.pis.length).any fun x => decide (v < errOf m acc app x)

/-- Brute-force enumeration value: the maximum error over every input
assignment. -/
def maxErrBF (m : MetrType) (acc app : CNet) : Int :=
  ((allInputs acc.pis.length).map (errOf m acc app)).foldr max 0

/-- The loop of `ErrMan::SolveSatsForMaxErrBinSearch`: narrow `[left, right]`
with one solve per step, assumptions only — no rebuild — and return `left`;
fuel-bounded. -/
def binSearch (Q : Int → Bool) : Nat → Int → Int → Option Int
  | 0, _, _ => none
  | fuel + 1, left, right =>
    if left ≤ right then
      if Q (left + (right - left) / 2) then
        binSearch Q fuel (left + (right - left) / 2 + 1) right
      else
        binSearch Q fuel left (left + (right - left) / 2 - 1)
    else some left

/-- `ErrMan::ComputeMaxErr`: build the deviation network for the metric, the
miter and the solver, then binary-search `[0, 2^width - 1]`. -/
def ComputeMaxErr (m : MetrType) (acc app : CNet) (fuel : Nat) : Option Int :=
  binSearch (satQuery m acc app) fuel 0 (2 ^ refErrWidth m acc.pos.length - 1)

theorem binSearch_correct (Q : Int → Bool) (M : Int)
    (hQ : ∀ v, 0 ≤ v → Q v = decide (v < M)) :
    ∀ (fuel : Nat) (left right : Int), 0 ≤ left → left ≤ M → M ≤ right + 1 →
      (right + 1 - left).toNat < fuel →
      binSearch Q fuel left right = some M := by
  intro fuel
  induction fuel with
  | zero =>
    intro left right h0 h1 h2 hf
    omega
  | succ fuel ih =>
    intro left right h0 h1 h2 hf
    rw [binSearch]
    by_cases hlr : left ≤ right
    · rw [if_pos hlr]
      have hd1 : 0 ≤ (right - left) / 2 := Int.ediv_nonneg (by omega)
        (by norm_num)
      have hd2 : (right - left) / 2 ≤ right - left :=
        Int.ediv_le_self 2 (by omega)
      have hQmid := hQ (left + (right - left) / 2) (by omega)
      by_cases hm : left + (right - left) / 2 < M
      · rw [hQmid, decide_eq_true hm]
        exact ih (left + (right - left) / 2 + 1) right (by omega) (by omega)
          (by omega) (by omega)
      · rw [hQmid, decide_eq_false hm]
        exact ih left (left + (right - left) / 2 - 1) (by omega) (by omega)
          (by omega) (by omega)
    · rw [if_neg hlr]
      have : left = M := by omega
      rw [this]

theorem foldr_max_mem (l : List Int) (a : Int) :
    l.foldr max a = a ∨ l.foldr max a ∈ l := by
  induction l with
  | nil => left; rfl
  | cons x rest ih =>
    simp only [List.foldr_cons]
    rcases max_choice x (rest.foldr max a) with h | h
    · right
      rw [h]
      exact List.mem_cons_self x rest
    · rcases ih with h2 | h2
      · left
        rw [h, h2]
      · right
        rw [h]
        exact List.mem_cons_of_mem x h2

theorem foldr_max_le {l : List Int} {a c : Int} (ha : a ≤ c)
    (hl : ∀ x ∈ l, x ≤ c) : l.foldr max a ≤ c := by
  induction l with
  | nil => exact ha
  | cons x rest ih =>
    simp only [List.foldr_cons]
    exact max_le (hl x (by simp)) (ih (fun y hy => hl y (by simp [hy])))

theorem bitsToNat_lt (v : List Bool) : bitsToNat v < 2 ^ v.length := by
  induction v with
  | nil => simp [bitsToNat]
  | cons b rest ih =>
    rw [bitsToNat, List.length_cons, pow_succ]
    cases b <;> simp <;> omega

theorem netPoValsV_length (net : CNet) (piv : List Bool) :
    (netPoValsV net piv).length = net.pos.length := by
  unfold netPoValsV
  rw [List.length_map]

theorem allInputs_ne_nil (n : Nat) : allInputs n ≠ [] :=
  List.ne_nil_of_mem (mem_allInputs n (List.replicate n false)
    (List.length_replicate n false))

theorem errOf_nonneg (m : MetrType) (acc app : CNet) (x : List Bool) :
    0 ≤ errOf m acc app x := by
  cases m
  · exact abs_nonneg _
  · exact Int.natCast_nonneg _

theorem satQuery_eq (m : MetrType) (acc app : CNet) (v : Int) :
    satQuery m acc app v = decide (v < maxErrBF m acc app) := by
  by_cases h : v < maxErrBF m acc app
  · rw [decide_eq_true h]
    unfold satQuery
    rw [List.any_eq_true]
    rcases foldr_max_mem ((allInputs acc.pis.length).map (errOf m acc app)) 0
      with h0 | hmem
    · unfold maxErrBF at h
      rw [h0] at h
      obtain ⟨x, hx⟩ := List.exists_mem_of_ne_nil _
        (allInputs_ne_nil acc.pis.length)
      exact ⟨x, hx, decide_eq_true
        (lt_of_lt_of_le h (errOf_nonneg m acc app x))⟩
    · rw [List.mem_map] at hmem
      obtain ⟨x, hx, hex⟩ := hmem
      refine ⟨x, hx, decide_eq_true ?_⟩
      unfold maxErrBF at h
      rw [← hex] at h
      exact h
  · rw [decide_eq_false h]
    unfold satQuery
    rw [List.any_eq_false]
    intro x hx hcontra
    apply h
    exact lt_of_lt_of_le (of_decide_eq_true hcontra) (mem_le_foldr_max
      (List.mem_map_of_mem (errOf m acc app) hx) 0)

theorem errOf_le (m : MetrType) (acc app : CNet) (x : List Bool)
    (hpo : app.pos.length = acc.pos.length) :
    errOf m acc app x ≤ 2 ^ refErrWidth m acc.pos.length - 1 := by
  cases m
  · unfold errOf refErrWidth
    simp only
    have ha : bitsToNat (netPoValsV acc x) < 2 ^ acc.pos.length := by
      have h2 := bitsToNat_lt (netPoValsV acc x)
      rwa [netPoValsV_length] at h2
    have hb : bitsToNat (netPoValsV app x) < 2 ^ acc.pos.length := by
      have h2 := bitsToNat_lt (netPoValsV app x)
      rwa [netPoValsV_length, hpo] at h2
    have hcast : ((2 : Int) ^ acc.pos.length)
        = ((2 ^ acc.pos.length : Nat) : Int) := by
      push_cast
      ring
    rw [abs_le]
    constructor
    · rw [hcast]
      omega
    · rw [hcast]
      omega
  · unfold errOf refErrWidth
    simp only
    have h1 : (((netPoValsV acc x).zip (netPoValsV app x)).filter
        fun p => ! (p.1 == p.2)).length ≤ acc.pos.length := by
      calc (((netPoValsV acc x).zip (netPoValsV app x)).filter
            fun p => ! (p.1 == p.2)).length
          ≤ ((netPoValsV acc x).zip (netPoValsV app x)).length :=
            List.length_filter_le _ _
        _ ≤ (netPoValsV acc x).length := by
            rw [List.length_zip]
            exact min_le_left _ _
        _ = acc.pos.length := netPoValsV_length acc x
    have h2 : acc.pos.length < 2 ^ (Nat.log2 acc.pos.length + 1) := by
      rw [Nat.log2_eq_log_two]
      exact Nat.lt_pow_succ_log_self (by norm_num) _
    have hcast : ((2 : Int) ^ (Nat.log2 acc.pos.length + 1))
        = ((2 ^ (Nat.log2 acc.pos.length + 1) : Nat) : Int) := by
      push_cast
      ring
    rw [hcast]
    omega

/-- C1: for every pair of networks with matching output width,
`ComputeMaxErr` — the binary search over the reference-error bits that
narrows `[0, 2^width - 1]` with one additional solve per step under changed
assumption polarities — returns exactly the brute-force enumeration value:
the maximum over all primary-input assignments of the absolute difference of
the two output values (MAXED, width = output width), respectively of the
Hamming distance of the two output vectors (MAXHD,
width = log2(outputs) + 1). -/
theorem computeMaxErr_eq_bruteforce (m : MetrType) (acc app : CNet)
    (fuel : Nat) (hpo : app.pos.length = acc.pos.length)
    (hfuel : 2 ^ refErrWidth m acc.pos.length < fuel) :
    ComputeMaxErr m acc app fuel = some (maxErrBF m acc app) := by
  unfold ComputeMaxErr
  have hMnn : 0 ≤ maxErrBF m acc app := le_foldr_max _ 0
  have hpow : (0 : Int) < 2 ^ refErrWidth m acc.pos.length :=
    pow_pos (by norm_num) _
  have hcast : ((2 : Int) ^ refErrWidth m acc.pos.length)
      = ((2 ^ refErrWidth m acc.pos.length : Nat) : Int) := by
    push_cast
    ring
  have hM : maxErrBF m acc app ≤ 2 ^ refErrWidth m acc.pos.length - 1 := by
    apply foldr_max_le (by omega)
    intro e he
    rw [List.mem_map] at he
    obtain ⟨x, hx, hex⟩ := he
    rw [← hex]
    exact errOf_le m acc app x hpo
  apply binSearch_correct (satQuery m acc app) (maxErrBF m acc app)
    (fun v _ => satQuery_eq m acc app v) fuel 0
    (2 ^ refErrWidth m acc.pos.length - 1) (le_refl 0) hMnn (by omega)
    (by omega)

/-- Accurate network of the binary-search witness: one PI wired to the PO. -/
def c1Acc : CNet := ⟨["x"], [([0], ⟨[[some true]], true⟩)], [1]⟩

/-- Approximate network of the binary-search witness: constant-0 output. -/
def c1App : CNet := ⟨["x"], [([], ⟨[], true⟩)], [1]⟩

theorem computeMaxErr_eq_bruteforce_witness :
    ComputeMaxErr MetrType.maxed c1Acc c1App 3
      = some (maxErrBF MetrType.maxed c1Acc c1App)
    ∧ maxErrBF MetrType.maxed c1Acc c1App = 1 := by
  refine ⟨computeMaxErr_eq_bruteforce MetrType.maxed c1Acc c1App 3
    (by decide) (by decide), by decide⟩

/-! ### Estimator stored error through the double cast (`PruneLacsWithSim`,
`LAC::SetErr`) -/

/-- `static_cast<double>(maxErrSim)` in the `pLac->SetErr` calls of
`PruneLacsWithSim`: IEEE-754 binary64 round-to-nearest-even of a nonnegative
integer. An integer up to `2^53` converts exactly; a larger one is rounded
to 53 significant bits, ties going to the even mantissa. `maxErrSim` is a
`BigInt` (`int512_t`) in the MAXED branch and a `long long` in the MAXHD
branch, so the significant-width search is bounded by 512 bits. -/
def castD (n : Nat) : Nat :=
  if n ≤ 2 ^ 53 then n
  else
    let e := ((List.range 512).find? fun k => n < 2 ^ (53 + k)).getD 512
    let q := n / 2 ^ e
    let r := n % 2 ^ e
    if r < 2 ^ (e - 1) then q * 2 ^ e
    else if 2 ^ (e - 1) < r then (q + 1) * 2 ^ e
    else if q % 2 = 0 then q * 2 ^ e else (q + 1) * 2 ^ e

/-- Per-pattern error the estimator computes from the reconstructed PO
vector under metric `m`: the `GetValue` absolute difference for MAXED, the
`poDiffs` popcount (Hamming distance) for MAXHD. -/
def patErrOf (m : MetrType) (acc net : CNet) (t : Nat) (divs : List Nat)
    (sop : SopF) (piv : List Bool) : Int :=
  match m with
  | .maxed => patErr acc net t divs sop piv
  | .maxhd => ((((netPoValsV acc piv).zip (reconPos net piv t divs sop)).filter
      fun p => ! (p.1 == p.2)).length : Int)

/-- The `error` value `PruneLacsWithSim` stores on a candidate under metric
`m`: the early-exit maximum of the per-pattern errors over the simulated
patterns, passed to `LAC::SetErr` through `static_cast<double>`. -/
def storedErrOf (m : MetrType) (acc net : CNet) (patts : List (List Bool))
    (bound : Int) (t : Nat) (divs : List Nat) (sop : SopF) : Int :=
  (castD (maxErrLoop bound 0
    (patts.map (patErrOf m acc net t divs sop))).toNat : Int)

/-- True worst-case error of the candidate over all PI assignments under
metric `m`: the network with the candidate applied against the accurate
network. -/
def trueMaxErrOf (m : MetrType) (acc net : CNet) (t : Nat) (divs : List Nat)
    (sop : SopF) : Int :=
  ((allInputs net.pis.length).map fun x =>
    errOf m acc (modNet net t divs sop) x).foldr max 0

theorem castD_eq_self {n : Nat} (h : n ≤ 2 ^ 53) : castD n = n := by
  unfold castD
  rw [if_pos h]

theorem maxErrLoop_nonneg (bound : Int) :
    ∀ (errs : List Int) (acc : Int), 0 ≤ acc →
      0 ≤ maxErrLoop bound acc errs := by
  intro errs
  induction errs with
  | nil =>
    intro acc h
    rw [maxErrLoop]
    exact h
  | cons e rest ih =>
    intro acc h
    rw [maxErrLoop]
    by_cases hb : bound < max acc e
    · rw [if_pos hb]
      exact le_trans h (le_max_left acc e)
    · rw [if_neg hb]
      exact ih (max acc e) (le_trans h (le_max_left acc e))

/-- Accurate network of the rounding counterexample: one primary input, 54
primary outputs reading the value `2^53 + 3` (bits 0, 1 and 53 set) when the
input is 1 and `0` when it is 0. Wire 1 buffers the input, wire 2 is
constant 0. -/
def c3CastAcc : CNet :=
  ⟨["x"],
   [([0], ⟨[[some true]], true⟩), ([], ⟨[], true⟩)],
   [1, 1] ++ List.replicate 51 2 ++ [1]⟩

set_option maxRecDepth 10000 in
/-- The candidate of the rounding counterexample replaces the buffer node
with constant 0, so the true (and simulated) maximum error is `2^53 + 3` —
but `static_cast<double>` rounds the stored error up to `2^53 + 4`, which
exceeds the true worst-case error: the stored value is not a lower bound. -/
theorem pruneLacsWithSim_stored_exceeds_true :
    storedErrOf MetrType.maxed c3CastAcc c3CastAcc [[true]] (2 ^ 60) 0 []
        ⟨[], true⟩ = 2 ^ 53 + 4
    ∧ trueMaxErrOf MetrType.maxed c3CastAcc c3CastAcc 0 [] ⟨[], true⟩
        = 2 ^ 53 + 3
    ∧ trueMaxErrOf MetrType.maxed c3CastAcc c3CastAcc 0 [] ⟨[], true⟩
        < storedErrOf MetrType.maxed c3CastAcc c3CastAcc [[true]] (2 ^ 60) 0
            [] ⟨[], true⟩ := by
  exact ⟨by decide, by decide, by decide⟩

/-- C3: for every candidate scored by the simulation pass of
`PruneLacsWithSim`, under either metric (MAXED or MAXHD), the
Boolean-difference reconstruction of the would-be PO vector is exact on
every simulated pattern — it equals the PO vector of the network with the
candidate applied — and, provided the simulated maximum error does not
exceed `2^53` (so that the `static_cast<double>` in `LAC::SetErr` is
exact), the stored `error` value never exceeds the true worst-case error of
the candidate over all primary-input assignments. Above `2^53` the
round-to-nearest cast can exceed it, as the rounding counterexample
shows. -/
theorem pruneLacsWithSim_spec (m : MetrType) (acc net : CNet) (t : Nat)
    (divs : List Nat) (sop : SopF) (patts : List (List Bool)) (bound : Int)
    (hwf : wfGates net = true) (hpos : wfPos net = true)
    (ht : t < net.gates.length)
    (hdivs : ∀ f ∈ divs, f < net.pis.length + t)
    (hpatts : ∀ p ∈ patts, p.length = net.pis.length)
    (hrep : maxErrLoop bound 0 (patts.map (patErrOf m acc net t divs sop))
        ≤ 2 ^ 53) :
    (∀ piv, piv.length = net.pis.length →
      reconPos net piv t divs sop = netPoValsV (modNet net t divs sop) piv)
    ∧ storedErrOf m acc net patts bound t divs sop
        ≤ trueMaxErrOf m acc net t divs sop := by
  constructor
  · intro piv hplen
    exact reconPos_exact net piv t divs sop hwf hpos hplen ht hdivs
  · have hkey : ∀ piv ∈ patts, patErrOf m acc net t divs sop piv
        = errOf m acc (modNet net t divs sop) piv := by
      intro piv hpv
      have hplen := hpatts piv hpv
      cases m
      · show patErr acc net t divs sop piv
          = |(bitsToNat (netPoValsV acc piv) : Int)
            - (bitsToNat (netPoValsV (modNet net t divs sop) piv) : Int)|
        unfold patErr
        rw [reconPos_exact net piv t divs sop hwf hpos hplen ht hdivs]
      · show ((((netPoValsV acc piv).zip
              (reconPos net piv t divs sop)).filter
            fun p => ! (p.1 == p.2)).length : Int)
          = ((((netPoValsV acc piv).zip
              (netPoValsV (modNet net t divs sop) piv)).filter
            fun p => ! (p.1 == p.2)).length : Int)
        rw [reconPos_exact net piv t divs sop hwf hpos hplen ht hdivs]
    have hS : maxErrLoop bound 0 (patts.map (patErrOf m acc net t divs sop))
        ≤ trueMaxErrOf m acc net t divs sop := by
      unfold trueMaxErrOf
      apply maxErrLoop_le
      · exact le_foldr_max _ 0
      · intro e he
        rw [List.mem_map] at he
        obtain ⟨piv, hpv, hpe⟩ := he
        rw [← hpe, hkey piv hpv]
        apply mem_le_foldr_max
        rw [List.mem_map]
        exact ⟨piv, mem_allInputs net.pis.length piv (hpatts piv hpv), rfl⟩
    have hnn : 0 ≤ maxErrLoop bound 0
        (patts.map (patErrOf m acc net t divs sop)) :=
      maxErrLoop_nonneg bound _ 0 le_rfl
    have h53 : ((2 : Int) ^ 53) = ((2 ^ 53 : Nat) : Int) := by
      push_cast
    rw [h53] at hrep
    unfold storedErrOf
    rw [castD_eq_self (by omega)]
    omega

theorem pruneLacsWithSim_spec_witness :
    reconPos c3Net [true, false] 1 [0] c3Sop
      = netPoValsV (modNet c3Net 1 [0] c3Sop) [true, false]
    ∧ storedErrOf MetrType.maxed c3Net c3Net [[true, false]] 5 1 [0] c3Sop
        ≤ trueMaxErrOf MetrType.maxed c3Net c3Net 1 [0] c3Sop := by
  have h := pruneLacsWithSim_spec MetrType.maxed c3Net c3Net 1 [0] c3Sop
    [[true, false]] 5 (by decide) (by decide) (by decide) (by decide)
    (by decide) (by decide)
  exact ⟨h.1 [true, false] (by decide), h.2⟩

end SimALS
